import Mathlib

/-!
# Intrusive MPSC fifo (`src/mpscfifo.c`): shallow embedding

The C heap is modelled by explicit state passing.  A `Msg_t*` is an
`Option Addr` (`none` is `NULL`), a `MpscFifo_t*` that is dereferenced is the
queue's number, and the embedded sentinel `pQ->stub` of queue `q` lives at the
address `Addr.stub q`.  A `NULL` dereference is the outcome `Res.fault`; the
wait loop of `rmv` runs on fuel and yields `Res.stalled` when the fuel is
used up while `pNext` is still `NULL`.

`DPF` (from the absent `dpf.h`) is a trace print and is left out.  The switches
`USE_ATOMIC_TYPES` (absent `mpscfifo.h`) and `COUNT` are parameters (`Build`).
-/

namespace MpscFifo

/-- Address of a message envelope: the sentinel embedded in queue `q`, or an
externally allocated `Msg_t`. -/
inductive Addr where
  | stub (q : Nat)
  | node (i : Nat)
  deriving DecidableEq, Repr

/-- A `Msg_t*`; `none` is `NULL`. -/
abbrev Ptr := Option Addr

/-- A `MpscFifo_t*` stored in a message; `none` is `NULL`. -/
abbrev QPtr := Option Nat

/-- The fields of `Msg_t` used by `mpscfifo.c`.  `arg1`, `arg2` are `uint64_t`
values that the code only copies. -/
structure Msg_t where
  pNext : Ptr
  pPool : QPtr
  pRspQ : QPtr
  arg1 : Nat
  arg2 : Nat
  deriving DecidableEq, Repr

/-- The fields of `MpscFifo_t` besides the embedded `stub`.  The declarations
are in the absent `mpscfifo.h`: `msgs_processed` is taken as the `uint64_t` that
`deinitMpscFifo` copies it into and returns; `count` is kept as an integer. -/
structure MpscFifo_t where
  pHead : Ptr
  pTail : Ptr
  count : Int
  msgs_processed : Nat
  deriving DecidableEq, Repr

/-- The heap: every message envelope, every queue record, and the number of
`sched_yield()` calls made so far. -/
structure Mem where
  msgs : Addr → Msg_t
  fifos : Nat → MpscFifo_t
  yields : Nat

/-- Build switches that select the code compiled from `mpscfifo.c`. -/
structure Build where
  USE_ATOMIC_TYPES : Bool
  COUNT : Bool
  deriving DecidableEq, Repr

/-- The `#ifdef COUNT` lines sit only in the `USE_ATOMIC_TYPES` variants. -/
def Build.counting (b : Build) : Bool := b.USE_ATOMIC_TYPES && b.COUNT

/-- The build without `USE_ATOMIC_TYPES` and without `COUNT`. -/
def Build.plain : Build := { USE_ATOMIC_TYPES := false, COUNT := false }

/-- Outcome of a call. -/
inductive Res (α : Type) where
  | ok (a : α)
  | fault
  | stalled

/-- Sequencing of outcomes. -/
def Res.bind {α β : Type} (r : Res α) (f : α → Res β) : Res β :=
  match r with
  | .ok a => f a
  | .fault => .fault
  | .stalled => .stalled

/-- The value of a completed call. -/
def Res.val? {α : Type} : Res α → Option α
  | .ok a => some a
  | .fault => none
  | .stalled => none

/-- Store `a->pNext = p`. -/
def Mem.setNext (s : Mem) (a : Addr) (p : Ptr) : Mem :=
  { s with msgs := fun x => if x = a then { s.msgs a with pNext := p } else s.msgs x }

/-- Store `a->pRspQ = r`. -/
def Mem.setRspQ (s : Mem) (a : Addr) (r : QPtr) : Mem :=
  { s with msgs := fun x => if x = a then { s.msgs a with pRspQ := r } else s.msgs x }

/-- Store `a->arg1 = v`. -/
def Mem.setArg1 (s : Mem) (a : Addr) (v : Nat) : Mem :=
  { s with msgs := fun x => if x = a then { s.msgs a with arg1 := v } else s.msgs x }

/-- Store `pQ->pHead = p`. -/
def Mem.setHead (s : Mem) (pQ : Nat) (p : Ptr) : Mem :=
  { s with fifos := fun q => if q = pQ then { s.fifos pQ with pHead := p } else s.fifos q }

/-- Store `pQ->pTail = p`. -/
def Mem.setTail (s : Mem) (pQ : Nat) (p : Ptr) : Mem :=
  { s with fifos := fun q => if q = pQ then { s.fifos pQ with pTail := p } else s.fifos q }

/-- The statement `pQ->msgs_processed += 1` on a `uint64_t`. -/
def Mem.incProcessed (s : Mem) (pQ : Nat) : Mem :=
  { s with fifos := fun q =>
      if q = pQ then
        { s.fifos pQ with msgs_processed := ((s.fifos pQ).msgs_processed + 1) % 2 ^ 64 }
      else s.fifos q }

/-- The statements `pQ->count += 1` and `pQ->count -= 1`, compiled only under
`COUNT` in the `USE_ATOMIC_TYPES` variants. -/
def Mem.addCount (s : Mem) (b : Build) (pQ : Nat) (d : Int) : Mem :=
  if b.counting then
    { s with fifos := fun q =>
        if q = pQ then { s.fifos pQ with count := (s.fifos pQ).count + d } else s.fifos q }
  else s

/-- The call `sched_yield()`. -/
def sched_yield (s : Mem) : Mem := { s with yields := s.yields + 1 }

/-- `initMpscFifo` (lines 41-53). -/
def initMpscFifo (s : Mem) (pQ : Nat) : Mem :=
  { s with
    fifos := fun q =>
      if q = pQ then
        { pHead := some (.stub pQ), pTail := some (.stub pQ), count := 0, msgs_processed := 0 }
      else s.fifos q
    msgs := fun a =>
      if a = .stub pQ then
        { pNext := none, pPool := none, pRspQ := none, arg1 := 11110001, arg2 := 11110002 }
      else s.msgs a }

/-- `deinitMpscFifo` (lines 58-66): the new heap and the returned count. -/
def deinitMpscFifo (s : Mem) (pQ : Nat) : Mem × Nat :=
  let msgs_processed := (s.fifos pQ).msgs_processed
  ({ s with
      fifos := fun q =>
        if q = pQ then { pHead := none, pTail := none, count := 0, msgs_processed := 0 }
        else s.fifos q },
    msgs_processed)

/-- First half of `add`: `pMsg->pNext = NULL` and the atomic exchange of
`pQ->pHead` with `pMsg`; returns `pPrev`. -/
def add_swap (s : Mem) (pQ : Nat) (pMsg : Ptr) : Res (Mem × Ptr) :=
  match pMsg with
  | none => .fault
  | some m =>
    let s1 := s.setNext m none
    .ok (s1.setHead pQ pMsg, (s1.fifos pQ).pHead)

/-- Second half of `add`: the store `pPrev->pNext = pMsg`, then the count
update of lines 86-91. -/
def add_link (b : Build) (s : Mem) (pQ : Nat) (pPrev pMsg : Ptr) : Res Mem :=
  match pPrev with
  | none => .fault
  | some p =>
    let s1 := s.setNext p pMsg
    .ok (if pMsg ≠ some (.stub pQ) then s1.addCount b pQ 1 else s1)

/-- `add` (lines 73-96 and 101-107). -/
def add (b : Build) (s : Mem) (pQ : Nat) (pMsg : Ptr) : Res Mem :=
  (add_swap s pQ pMsg).bind fun r => add_link b r.1 pQ r.2 pMsg

/-- Tail of both `rmv_non_stalling` variants once `pTail` points at a message
(not the stub) and `pNext` has been read: lines 142-182 under
`USE_ATOMIC_TYPES`, lines 200-216 otherwise. -/
def rmv_non_stalling_rest (b : Build) (s : Mem) (pQ : Nat) (pTail : Addr) (pNext : Ptr) :
    Res (Mem × Ptr) :=
  if b.USE_ATOMIC_TYPES then
    match pNext with
    | some n => .ok (((s.setTail pQ (some n)).incProcessed pQ).addCount b pQ (-1), some pTail)
    | none =>
      if some pTail ≠ (s.fifos pQ).pHead then .ok (s, none)
      else
        (add b s pQ (some (.stub pQ))).bind fun s1 =>
          match (s1.msgs pTail).pNext with
          | some n =>
            .ok (((s1.setTail pQ (some n)).incProcessed pQ).addCount b pQ (-1), some pTail)
          | none => .ok (s1, none)
  else
    match pNext with
    | some n => .ok ((s.incProcessed pQ).setTail pQ (some n), some pTail)
    | none =>
      let pHead := (s.fifos pQ).pHead
      if some pTail ≠ pHead then .ok (s, none)
      else
        (add b s pQ (some (.stub pQ))).bind fun s1 =>
          match (s1.msgs pTail).pNext with
          | none => .ok (s1, none)
          | some n => .ok ((s1.incProcessed pQ).setTail pQ (some n), some pTail)

/-- `rmv_non_stalling` (lines 116-183 and 188-217). -/
def rmv_non_stalling (b : Build) (s : Mem) (pQ : Nat) : Res (Mem × Ptr) :=
  match (s.fifos pQ).pTail with
  | none => .fault
  | some pTail =>
    let pNext := (s.msgs pTail).pNext
    if pTail = .stub pQ then
      match pNext with
      | none => .ok (s, none)
      | some n =>
        let s1 := s.setTail pQ (some n)
        rmv_non_stalling_rest b s1 pQ n (s1.msgs n).pNext
    else rmv_non_stalling_rest b s pQ pTail pNext

/-- The wait loop of `rmv` (lines 273-277 and 319-323): `pNext` has just been
read from `pTail->pNext`; every turn of the loop body calls `sched_yield()` and
reads again. -/
def rmv_wait (pTail : Addr) : Nat → Mem → Ptr → Res (Mem × Addr)
  | _, s, some n => .ok (s, n)
  | 0, _, none => .stalled
  | fuel + 1, s, none =>
    let s1 := sched_yield s
    rmv_wait pTail fuel s1 (s1.msgs pTail).pNext

/-- Tail of `rmv` once `pTail` points at a message (not the stub) and `pNext`
has been read: lines 249-295 under `USE_ATOMIC_TYPES`, lines 313-328
otherwise. -/
def rmv_rest (b : Build) (fuel : Nat) (s : Mem) (pQ : Nat) (pTail : Addr) (pNext : Ptr) :
    Res (Mem × Ptr) :=
  let waited : Res (Mem × Addr) :=
    match pNext with
    | some n => .ok (s, n)
    | none =>
      let pHead := (s.fifos pQ).pHead
      let added : Res Mem :=
        if some pTail = pHead then add b s pQ (some (.stub pQ)) else .ok s
      added.bind fun s1 => rmv_wait pTail fuel s1 (s1.msgs pTail).pNext
  waited.bind fun r =>
    .ok ((((r.1).incProcessed pQ).setTail pQ (some r.2)).addCount b pQ (-1), some pTail)

/-- `rmv` (lines 226-296 and 300-329). -/
def rmv (b : Build) (fuel : Nat) (s : Mem) (pQ : Nat) : Res (Mem × Ptr) :=
  match (s.fifos pQ).pTail with
  | none => .fault
  | some pTail =>
    let pNext := (s.msgs pTail).pNext
    if pTail = .stub pQ then
      match pNext with
      | none => .ok (s, none)
      | some n =>
        let s1 := s.setTail pQ (some n)
        rmv_rest b fuel s1 pQ n (s1.msgs n).pNext
    else rmv_rest b fuel s pQ pTail pNext

/-- `rmv_no_dbg_on_empty` (lines 338-347 and 351-360). -/
def rmv_no_dbg_on_empty (b : Build) (fuel : Nat) (s : Mem) (pQ : Nat) : Res (Mem × Ptr) :=
  match (s.fifos pQ).pTail with
  | none => .fault
  | some pTail =>
    let pNext := (s.msgs pTail).pNext
    if pNext = none ∧ pTail = .stub pQ then .ok (s, none)
    else rmv b fuel s pQ

/-- `ret_msg` (lines 367-378). -/
def ret_msg (b : Build) (s : Mem) (pMsg : Ptr) : Res Mem :=
  match pMsg with
  | none => .ok s
  | some m =>
    match (s.msgs m).pPool with
    | some pPool => add b s pPool pMsg
    | none => .ok s

/-- `send_rsp_or_ret` (lines 383-396). -/
def send_rsp_or_ret (b : Build) (s : Mem) (msg : Ptr) (arg1 : Nat) : Res Mem :=
  match msg with
  | none => .fault
  | some m =>
    match (s.msgs m).pRspQ with
    | some pRspQ =>
      let s1 := s.setRspQ m none
      let s2 := s1.setArg1 m arg1
      add b s2 pRspQ msg
    | none => ret_msg b s msg

/-! ## Calls, runs and observations -/

/-- The three dequeue entry points. -/
inductive Deq where
  | rmv
  | rmv_non_stalling
  | rmv_no_dbg_on_empty
  deriving DecidableEq, Repr

/-- Call the dequeue entry point `k` on queue `pQ`. -/
def dequeue (b : Build) (fuel : Nat) (k : Deq) (s : Mem) (pQ : Nat) : Res (Mem × Ptr) :=
  match k with
  | .rmv => rmv b fuel s pQ
  | .rmv_non_stalling => rmv_non_stalling b s pQ
  | .rmv_no_dbg_on_empty => rmv_no_dbg_on_empty b fuel s pQ

/-- One call of the public surface after `initMpscFifo`. -/
inductive Op where
  | add (pQ : Nat) (pMsg : Ptr)
  | deq (k : Deq) (pQ : Nat)
  | ret_msg (pMsg : Ptr)
  | send_rsp_or_ret (msg : Ptr) (arg1 : Nat)
  deriving DecidableEq, Repr

/-- Execute one call; a dequeue reports the queue and the returned pointer. -/
def Op.exec (b : Build) (fuel : Nat) (s : Mem) : Op → Res (Mem × Option (Nat × Ptr))
  | .add pQ pMsg => (MpscFifo.add b s pQ pMsg).bind fun s1 => .ok (s1, none)
  | .deq k pQ => (dequeue b fuel k s pQ).bind fun r => .ok (r.1, some (pQ, r.2))
  | .ret_msg pMsg => (MpscFifo.ret_msg b s pMsg).bind fun s1 => .ok (s1, none)
  | .send_rsp_or_ret msg arg1 => (MpscFifo.send_rsp_or_ret b s msg arg1).bind fun s1 => .ok (s1, none)

/-- Execute calls one after the other on one thread; the trace lists what
every dequeue returned, in call order. -/
def run (b : Build) (fuel : Nat) : Mem → List Op → Res (Mem × List (Nat × Ptr))
  | s, [] => .ok (s, [])
  | s, op :: ops =>
    (op.exec b fuel s).bind fun r =>
      (run b fuel r.1 ops).bind fun r2 =>
        .ok (r2.1, (match r.2 with | some o => [o] | none => []) ++ r2.2)

/-- Number of dequeues on queue `q` in a trace that returned a message. -/
def successes (q : Nat) (tr : List (Nat × Ptr)) : Nat :=
  (tr.filter fun o => decide (o.1 = q) && o.2.isSome).length

/-- An enqueue or a blocking dequeue on one fixed queue. -/
inductive FifoOp where
  | enq (m : Addr)
  | deq
  deriving DecidableEq, Repr

/-- The call of `mpscfifo.c` that performs a `FifoOp` on queue `q`. -/
def FifoOp.toOp (q : Nat) : FifoOp → Op
  | .enq m => .add q (some m)
  | .deq => .deq .rmv q

/-- The abstract FIFO list: `enq` appends, `deq` takes the oldest element or
reports `none` on the empty list. -/
def specStep : List Addr → FifoOp → List Addr × Option Ptr
  | L, .enq m => (L ++ [m], none)
  | [], .deq => ([], some none)
  | x :: L, .deq => (L, some (some x))

/-- Run of the abstract FIFO list; the outputs are the dequeue results. -/
def specRun : List Addr → List FifoOp → List Addr × List Ptr
  | L, [] => (L, [])
  | L, op :: ops =>
    let r := specStep L op
    let r2 := specRun r.1 ops
    (r2.1, (match r.2 with | some o => [o] | none => []) ++ r2.2)

/-- Every enqueued message is not the sentinel of `q` and is not in the queue
at the time of its enqueue. -/
def admissible (q : Nat) : List Addr → List FifoOp → Prop
  | _, [] => True
  | L, .enq m :: ops => m ≠ .stub q ∧ m ∉ L ∧ admissible q (L ++ [m]) ops
  | L, .deq :: ops => admissible q (specStep L .deq).1 ops

/-- Queue `q` has the link state of an empty queue: head and tail are the
sentinel and the sentinel has no successor. -/
def IsEmptyQ (s : Mem) (q : Nat) : Prop :=
  (s.fifos q).pHead = some (.stub q) ∧ (s.fifos q).pTail = some (.stub q) ∧
    (s.msgs (.stub q)).pNext = none

/-- Follow `pNext` for `n` steps from `p`. -/
def walk (s : Mem) : Nat → Ptr → Ptr
  | 0, p => p
  | _ + 1, none => none
  | n + 1, some a => walk s n (s.msgs a).pNext

/-- Message `m` is reachable from the tail of queue `q`. -/
def onQueue (s : Mem) (q : Nat) (m : Addr) : Prop :=
  ∃ n, walk s n (s.fifos q).pTail = some m

/-- The oldest undelivered message: the tail after skipping the sentinel. -/
def oldest (s : Mem) (q : Nat) : Ptr :=
  match (s.fifos q).pTail with
  | none => none
  | some t => if t = .stub q then (s.msgs t).pNext else some t

/-- A zero-filled heap. -/
def Mem.zero : Mem :=
  { msgs := fun _ => { pNext := none, pPool := none, pRspQ := none, arg1 := 0, arg2 := 0 }
    fifos := fun _ => { pHead := none, pTail := none, count := 0, msgs_processed := 0 }
    yields := 0 }

/-- Store `a->pPool = r`, done by the owner of a message outside `mpscfifo.c`. -/
def Mem.setPool (s : Mem) (a : Addr) (r : QPtr) : Mem :=
  { s with msgs := fun x => if x = a then { s.msgs a with pPool := r } else s.msgs x }

/-- A heap with the initialised empty queues 0 and 1 and the message
`node 5` whose pool is queue 1 and which asks for no response. -/
def Mem.two : Mem := (initMpscFifo (initMpscFifo Mem.zero 0) 1).setPool (.node 5) (some 1)

/-- The heap `Mem.two` with queue 0 set as the response queue of `node 5`. -/
def Mem.twoRsp : Mem := Mem.two.setRspQ (.node 5) (some 0)

/-- The queue that `send_rsp_or_ret` routes a message to: its response queue
if set, otherwise its pool, `none` when both are `NULL`. -/
def routeTarget (s : Mem) (m : Addr) : QPtr :=
  match (s.msgs m).pRspQ with
  | some R => some R
  | none => (s.msgs m).pPool

/-- The heap after `add(0, node 1)` and the first half of `add(0, node 2)` on a
fresh queue 0: `node 1` is linked, the producer of `node 2` is in flight. -/
def Mem.inFlight : Mem :=
  match (add Build.plain (initMpscFifo Mem.zero 0) 0 (some (.node 1))).bind
      fun s => add_swap s 0 (some (.node 2)) with
  | .ok r => r.1
  | _ => Mem.zero

/-- Queue `q` holds exactly the message `m`, fully linked behind the sentinel. -/
def IsSingle (s : Mem) (q : Nat) (m : Addr) : Prop :=
  (s.fifos q).pHead = some m ∧ (s.fifos q).pTail = some (.stub q) ∧
    (s.msgs (.stub q)).pNext = some m ∧ (s.msgs m).pNext = none

/-- What a call on queue `q` leaves alone when it stores only into the record
of `q` and into the `pNext` of the messages listed in `A`: every other queue
record, the routing and payload fields of every message, and the `pNext` of
every message outside `A`. -/
def FrameOn (q : Nat) (A : List Addr) (s s1 : Mem) : Prop :=
  (∀ q1, q1 ≠ q → s1.fifos q1 = s.fifos q1) ∧
  (∀ a, (s1.msgs a).pPool = (s.msgs a).pPool ∧ (s1.msgs a).pRspQ = (s.msgs a).pRspQ ∧
    (s1.msgs a).arg1 = (s.msgs a).arg1 ∧ (s1.msgs a).arg2 = (s.msgs a).arg2) ∧
  (∀ a, a ∉ A → (s1.msgs a).pNext = (s.msgs a).pNext)

/-- No queue's `msgs_processed` differs between `s` and `s1`. -/
def ProcSame (s s1 : Mem) : Prop :=
  ∀ q, (s1.fifos q).msgs_processed = (s.fifos q).msgs_processed

/-- From `s` to `s1` the `msgs_processed` of `pQ` went up by one as a
`uint64_t`, and no other queue's changed. -/
def ProcInc (pQ : Nat) (s s1 : Mem) : Prop :=
  ∀ q, (s1.fifos q).msgs_processed =
    if q = pQ then ((s.fifos q).msgs_processed + 1) % 2 ^ 64 else (s.fifos q).msgs_processed

/-- The calls `add(q, m); rmv(q)` repeated `n` times. -/
def cycles (q : Nat) (m : Addr) : Nat → List Op
  | 0 => []
  | n + 1 => .add q (some m) :: .deq .rmv q :: cycles q m n

/-! ## Producers between the two steps of `add` -/

/-- A queue together with its producers in flight: `inflight` holds the
`(pPrev, pMsg)` of every producer that has done the exchange of `add` but not
yet the store `pPrev->pNext = pMsg`; `queued` lists the messages whose
exchange is done and that no dequeue has returned yet, oldest first. -/
structure Sys where
  mem : Mem
  inflight : List (Addr × Addr)
  queued : List Addr

/-- The last address of the chain `x :: L`. -/
def lastOf : Addr → List Addr → Addr
  | x, [] => x
  | _, y :: L => lastOf y L

/-- The chain `x :: L` under the link function `next` and the producers in
flight `infl`: every node but the last either points at its successor and has
no producer in flight behind it, or still has `pNext == NULL` while the
producer of its successor is in flight; the last node has `pNext == NULL` and
no producer in flight behind it. -/
def Linked (next : Addr → Ptr) (infl : List (Addr × Addr)) : Addr → List Addr → Prop
  | x, [] => next x = none ∧ ∀ y, (x, y) ∉ infl
  | x, y :: L =>
    ((next x = some y ∧ ∀ z, (x, z) ∉ infl) ∨ (next x = none ∧ (x, y) ∈ infl)) ∧
      Linked next infl y L

/-- The chain `t :: L` runs from the tail to the head of queue `q`, is linked
up to the producers in flight, and every producer in flight waits behind a node
of the chain. -/
def Chain (q : Nat) (s : Mem) (infl : List (Addr × Addr)) (t : Addr) (L : List Addr) : Prop :=
  (s.fifos q).pTail = some t ∧ (s.fifos q).pHead = some (lastOf t L) ∧
    Linked (fun a => (s.msgs a).pNext) infl t L ∧ (∀ e ∈ infl, e.1 ∈ t :: L) ∧
    (infl.map Prod.fst).Nodup ∧ (t :: L).Nodup

/-- The structural invariant of the system on queue `q`: the queued messages
are distinct and none is the sentinel, and the chain from the tail is the
sentinel followed by the queued messages, or the queued messages alone once
the tail has moved past the sentinel. -/
def Inv (q : Nat) (σ : Sys) : Prop :=
  Addr.stub q ∉ σ.queued ∧
    ∃ t L, ((t = .stub q ∧ L = σ.queued) ∨ (t ≠ .stub q ∧ t :: L = σ.queued)) ∧
      Chain q σ.mem σ.inflight t L

/-- The nodes `x :: L` are linked one after the other by `pNext`, and the last
one has `pNext == NULL`. -/
def Path (s : Mem) : Addr → List Addr → Prop
  | x, [] => (s.msgs x).pNext = none
  | x, y :: L => (s.msgs x).pNext = some y ∧ Path s y L

/-- The structural invariant of queue `q`: the head is not `NULL`; following
`pNext` from the tail reaches the head after finitely many distinct nodes; the
`pNext` of the head is `NULL`.  The nodes being distinct, the sentinel occurs
at most once among them. -/
def Structural (s : Mem) (q : Nat) : Prop :=
  ∃ t L, (s.fifos q).pTail = some t ∧ (s.fifos q).pHead = some (lastOf t L) ∧
    Path s t L ∧ (t :: L).Nodup

/-- The heap `Mem.two` after `add(0, node 5)`: queue 0 holds one message. -/
def Mem.one : Mem :=
  match add Build.plain Mem.two 0 (some (.node 5)) with
  | .ok s => s
  | _ => Mem.zero

/-- Queue `q` satisfies the structural invariant and `m` is the only node of
its chain that is not the sentinel: `m` is the only remaining message. -/
def HoldsOnly (s : Mem) (q : Nat) (m : Addr) : Prop :=
  ∃ t L, (s.fifos q).pTail = some t ∧ (s.fifos q).pHead = some (lastOf t L) ∧
    Path s t L ∧ (t :: L).Nodup ∧ (t :: L).filter (fun a => decide (a ≠ .stub q)) = [m]

/-- First statement of `add`, the store `pMsg->pNext = NULL` (lines 76 and
103). -/
def add_clear (s : Mem) (pMsg : Ptr) : Res Mem :=
  match pMsg with
  | none => .fault
  | some m => .ok (s.setNext m none)

/-- The atomic exchange of `add` (lines 77 and 104): `pQ->pHead` becomes
`pMsg`, the old head is returned as `pPrev`. -/
def add_xchg (s : Mem) (pQ : Nat) (pMsg : Ptr) : Mem × Ptr :=
  (s.setHead pQ pMsg, (s.fifos pQ).pHead)

/-- The link store of `add`, `pPrev->pNext = pMsg` (lines 84 and 106). -/
def add_store (s : Mem) (pPrev pMsg : Ptr) : Res Mem :=
  match pPrev with
  | none => .fault
  | some p => .ok (s.setNext p pMsg)

/-- The count update that ends `add` (lines 86-91). -/
def add_count_step (b : Build) (s : Mem) (pQ : Nat) (pMsg : Ptr) : Mem :=
  if pMsg ≠ some (.stub pQ) then s.addCount b pQ 1 else s

/-- The stores that end a successful dequeue: `pQ->msgs_processed += 1`,
`pQ->pTail = pNext` and `pQ->count -= 1`. -/
inductive Commit where
  | processed
  | tail
  | count
  deriving DecidableEq, Repr

/-- One store of the end of a successful dequeue. -/
def Commit.exec (b : Build) (q : Nat) (pNext : Addr) (s : Mem) : Commit → Mem
  | .processed => s.incProcessed q
  | .tail => s.setTail q (some pNext)
  | .count => s.addCount b q (-1)

/-- The stores that end a successful dequeue through entry point `k`, in
program order: lines 285-288 and 326-327 in `rmv`; lines 144 (or 163), 176 and
178 in `rmv_non_stalling` under `USE_ATOMIC_TYPES`, lines 213-214 otherwise.
The count update is compiled only under `COUNT`. -/
def commits (b : Build) (k : Deq) : List Commit :=
  (if k = .rmv_non_stalling ∧ b.USE_ATOMIC_TYPES = true then [.tail, .processed]
    else [.processed, .tail]) ++ if b.counting = true then [.count] else []

/-- Where the single consumer thread stands inside a dequeue call, with its
locals.  Every step from a control point is one access of the heap; only the
load of `pQ->pTail`, a field no other thread reads or writes, goes together
with the load that follows it.
* `check`: `rmv_no_dbg_on_empty` before the loads of lines 352-353 (339-340);
* `entry`: before the loads of `pQ->pTail` and `pTail->pNext`, lines 302-303
  (227-228), 189-190 (117-118);
* `skip`: the tail is the stub and `pNext` is not `NULL`; before the store
  `pQ->pTail = pNext` of line 308 (238), 195 (128);
* `second`: before the load of line 310 (240), 197 (130);
* `readHead`: `pNext` was `NULL`; before the load of `pHead`, line 314 (255),
  201 (150);
* `clear`, `xchg`, `link`: inside `add(pQ, &pQ->stub)`, before the store of
  line 103 (76), the exchange of line 104 (77), the store of line 106 (84);
* `wait`: before the load of line 319 or 322 (273, 276), 206 (161);
* `yield`: before the call of `sched_yield` of line 321 (275);
* `commit`: `pNext` is not `NULL`; before the stores listed, or before the
  `return pTail` when none is left. -/
inductive Ctl where
  | check
  | entry (k : Deq)
  | skip (k : Deq) (pNext : Addr)
  | second (k : Deq) (pTail : Addr)
  | readHead (k : Deq) (pTail : Addr)
  | clear (k : Deq) (pTail : Addr)
  | xchg (k : Deq) (pTail : Addr)
  | link (k : Deq) (pTail : Addr) (pPrev : Ptr)
  | wait (k : Deq) (pTail : Addr)
  | yield (k : Deq) (pTail : Addr)
  | commit (k : Deq) (pTail pNext : Addr) (todo : List Commit)
  deriving DecidableEq, Repr

/-- The first control point of a call of entry point `k`. -/
def Ctl.start : Deq → Ctl
  | .rmv => .entry .rmv
  | .rmv_non_stalling => .entry .rmv_non_stalling
  | .rmv_no_dbg_on_empty => .check

/-- The entry point the consumer was called through. -/
def Ctl.kind : Ctl → Deq
  | .check => .rmv_no_dbg_on_empty
  | .entry k => k
  | .skip k _ => k
  | .second k _ => k
  | .readHead k _ => k
  | .clear k _ => k
  | .xchg k _ => k
  | .link k _ _ => k
  | .wait k _ => k
  | .yield k _ => k
  | .commit k _ _ _ => k

/-- What the consumer does after a step: go on at a control point, or return
a pointer to the caller. -/
inductive Next where
  | go (c : Ctl)
  | ret (r : Ptr)
  deriving DecidableEq, Repr

/-- The test `pNext == NULL` of line 313 (249), 200 (142) after a load of
`pTail->pNext`. -/
def consumer_loaded (b : Build) (k : Deq) (pTail : Addr) (pNext : Ptr) : Next :=
  match pNext with
  | some n => .go (.commit k pTail n (commits b k))
  | none => .go (.readHead k pTail)

/-- One step of the consumer thread from control point `c` on the heap `s`. -/
def consumer_step (b : Build) (q : Nat) (s : Mem) : Ctl → Res (Mem × Next)
  | .check =>
    match (s.fifos q).pTail with
    | none => .fault
    | some pTail =>
      if (s.msgs pTail).pNext = none ∧ pTail = .stub q then .ok (s, .ret none)
      else .ok (s, .go (.entry .rmv_no_dbg_on_empty))
  | .entry k =>
    match (s.fifos q).pTail with
    | none => .fault
    | some pTail =>
      if pTail = .stub q then
        match (s.msgs pTail).pNext with
        | none => .ok (s, .ret none)
        | some n => .ok (s, .go (.skip k n))
      else .ok (s, consumer_loaded b k pTail (s.msgs pTail).pNext)
  | .skip k n => .ok (s.setTail q (some n), .go (.second k n))
  | .second k pTail => .ok (s, consumer_loaded b k pTail (s.msgs pTail).pNext)
  | .readHead k pTail =>
    if some pTail = (s.fifos q).pHead then .ok (s, .go (.clear k pTail))
    else if k = .rmv_non_stalling then .ok (s, .ret none)
    else .ok (s, .go (.wait k pTail))
  | .clear k pTail =>
    (add_clear s (some (.stub q))).bind fun s1 => .ok (s1, .go (.xchg k pTail))
  | .xchg k pTail =>
    .ok ((add_xchg s q (some (.stub q))).1, .go (.link k pTail (add_xchg s q (some (.stub q))).2))
  | .link k pTail pPrev =>
    (add_store s pPrev (some (.stub q))).bind fun s1 =>
      .ok (add_count_step b s1 q (some (.stub q)), .go (.wait k pTail))
  | .wait k pTail =>
    match (s.msgs pTail).pNext with
    | some n => .ok (s, .go (.commit k pTail n (commits b k)))
    | none =>
      if k = .rmv_non_stalling then .ok (s, .ret none)
      else .ok (s, .go (.yield k pTail))
  | .yield k pTail => .ok (sched_yield s, .go (.wait k pTail))
  | .commit _ pTail _ [] => .ok (s, .ret (some pTail))
  | .commit k pTail n (o :: todo) => .ok (o.exec b q n s, .go (.commit k pTail n todo))

/-- The consumer running alone from control point `c` for at most `n`
steps. -/
def drive (b : Build) (q : Nat) : Nat → Mem → Ctl → Res (Mem × Ptr)
  | 0, _, _ => .stalled
  | n + 1, s, c =>
    (consumer_step b q s c).bind fun r =>
      match r.2 with
      | .ret p => .ok (r.1, p)
      | .go c1 => drive b q n r.1 c1

/-- The queue with all its threads: the heap; the messages of the producers
that have stored `pMsg->pNext = NULL` and not yet exchanged the head; the
producers in flight, `(pPrev, pMsg)` for every producer between the exchange
and the link store of `add`; the messages of the producers between the link
store and the count update; the messages whose exchange is done and that no
dequeue has returned yet; and the consumer's control point (`none` outside a
dequeue call). -/
structure Conc where
  mem : Mem
  cleared : List Addr
  inflight : List (Addr × Addr)
  counting : List Addr
  queued : List Addr
  consumer : Option Ctl

/-- The queued messages after a dequeue call has returned `r`. -/
def Conc.after (σ : Conc) (r : Ptr) : List Addr :=
  match r with
  | none => σ.queued
  | some x => σ.queued.erase x

/-- The system after a step of the consumer that left the heap `s1`: the
consumer stands at its next control point, or has returned and its message has
left the queued messages. -/
def Conc.resume (σ : Conc) (s1 : Mem) : Next → Conc
  | .go c1 => ⟨s1, σ.cleared, σ.inflight, σ.counting, σ.queued, some c1⟩
  | .ret r => ⟨s1, σ.cleared, σ.inflight, σ.counting, σ.after r, none⟩

/-- One atomic step of some thread on queue `q`, with the returned pointer as
label when a dequeue call returns.  A producer runs `add(pQ, pMsg)` in four
steps, `clear`, `xchg`, `link` and `count`, on a message that is not the
sentinel (and, when `strict`, neither in the queue nor in the hands of another
producer); the consumer enters a dequeue call, or takes its next step, which
may return. -/
inductive CStep (strict : Bool) (b : Build) (q : Nat) :
    Conc → Option (Deq × Ptr) → Conc → Prop where
  | clear (σ : Conc) (m : Addr) (s1 : Mem) :
      m ≠ .stub q → (strict = true → m ∉ σ.queued ∧ m ∉ σ.cleared) →
      add_clear σ.mem (some m) = .ok s1 →
      CStep strict b q σ none
        ⟨s1, σ.cleared ++ [m], σ.inflight, σ.counting, σ.queued, σ.consumer⟩
  | xchg (σ : Conc) (l1 l2 : List Addr) (m p : Addr) (s1 : Mem) :
      σ.cleared = l1 ++ m :: l2 →
      add_xchg σ.mem q (some m) = (s1, some p) →
      CStep strict b q σ none
        ⟨s1, l1 ++ l2, σ.inflight ++ [(p, m)], σ.counting, σ.queued ++ [m], σ.consumer⟩
  | link (σ : Conc) (l1 l2 : List (Addr × Addr)) (p m : Addr) (s1 : Mem) :
      σ.inflight = l1 ++ (p, m) :: l2 →
      add_store σ.mem (some p) (some m) = .ok s1 →
      CStep strict b q σ none
        ⟨s1, σ.cleared, l1 ++ l2, σ.counting ++ [m], σ.queued, σ.consumer⟩
  | count (σ : Conc) (l1 l2 : List Addr) (m : Addr) :
      σ.counting = l1 ++ m :: l2 →
      CStep strict b q σ none
        ⟨add_count_step b σ.mem q (some m), σ.cleared, σ.inflight, l1 ++ l2, σ.queued, σ.consumer⟩
  | call (σ : Conc) (k : Deq) :
      σ.consumer = none →
      CStep strict b q σ none
        ⟨σ.mem, σ.cleared, σ.inflight, σ.counting, σ.queued, some (Ctl.start k)⟩
  | go (σ : Conc) (c c1 : Ctl) (s1 : Mem) :
      σ.consumer = some c → consumer_step b q σ.mem c = .ok (s1, .go c1) →
      CStep strict b q σ none (σ.resume s1 (.go c1))
  | ret (σ : Conc) (c : Ctl) (s1 : Mem) (r : Ptr) :
      σ.consumer = some c → consumer_step b q σ.mem c = .ok (s1, .ret r) →
      CStep strict b q σ (some (c.kind, r)) (σ.resume s1 (.ret r))

/-- States reachable from `initMpscFifo` by interleaved steps of producers and
of the consumer. -/
inductive Reach (strict : Bool) (b : Build) (q : Nat) : Conc → Prop where
  | init (s0 : Mem) : Reach strict b q ⟨initMpscFifo s0 q, [], [], [], [], none⟩
  | step (σ σ1 : Conc) (l : Option (Deq × Ptr)) :
      Reach strict b q σ → CStep strict b q σ l σ1 → Reach strict b q σ1

/-- The consumer's own `add(pQ, &pQ->stub)` between its exchange and its link
store. -/
def Ctl.pending (q : Nat) : Option Ctl → List (Addr × Addr)
  | some (.link _ _ (some p)) => [(p, .stub q)]
  | _ => []

/-- The message the consumer has taken off the chain and not yet returned:
`pTail` once the store `pQ->pTail = pNext` is done. -/
def Ctl.held : Option Ctl → List Addr
  | some (.commit _ a _ todo) => if Commit.tail ∈ todo then [] else [a]
  | _ => []

/-- What the consumer's locals have to do with the heap `s` and the chain
`t :: L`: its `pTail` is the tail and not the stub; the `pNext` it has read is
still stored there; before its exchange the stub is not on the chain; before
its link store `pPrev` is a valid pointer. -/
def CtlOK (q : Nat) (s : Mem) (c : Option Ctl) (t : Addr) (L : List Addr) : Prop :=
  match c with
  | none => True
  | some .check => True
  | some (.entry _) => True
  | some (.skip _ n) => t = .stub q ∧ (s.msgs (.stub q)).pNext = some n
  | some (.second _ a) => t = a ∧ a ≠ .stub q
  | some (.readHead _ a) => t = a ∧ a ≠ .stub q
  | some (.clear _ a) => t = a ∧ a ≠ .stub q ∧ Addr.stub q ∉ t :: L
  | some (.xchg _ a) =>
    t = a ∧ a ≠ .stub q ∧ Addr.stub q ∉ t :: L ∧ (s.msgs (.stub q)).pNext = none
  | some (.link _ a p) => t = a ∧ a ≠ .stub q ∧ p ≠ none
  | some (.wait _ a) => t = a ∧ a ≠ .stub q
  | some (.yield _ a) => t = a ∧ a ≠ .stub q
  | some (.commit _ a n todo) =>
    a ≠ .stub q ∧ todo.Nodup ∧ (Commit.tail ∈ todo → t = a ∧ (s.msgs a).pNext = some n)

/-- The invariant of the interleaved system when producers only enqueue
messages that are neither in the queue nor in the hands of another producer:
the chain from the tail to the head is linked up to the pending link stores of
the producers and of the consumer; its nodes other than the stub, after the
message the consumer is about to return, are the queued messages; and the
messages whose `pNext` a producer has cleared are distinct, off the chain, and
still cleared. -/
def CInv (q : Nat) (σ : Conc) : Prop :=
  ∃ t L, Chain q σ.mem (Ctl.pending q σ.consumer ++ σ.inflight) t L ∧
    Ctl.held σ.consumer ++ (t :: L).filter (fun a => decide (a ≠ .stub q)) = σ.queued ∧
    CtlOK q σ.mem σ.consumer t L ∧
    (∀ m ∈ σ.cleared, m ≠ .stub q ∧ m ∉ t :: L ∧ (σ.mem.msgs m).pNext = none) ∧
    σ.cleared.Nodup

/-- What keeps the stub from being returned, whatever non-sentinel messages
the producers enqueue: the stub does not point at itself, no producer carries
it, the consumer's `pTail` is not the stub, the head is not the stub before the
consumer's exchange, and `pPrev` is not the stub before its link store. -/
def Guard (q : Nat) (σ : Conc) : Prop :=
  (σ.mem.msgs (.stub q)).pNext ≠ some (.stub q) ∧ (∀ m ∈ σ.cleared, m ≠ .stub q) ∧
    (∀ e ∈ σ.inflight, e.2 ≠ .stub q) ∧
    match σ.consumer with
    | none => True
    | some .check => True
    | some (.entry _) => True
    | some (.skip _ n) => n ≠ .stub q
    | some (.second _ a) => a ≠ .stub q
    | some (.readHead _ a) => a ≠ .stub q
    | some (.clear _ a) => a ≠ .stub q ∧ (σ.mem.fifos q).pHead ≠ some (.stub q)
    | some (.xchg _ a) => a ≠ .stub q ∧ (σ.mem.fifos q).pHead ≠ some (.stub q)
    | some (.link _ a p) => a ≠ .stub q ∧ p ≠ some (.stub q)
    | some (.wait _ a) => a ≠ .stub q
    | some (.yield _ a) => a ≠ .stub q
    | some (.commit _ a _ _) => a ≠ .stub q

/-- The heap `Mem.two` after `add(0, &stub of queue 1)`: the sentinel of the
empty queue 1 is linked on queue 0. -/
def Mem.shared : Mem :=
  match add Build.plain Mem.two 0 (some (.stub 1)) with
  | .ok s => s
  | _ => Mem.two

/-! ## Reading the heap after a store -/

section Projections

variable (s : Mem) (b : Build) (a x : Addr) (q q' : Nat) (p : Ptr) (r : QPtr) (v : Nat) (d : Int)

@[simp] theorem Res.bind_ok {α β : Type} (v : α) (f : α → Res β) : (Res.ok v).bind f = f v := rfl
@[simp] theorem Res.bind_fault {α β : Type} (f : α → Res β) : (Res.fault : Res α).bind f = .fault :=
  rfl
@[simp] theorem Res.bind_stalled {α β : Type} (f : α → Res β) :
    (Res.stalled : Res α).bind f = .stalled := rfl

@[simp] theorem setNext_fifos : (s.setNext a p).fifos = s.fifos := rfl
@[simp] theorem setNext_yields : (s.setNext a p).yields = s.yields := rfl
@[simp] theorem setNext_pNext :
    ((s.setNext a p).msgs x).pNext = if x = a then p else (s.msgs x).pNext := by
  unfold Mem.setNext; dsimp only; split <;> simp_all
@[simp] theorem setNext_pPool : ((s.setNext a p).msgs x).pPool = (s.msgs x).pPool := by
  unfold Mem.setNext; dsimp only; split <;> simp_all
@[simp] theorem setNext_pRspQ : ((s.setNext a p).msgs x).pRspQ = (s.msgs x).pRspQ := by
  unfold Mem.setNext; dsimp only; split <;> simp_all
@[simp] theorem setNext_arg1 : ((s.setNext a p).msgs x).arg1 = (s.msgs x).arg1 := by
  unfold Mem.setNext; dsimp only; split <;> simp_all
@[simp] theorem setNext_arg2 : ((s.setNext a p).msgs x).arg2 = (s.msgs x).arg2 := by
  unfold Mem.setNext; dsimp only; split <;> simp_all

@[simp] theorem setRspQ_fifos : (s.setRspQ a r).fifos = s.fifos := rfl
@[simp] theorem setRspQ_yields : (s.setRspQ a r).yields = s.yields := rfl
@[simp] theorem setRspQ_pNext : ((s.setRspQ a r).msgs x).pNext = (s.msgs x).pNext := by
  unfold Mem.setRspQ; dsimp only; split <;> simp_all
@[simp] theorem setRspQ_pPool : ((s.setRspQ a r).msgs x).pPool = (s.msgs x).pPool := by
  unfold Mem.setRspQ; dsimp only; split <;> simp_all
@[simp] theorem setRspQ_pRspQ :
    ((s.setRspQ a r).msgs x).pRspQ = if x = a then r else (s.msgs x).pRspQ := by
  unfold Mem.setRspQ; dsimp only; split <;> simp_all
@[simp] theorem setRspQ_arg1 : ((s.setRspQ a r).msgs x).arg1 = (s.msgs x).arg1 := by
  unfold Mem.setRspQ; dsimp only; split <;> simp_all
@[simp] theorem setRspQ_arg2 : ((s.setRspQ a r).msgs x).arg2 = (s.msgs x).arg2 := by
  unfold Mem.setRspQ; dsimp only; split <;> simp_all

@[simp] theorem setArg1_fifos : (s.setArg1 a v).fifos = s.fifos := rfl
@[simp] theorem setArg1_yields : (s.setArg1 a v).yields = s.yields := rfl
@[simp] theorem setArg1_pNext : ((s.setArg1 a v).msgs x).pNext = (s.msgs x).pNext := by
  unfold Mem.setArg1; dsimp only; split <;> simp_all
@[simp] theorem setArg1_pPool : ((s.setArg1 a v).msgs x).pPool = (s.msgs x).pPool := by
  unfold Mem.setArg1; dsimp only; split <;> simp_all
@[simp] theorem setArg1_pRspQ : ((s.setArg1 a v).msgs x).pRspQ = (s.msgs x).pRspQ := by
  unfold Mem.setArg1; dsimp only; split <;> simp_all
@[simp] theorem setArg1_arg1 :
    ((s.setArg1 a v).msgs x).arg1 = if x = a then v else (s.msgs x).arg1 := by
  unfold Mem.setArg1; dsimp only; split <;> simp_all
@[simp] theorem setArg1_arg2 : ((s.setArg1 a v).msgs x).arg2 = (s.msgs x).arg2 := by
  unfold Mem.setArg1; dsimp only; split <;> simp_all

@[simp] theorem setHead_msgs : (s.setHead q p).msgs = s.msgs := rfl
@[simp] theorem setHead_yields : (s.setHead q p).yields = s.yields := rfl
@[simp] theorem setHead_pHead :
    ((s.setHead q p).fifos q').pHead = if q' = q then p else (s.fifos q').pHead := by
  unfold Mem.setHead; dsimp only; split <;> simp_all
@[simp] theorem setHead_pTail : ((s.setHead q p).fifos q').pTail = (s.fifos q').pTail := by
  unfold Mem.setHead; dsimp only; split <;> simp_all
@[simp] theorem setHead_processed :
    ((s.setHead q p).fifos q').msgs_processed = (s.fifos q').msgs_processed := by
  unfold Mem.setHead; dsimp only; split <;> simp_all

@[simp] theorem setTail_msgs : (s.setTail q p).msgs = s.msgs := rfl
@[simp] theorem setTail_yields : (s.setTail q p).yields = s.yields := rfl
@[simp] theorem setTail_pHead : ((s.setTail q p).fifos q').pHead = (s.fifos q').pHead := by
  unfold Mem.setTail; dsimp only; split <;> simp_all
@[simp] theorem setTail_pTail :
    ((s.setTail q p).fifos q').pTail = if q' = q then p else (s.fifos q').pTail := by
  unfold Mem.setTail; dsimp only; split <;> simp_all
@[simp] theorem setTail_count : ((s.setTail q p).fifos q').count = (s.fifos q').count := by
  unfold Mem.setTail; dsimp only; split <;> simp_all
@[simp] theorem setTail_processed :
    ((s.setTail q p).fifos q').msgs_processed = (s.fifos q').msgs_processed := by
  unfold Mem.setTail; dsimp only; split <;> simp_all

@[simp] theorem incProcessed_msgs : (s.incProcessed q).msgs = s.msgs := rfl
@[simp] theorem incProcessed_yields : (s.incProcessed q).yields = s.yields := rfl
@[simp] theorem incProcessed_pHead : ((s.incProcessed q).fifos q').pHead = (s.fifos q').pHead := by
  unfold Mem.incProcessed; dsimp only; split <;> simp_all
@[simp] theorem incProcessed_pTail : ((s.incProcessed q).fifos q').pTail = (s.fifos q').pTail := by
  unfold Mem.incProcessed; dsimp only; split <;> simp_all
@[simp] theorem incProcessed_count : ((s.incProcessed q).fifos q').count = (s.fifos q').count := by
  unfold Mem.incProcessed; dsimp only; split <;> simp_all
@[simp] theorem incProcessed_processed :
    ((s.incProcessed q).fifos q').msgs_processed =
      if q' = q then ((s.fifos q').msgs_processed + 1) % 2 ^ 64 else (s.fifos q').msgs_processed := by
  unfold Mem.incProcessed; dsimp only; split <;> simp_all

@[simp] theorem addCount_msgs : (s.addCount b q d).msgs = s.msgs := by
  unfold Mem.addCount; split <;> rfl
@[simp] theorem addCount_yields : (s.addCount b q d).yields = s.yields := by
  unfold Mem.addCount; split <;> rfl
@[simp] theorem addCount_pHead : ((s.addCount b q d).fifos q').pHead = (s.fifos q').pHead := by
  unfold Mem.addCount; split
  · dsimp only; split <;> simp_all
  · rfl
@[simp] theorem addCount_pTail : ((s.addCount b q d).fifos q').pTail = (s.fifos q').pTail := by
  unfold Mem.addCount; split
  · dsimp only; split <;> simp_all
  · rfl
@[simp] theorem addCount_processed :
    ((s.addCount b q d).fifos q').msgs_processed = (s.fifos q').msgs_processed := by
  unfold Mem.addCount; split
  · dsimp only; split <;> simp_all
  · rfl
theorem setHead_fifos_ne (h : q' ≠ q) : (s.setHead q p).fifos q' = s.fifos q' := by
  simp [Mem.setHead, h]
theorem setTail_fifos_ne (h : q' ≠ q) : (s.setTail q p).fifos q' = s.fifos q' := by
  simp [Mem.setTail, h]
theorem incProcessed_fifos_ne (h : q' ≠ q) : (s.incProcessed q).fifos q' = s.fifos q' := by
  simp [Mem.incProcessed, h]
theorem addCount_fifos_ne (h : q' ≠ q) : (s.addCount b q d).fifos q' = s.fifos q' := by
  unfold Mem.addCount; split <;> simp [h]

@[simp] theorem sched_yield_msgs : (sched_yield s).msgs = s.msgs := rfl
@[simp] theorem sched_yield_fifos : (sched_yield s).fifos = s.fifos := rfl

end Projections

/-! ## Single calls on simple queue shapes -/

theorem dequeue_empty (b : Build) (fuel : Nat) (k : Deq) (s : Mem) (q : Nat)
    (ht : (s.fifos q).pTail = some (.stub q)) (hn : (s.msgs (.stub q)).pNext = none) :
    dequeue b fuel k s q = .ok (s, none) := by
  cases k <;> simp [dequeue, rmv, rmv_non_stalling, rmv_no_dbg_on_empty, ht, hn]

theorem init_isEmpty (s0 : Mem) (q : Nat) : IsEmptyQ (initMpscFifo s0 q) q := by
  simp [IsEmptyQ, initMpscFifo]

/-- C8: on a freshly initialised queue every sequence of `rmv`,
`rmv_non_stalling` and `rmv_no_dbg_on_empty` calls, in any order, returns
`NULL` at every call and ends in exactly the heap that `initMpscFifo` left
(head, tail, sentinel fields, count, processed and everything else). -/
theorem empty_queue_idempotence (b : Build) (fuel : Nat) (s0 : Mem) (q : Nat) (ks : List Deq) :
    run b fuel (initMpscFifo s0 q) (ks.map fun k => Op.deq k q) =
      .ok (initMpscFifo s0 q, ks.map fun _ => (q, none)) := by
  induction ks with
  | nil => rfl
  | cons k ks ih =>
    have he := init_isEmpty s0 q
    simp only [List.map_cons, run, Op.exec,
      dequeue_empty b fuel k (initMpscFifo s0 q) q he.2.1 he.2.2, Res.bind_ok, ih]
    rfl

/-- C6: at the failing input `msg = NULL` the first statement of
`send_rsp_or_ret` reads `msg->pRspQ`, a `NULL` dereference, for every result
code and every heap: the call does not complete, whereas `ret_msg(NULL)`
tests its argument first and returns with the heap unchanged. -/
theorem send_rsp_or_ret_null_faults (b : Build) (s : Mem) (c : Nat) :
    send_rsp_or_ret b s none c = .fault ∧ (send_rsp_or_ret b s none c).val? = none ∧
      ret_msg b s none = .ok s := by
  exact ⟨rfl, rfl, rfl⟩

@[simp] theorem rmv_wait_some (pTail : Addr) (fuel : Nat) (s : Mem) (n : Addr) :
    rmv_wait pTail fuel s (some n) = .ok (s, n) := by
  cases fuel <;> rfl

theorem add_eq (b : Build) (s : Mem) (q : Nat) (m h : Addr)
    (hh : (s.fifos q).pHead = some h) :
    add b s q (some m) =
      .ok (if some m ≠ some (Addr.stub q)
        then (((s.setNext m none).setHead q (some m)).setNext h (some m)).addCount b q 1
        else ((s.setNext m none).setHead q (some m)).setNext h (some m)) := by
  simp [add, add_swap, add_link, hh]

theorem add_on_empty (b : Build) (s : Mem) (q : Nat) (m : Addr)
    (he : IsEmptyQ s q) (hm : m ≠ .stub q) :
    ∃ s1, add b s q (some m) = .ok s1 ∧ IsSingle s1 q m ∧ FrameOn q [m, .stub q] s s1 ∧
      (s1.fifos q).msgs_processed = (s.fifos q).msgs_processed := by
  obtain ⟨hh, ht, hn⟩ := he
  refine ⟨_, add_eq b s q m _ hh, ?_, ?_, ?_⟩
  · simp [IsSingle, hm, Ne.symm hm, ht]
  · refine ⟨?_, ?_, ?_⟩
    · intro q1 hq
      simp only [hm, ne_eq, Option.some.injEq, not_false_eq_true, if_true]
      simp [setHead_fifos_ne, addCount_fifos_ne, hq]
    · intro a; simp [hm]
    · intro a ha
      simp only [List.mem_cons, List.mem_singleton, not_or, List.not_mem_nil, or_false] at ha
      simp [hm, ha.1, ha.2]
  · simp [hm]

theorem dequeue_single (b : Build) (fuel : Nat) (k : Deq) (s : Mem) (q : Nat) (m : Addr)
    (hs : IsSingle s q m) (hm : m ≠ .stub q) :
    ∃ s1, dequeue b fuel k s q = .ok (s1, some m) ∧ IsEmptyQ s1 q ∧
      FrameOn q [m, .stub q] s s1 := by
  obtain ⟨hh, ht, hn, hmn⟩ := hs
  have hadd := add_eq b (s.setTail q (some m)) q (.stub q) m (by simp [hh])
  cases k <;> cases hb : b.USE_ATOMIC_TYPES <;>
    simp [dequeue, rmv, rmv_rest, rmv_non_stalling, rmv_non_stalling_rest, rmv_no_dbg_on_empty,
      ht, hn, hmn, hh, hm, Ne.symm hm, hadd, hb, IsEmptyQ, FrameOn] <;>
    exact ⟨fun q1 hq => by
      simp [setHead_fifos_ne, setTail_fifos_ne, incProcessed_fifos_ne, addCount_fifos_ne, hq],
      fun a h1 h2 => by simp [h1, h2]⟩

theorem isEmptyQ_of_frame (q P : Nat) (A : List Addr) (s s1 : Mem)
    (hf : FrameOn q A s s1) (hP : P ≠ q) (hA : Addr.stub P ∉ A) (he : IsEmptyQ s P) :
    IsEmptyQ s1 P := by
  obtain ⟨hq, _, hn⟩ := hf
  unfold IsEmptyQ at *
  rw [hq P hP, hn _ hA]
  exact he

theorem stub_not_mem_pair (q P : Nat) (m : Addr) (hP : P ≠ q) (hm : m ≠ .stub P) :
    Addr.stub P ∉ [m, Addr.stub q] := by
  simp [Ne.symm hm, hP]

/-- C7: with `W` and `P` distinct empty initialised queues and `m` a message
(not one of the two sentinels) whose pool is `P`: `add(W, m)` succeeds, a
dequeue from `W` (any of the three entry points) returns `m`, `ret_msg(m)`
succeeds, and a dequeue from `P` returns `m` again, with `pPool`, `pRspQ`,
`arg1` and `arg2` of `m` as they were before. -/
theorem recycle_round_trip (b : Build) (fuel : Nat) (k1 k2 : Deq) (s : Mem) (W P : Nat) (m : Addr)
    (hWP : W ≠ P) (hW : IsEmptyQ s W) (hP : IsEmptyQ s P)
    (hmW : m ≠ .stub W) (hmP : m ≠ .stub P) (hpool : (s.msgs m).pPool = some P) :
    ∃ s1 s2 s3 s4, add b s W (some m) = .ok s1 ∧ dequeue b fuel k1 s1 W = .ok (s2, some m) ∧
      ret_msg b s2 (some m) = .ok s3 ∧ dequeue b fuel k2 s3 P = .ok (s4, some m) ∧
      (s4.msgs m).pPool = (s.msgs m).pPool ∧ (s4.msgs m).pRspQ = (s.msgs m).pRspQ ∧
      (s4.msgs m).arg1 = (s.msgs m).arg1 ∧ (s4.msgs m).arg2 = (s.msgs m).arg2 := by
  obtain ⟨s1, h1, hs1, hf1, -⟩ := add_on_empty b s W m hW hmW
  obtain ⟨s2, h2, -, hf2⟩ := dequeue_single b fuel k1 s1 W m hs1 hmW
  have hnm := stub_not_mem_pair W P m (Ne.symm hWP) hmP
  have hP2 : IsEmptyQ s2 P :=
    isEmptyQ_of_frame W P _ s1 s2 hf2 (Ne.symm hWP) hnm
      (isEmptyQ_of_frame W P _ s s1 hf1 (Ne.symm hWP) hnm hP)
  have hpool2 : (s2.msgs m).pPool = some P := by
    rw [(hf2.2.1 m).1, (hf1.2.1 m).1, hpool]
  obtain ⟨s3, h3, hs3, hf3, -⟩ := add_on_empty b s2 P m hP2 hmP
  obtain ⟨s4, h4, -, hf4⟩ := dequeue_single b fuel k2 s3 P m hs3 hmP
  refine ⟨s1, s2, s3, s4, h1, h2, ?_, h4, ?_, ?_, ?_, ?_⟩
  · simp [ret_msg, hpool2, h3]
  · rw [(hf4.2.1 m).1, (hf3.2.1 m).1, (hf2.2.1 m).1, (hf1.2.1 m).1]
  · rw [(hf4.2.1 m).2.1, (hf3.2.1 m).2.1, (hf2.2.1 m).2.1, (hf1.2.1 m).2.1]
  · rw [(hf4.2.1 m).2.2.1, (hf3.2.1 m).2.2.1, (hf2.2.1 m).2.2.1, (hf1.2.1 m).2.2.1]
  · rw [(hf4.2.1 m).2.2.2, (hf3.2.1 m).2.2.2, (hf2.2.1 m).2.2.2, (hf1.2.1 m).2.2.2]

/-- Witness of C7 on `Mem.two`: work queue 0, pool 1, message `node 5`. -/
theorem recycle_round_trip_witness :
    ∃ s1 s2 s3 s4, add Build.plain Mem.two 0 (some (.node 5)) = .ok s1 ∧
      dequeue Build.plain 0 .rmv s1 0 = .ok (s2, some (.node 5)) ∧
      ret_msg Build.plain s2 (some (.node 5)) = .ok s3 ∧
      dequeue Build.plain 0 .rmv_non_stalling s3 1 = .ok (s4, some (.node 5)) ∧
      (s4.msgs (.node 5)).pPool = (Mem.two.msgs (.node 5)).pPool ∧
      (s4.msgs (.node 5)).pRspQ = (Mem.two.msgs (.node 5)).pRspQ ∧
      (s4.msgs (.node 5)).arg1 = (Mem.two.msgs (.node 5)).arg1 ∧
      (s4.msgs (.node 5)).arg2 = (Mem.two.msgs (.node 5)).arg2 :=
  recycle_round_trip Build.plain 0 .rmv .rmv_non_stalling Mem.two 0 1 (.node 5) (by decide)
    (by simp [IsEmptyQ, Mem.two, initMpscFifo, Mem.setPool])
    (by simp [IsEmptyQ, Mem.two, initMpscFifo, Mem.setPool]) (by decide) (by decide)
    (by simp [Mem.two, Mem.setPool])

/-- C3: `m` has response queue `R` and pool `P`, two distinct empty initialised
queues, and is neither of their sentinels (it is linked in no queue).  Then
`send_rsp_or_ret(m, c)` succeeds; afterwards `m.arg1 == c`,
`m.pRspQ == NULL`, a dequeue from `P` returns `NULL`, a dequeue from `R`
returns `m`, and a dequeue from `P` after that still returns `NULL`. -/
theorem reply_routing_with_response_queue (b : Build) (fuel : Nat) (k1 k2 : Deq) (s : Mem)
    (R P : Nat) (m : Addr) (c : Nat)
    (hPR : P ≠ R) (hR : IsEmptyQ s R) (hP : IsEmptyQ s P)
    (hmR : m ≠ .stub R) (hmP : m ≠ .stub P)
    (hrsp : (s.msgs m).pRspQ = some R) (_hpool : (s.msgs m).pPool = some P) :
    ∃ s1, send_rsp_or_ret b s (some m) c = .ok s1 ∧
      (s1.msgs m).arg1 = c ∧ (s1.msgs m).pRspQ = none ∧
      dequeue b fuel k2 s1 P = .ok (s1, none) ∧
      ∃ s2, dequeue b fuel k1 s1 R = .ok (s2, some m) ∧
        dequeue b fuel k2 s2 P = .ok (s2, none) := by
  have hR0 : IsEmptyQ ((s.setRspQ m none).setArg1 m c) R := by
    simpa [IsEmptyQ] using hR
  have hP0 : IsEmptyQ ((s.setRspQ m none).setArg1 m c) P := by
    simpa [IsEmptyQ] using hP
  obtain ⟨s1, h1, hs1, hf1, -⟩ := add_on_empty b _ R m hR0 hmR
  obtain ⟨s2, h2, -, hf2⟩ := dequeue_single b fuel k1 s1 R m hs1 hmR
  have hnm := stub_not_mem_pair R P m hPR hmP
  have hP1 : IsEmptyQ s1 P := isEmptyQ_of_frame R P _ _ s1 hf1 hPR hnm hP0
  have hP2 : IsEmptyQ s2 P := isEmptyQ_of_frame R P _ s1 s2 hf2 hPR hnm hP1
  refine ⟨s1, ?_, ?_, ?_, dequeue_empty b fuel k2 s1 P hP1.2.1 hP1.2.2, s2, h2,
    dequeue_empty b fuel k2 s2 P hP2.2.1 hP2.2.2⟩
  · simp [send_rsp_or_ret, hrsp, h1]
  · rw [(hf1.2.1 m).2.2.1]; simp
  · rw [(hf1.2.1 m).2.1]; simp

/-- Witness of C3 on `Mem.twoRsp`: response queue 0, pool 1, message `node 5`,
result code 42. -/
theorem reply_routing_with_response_queue_witness :
    ∃ s1, send_rsp_or_ret Build.plain Mem.twoRsp (some (.node 5)) 42 = .ok s1 ∧
      (s1.msgs (.node 5)).arg1 = 42 ∧ (s1.msgs (.node 5)).pRspQ = none ∧
      dequeue Build.plain 0 .rmv s1 1 = .ok (s1, none) ∧
      ∃ s2, dequeue Build.plain 0 .rmv s1 0 = .ok (s2, some (.node 5)) ∧
        dequeue Build.plain 0 .rmv s2 1 = .ok (s2, none) :=
  reply_routing_with_response_queue Build.plain 0 .rmv .rmv Mem.twoRsp 0 1 (.node 5) 42
    (by decide)
    (by simp [IsEmptyQ, Mem.twoRsp, Mem.two, initMpscFifo, Mem.setPool])
    (by simp [IsEmptyQ, Mem.twoRsp, Mem.two, initMpscFifo, Mem.setPool])
    (by decide) (by decide)
    (by simp [Mem.twoRsp])
    (by simp [Mem.twoRsp, Mem.two, Mem.setPool])

theorem walk_none (s : Mem) (n : Nat) : walk s n none = none := by
  cases n <;> rfl

theorem walk_succ (s : Mem) (n : Nat) (p : Ptr) :
    walk s (n + 1) p = match walk s n p with
      | none => none
      | some a => (s.msgs a).pNext := by
  induction n generalizing p with
  | zero => cases p <;> rfl
  | succ n ih =>
    cases p with
    | none => rfl
    | some a =>
      show walk s (n + 1) (s.msgs a).pNext = _
      rw [ih]
      rfl

/-- Walking gives the same pointers in two heaps that agree on the `pNext` of
every message met on the way. -/
theorem walk_congr (s s1 : Mem) (p : Ptr) (k : Nat)
    (h : ∀ j a, j < k → walk s j p = some a → (s1.msgs a).pNext = (s.msgs a).pNext) :
    ∀ j, j ≤ k → walk s1 j p = walk s j p := by
  intro j
  induction j with
  | zero => intro _; rfl
  | succ j ih =>
    intro hj
    rw [walk_succ, walk_succ, ih (by omega)]
    cases hw : walk s j p with
    | none => rfl
    | some a => exact h j a (by omega) hw

theorem walk_congr_all (s s1 : Mem) (p : Ptr)
    (h : ∀ j a, walk s j p = some a → (s1.msgs a).pNext = (s.msgs a).pNext) (j : Nat) :
    walk s1 j p = walk s j p :=
  walk_congr s s1 p j (fun i a _ hw => h i a hw) j (le_refl j)

/-- C4 (amended): `m` asks for no response and its pool `P` is an empty
initialised queue (`m` is not its sentinel).  `R` is any other queue on which
neither `m` nor the sentinel of `P` is linked.  Then `send_rsp_or_ret(m, c)`
succeeds and
a dequeue from `P` returns `m`; the record of every queue other than `P`, every
message other than `m` and the sentinel of `P`, and the whole chain from the
tail of `R` are unchanged, and `m` is not reachable from the tail of `R`. -/
theorem reply_routing_without_response_queue (b : Build) (fuel : Nat) (k : Deq) (s : Mem)
    (P R : Nat) (m : Addr) (c : Nat)
    (hRP : R ≠ P) (hP : IsEmptyQ s P) (hmP : m ≠ .stub P)
    (hrsp : (s.msgs m).pRspQ = none) (hpool : (s.msgs m).pPool = some P)
    (hmR : ¬ onQueue s R m) (hsR : ¬ onQueue s R (.stub P)) :
    ∃ s1, send_rsp_or_ret b s (some m) c = .ok s1 ∧
      (∃ s2, dequeue b fuel k s1 P = .ok (s2, some m)) ∧
      (∀ q, q ≠ P → s1.fifos q = s.fifos q) ∧
      (∀ a, a ≠ m → a ≠ .stub P → s1.msgs a = s.msgs a) ∧
      (∀ n, walk s1 n (s1.fifos R).pTail = walk s n (s.fifos R).pTail) ∧
      ¬ onQueue s1 R m := by
  obtain ⟨s1, h1, hs1, hf1, -⟩ := add_on_empty b s P m hP hmP
  obtain ⟨s2, h2, -, -⟩ := dequeue_single b fuel k s1 P m hs1 hmP
  have hwalk : ∀ n, walk s1 n (s1.fifos R).pTail = walk s n (s.fifos R).pTail := by
    intro n
    rw [hf1.1 R hRP]
    refine walk_congr_all s s1 _ (fun j a hw => hf1.2.2 a ?_) n
    intro hmem
    simp only [List.mem_cons, List.mem_singleton, List.not_mem_nil, or_false] at hmem
    rcases hmem with rfl | rfl
    · exact hmR ⟨j, hw⟩
    · exact hsR ⟨j, hw⟩
  refine ⟨s1, ?_, ⟨s2, h2⟩, hf1.1, ?_, hwalk, ?_⟩
  · simp [send_rsp_or_ret, hrsp, ret_msg, hpool, h1]
  · intro a ha1 ha2
    have hn := hf1.2.2 a (by simp [ha1, ha2])
    obtain ⟨e1, e2, e3, e4⟩ := hf1.2.1 a
    cases hx : s1.msgs a
    cases hy : s.msgs a
    simp_all
  · rintro ⟨n, hn⟩
    exact hmR ⟨n, by rw [← hwalk n]; exact hn⟩

theorem not_onQueue_of_empty (s : Mem) (q : Nat) (m : Addr) (he : IsEmptyQ s q)
    (hm : m ≠ .stub q) : ¬ onQueue s q m := by
  rintro ⟨n, hn⟩
  rw [he.2.1] at hn
  cases n with
  | zero => exact hm (Option.some.inj hn).symm
  | succ n =>
    have : walk s (n + 1) (some (Addr.stub q)) = walk s n (s.msgs (.stub q)).pNext := rfl
    rw [this, he.2.2, walk_none] at hn
    exact Option.noConfusion hn

/-- Witness of C4 on `Mem.two`: pool 1, other queue 0, message `node 5`. -/
theorem reply_routing_without_response_queue_witness :
    ∃ s1, send_rsp_or_ret Build.plain Mem.two (some (.node 5)) 42 = .ok s1 ∧
      (∃ s2, dequeue Build.plain 0 .rmv s1 1 = .ok (s2, some (.node 5))) ∧
      (∀ q, q ≠ 1 → s1.fifos q = Mem.two.fifos q) ∧
      (∀ a, a ≠ .node 5 → a ≠ .stub 1 → s1.msgs a = Mem.two.msgs a) ∧
      (∀ n, walk s1 n (s1.fifos 0).pTail = walk Mem.two n (Mem.two.fifos 0).pTail) ∧
      ¬ onQueue s1 0 (.node 5) :=
  reply_routing_without_response_queue Build.plain 0 .rmv Mem.two 1 0 (.node 5) 42
    (by decide)
    (by simp [IsEmptyQ, Mem.two, initMpscFifo, Mem.setPool])
    (by decide)
    (by simp [Mem.two, initMpscFifo, Mem.setPool, Mem.zero])
    (by simp [Mem.two, Mem.setPool])
    (not_onQueue_of_empty _ 0 _ (by simp [IsEmptyQ, Mem.two, initMpscFifo, Mem.setPool])
      (by decide))
    (not_onQueue_of_empty _ 0 _ (by simp [IsEmptyQ, Mem.two, initMpscFifo, Mem.setPool])
      (by decide))

/-- Effect of `add` on a queue whose head is not `NULL`: the new head is the
message, the old head points at it, the tail and the processed count stay, and
outside the record of `q` only the `pNext` of the message and of the old head
are written. -/
theorem add_spec (b : Build) (s : Mem) (q : Nat) (m h : Addr)
    (hh : (s.fifos q).pHead = some h) :
    ∃ s1, add b s q (some m) = .ok s1 ∧ (s1.fifos q).pHead = some m ∧
      (s1.fifos q).pTail = (s.fifos q).pTail ∧
      (s1.fifos q).msgs_processed = (s.fifos q).msgs_processed ∧
      (s1.msgs h).pNext = some m ∧ (m ≠ h → (s1.msgs m).pNext = none) ∧
      FrameOn q [m, h] s s1 ∧ s1.yields = s.yields := by
  refine ⟨_, add_eq b s q m h hh, ?_⟩
  by_cases hm : m = Addr.stub q
  · subst hm
    simp only [ne_eq, not_true_eq_false, if_false]
    refine ⟨by simp, by simp, by simp, by simp, fun hne => by simp [hne], ⟨?_, ?_, ?_⟩, by simp⟩
    · intro q1 hq; simp [setHead_fifos_ne, hq]
    · intro a; simp
    · intro a ha
      simp only [List.mem_cons, List.mem_singleton, not_or, List.not_mem_nil, or_false] at ha
      simp [ha.1, ha.2]
  · have hm2 : some m ≠ some (Addr.stub q) := fun e => hm (Option.some.inj e)
    simp only [hm2, ne_eq, not_false_eq_true, if_true]
    refine ⟨by simp, by simp, by simp, by simp, fun hne => by simp [hne], ⟨?_, ?_, ?_⟩, by simp⟩
    · intro q1 hq; simp [setHead_fifos_ne, addCount_fifos_ne, hq]
    · intro a; simp
    · intro a ha
      simp only [List.mem_cons, List.mem_singleton, not_or, List.not_mem_nil, or_false] at ha
      simp [ha.1, ha.2]

/-- After `add(T, m)` the message is reachable from the tail of `T`, provided
the old head was and the message was not. -/
theorem add_onQueue (q : Nat) (m h : Addr) (s s1 : Mem) (k : Nat)
    (hreach : walk s k (s.fifos q).pTail = some h) (hm : ¬ onQueue s q m)
    (htail : (s1.fifos q).pTail = (s.fifos q).pTail)
    (hlink : (s1.msgs h).pNext = some m)
    (hframe : ∀ a, a ∉ [m, h] → (s1.msgs a).pNext = (s.msgs a).pNext) :
    onQueue s1 q m := by
  classical
  have hex : ∃ j, walk s j (s.fifos q).pTail = some h := ⟨k, hreach⟩
  have hspec := Nat.find_spec hex
  have hmin := fun j (hj : j < Nat.find hex) => Nat.find_min hex hj
  refine ⟨Nat.find hex + 1, ?_⟩
  have hsame := walk_congr s s1 (s.fifos q).pTail (Nat.find hex) (fun j a hj hw => by
    apply hframe
    intro hmem
    simp only [List.mem_cons, List.mem_singleton, List.not_mem_nil, or_false] at hmem
    rcases hmem with rfl | rfl
    · exact hm ⟨j, hw⟩
    · exact hmin j hj hw) (Nat.find hex) (le_refl _)
  rw [walk_succ, htail, hsame, hspec]
  exact hlink

/-- After `add(T, m)` the message is reachable from the tail of no queue on
which neither it nor the old head of `T` was linked. -/
theorem add_not_onQueue (q : Nat) (m h : Addr) (s s1 : Mem)
    (hm : ¬ onQueue s q m) (hh : ¬ onQueue s q h)
    (htail : (s1.fifos q).pTail = (s.fifos q).pTail)
    (hframe : ∀ a, a ∉ [m, h] → (s1.msgs a).pNext = (s.msgs a).pNext) :
    ¬ onQueue s1 q m := by
  rintro ⟨n, hn⟩
  apply hm
  refine ⟨n, ?_⟩
  rw [← hn, htail]
  symm
  refine walk_congr_all s s1 _ (fun j a hw => hframe a ?_) n
  intro hmem
  simp only [List.mem_cons, List.mem_singleton, List.not_mem_nil, or_false] at hmem
  rcases hmem with rfl | rfl
  · exact hm ⟨j, hw⟩
  · exact hh ⟨j, hw⟩

theorem onQueue_congr (s s1 : Mem) (q : Nat) (m : Addr)
    (hn : ∀ a, (s1.msgs a).pNext = (s.msgs a).pNext)
    (ht : (s1.fifos q).pTail = (s.fifos q).pTail) :
    onQueue s1 q m ↔ onQueue s q m := by
  unfold onQueue
  rw [ht]
  constructor
  · rintro ⟨n, h⟩
    exact ⟨n, by rw [← walk_congr_all s s1 _ (fun _ a _ => hn a) n]; exact h⟩
  · rintro ⟨n, h⟩
    exact ⟨n, by rw [walk_congr_all s s1 _ (fun _ a _ => hn a) n]; exact h⟩

/-- Linking by `add` into a queue whose chain reaches its head. -/
theorem add_links_once (b : Build) (s : Mem) (T : Nat) (m h : Addr) (k : Nat)
    (hh : (s.fifos T).pHead = some h) (hreach : walk s k (s.fifos T).pTail = some h)
    (hm : ∀ q, ¬ onQueue s q m) (hdisj : ∀ q, q ≠ T → ¬ onQueue s q h) :
    ∃ s1, add b s T (some m) = .ok s1 ∧ onQueue s1 T m ∧ ∀ q, q ≠ T → ¬ onQueue s1 q m := by
  obtain ⟨s1, h1, -, ht, -, hl, -, hf, -⟩ := add_spec b s T m h hh
  refine ⟨s1, h1, add_onQueue T m h s s1 k hreach (hm T) ht hl hf.2.2, ?_⟩
  intro q hq
  refine add_not_onQueue q m h s s1 (hm q) (hdisj q hq) ?_ hf.2.2
  rw [hf.1 q hq]

/-- C5 (amended): `m` is linked in no queue.  When `m` has a response queue
or a pool, call the one `send_rsp_or_ret` picks `T` (response queue first); if
the chain from the tail of `T` reaches its head `h` and `h` is linked in no
other queue, then after `send_rsp_or_ret(m, c)` the message is reachable from
the tail of `T` and from the tail of no other queue.  When `m` has neither, the
call returns with the heap unchanged, so `m` is linked in no queue. -/
theorem reply_or_return_links_once (b : Build) (s : Mem) (m : Addr) (c : Nat) :
    (∀ T h k, routeTarget s m = some T → (s.fifos T).pHead = some h →
      walk s k (s.fifos T).pTail = some h → (∀ q, ¬ onQueue s q m) →
      (∀ q, q ≠ T → ¬ onQueue s q h) →
      ∃ s1, send_rsp_or_ret b s (some m) c = .ok s1 ∧ onQueue s1 T m ∧
        ∀ q, q ≠ T → ¬ onQueue s1 q m) ∧
    (routeTarget s m = none → send_rsp_or_ret b s (some m) c = .ok s) := by
  constructor
  · intro T h k hT hh hreach hm hdisj
    unfold routeTarget at hT
    cases hr : (s.msgs m).pRspQ with
    | some R =>
      rw [hr] at hT
      have hRT : R = T := Option.some.inj hT
      subst hRT
      have key : ∀ q a, onQueue ((s.setRspQ m none).setArg1 m c) q a ↔ onQueue s q a :=
        fun q a => onQueue_congr s _ q a (fun x => by simp) (by simp)
      obtain ⟨s1, h1, h2, h3⟩ := add_links_once b ((s.setRspQ m none).setArg1 m c) R m h k
        (by simpa using hh)
        (by rw [walk_congr_all s _ _ (fun _ x _ => by simp) k]; simpa using hreach)
        (fun q => by rw [key]; exact hm q) (fun q hq => by rw [key]; exact hdisj q hq)
      exact ⟨s1, by simp [send_rsp_or_ret, hr, h1], h2, h3⟩
    | none =>
      rw [hr] at hT
      have hT : (s.msgs m).pPool = some T := hT
      obtain ⟨s1, h1, h2, h3⟩ := add_links_once b s T m h k hh hreach hm hdisj
      exact ⟨s1, by simp [send_rsp_or_ret, hr, ret_msg, hT, h1], h2, h3⟩
  · intro hT
    unfold routeTarget at hT
    cases hr : (s.msgs m).pRspQ with
    | some R => rw [hr] at hT; exact Option.noConfusion hT
    | none =>
      rw [hr] at hT
      have hT : (s.msgs m).pPool = none := hT
      simp [send_rsp_or_ret, hr, ret_msg, hT]

theorem not_onQueue_of_null_tail (s : Mem) (q : Nat) (m : Addr)
    (ht : (s.fifos q).pTail = none) : ¬ onQueue s q m := by
  rintro ⟨n, hn⟩
  rw [ht, walk_none] at hn
  exact Option.noConfusion hn

theorem two_not_onQueue (q : Nat) (m : Addr) (hm0 : m ≠ .stub 0) (hm1 : m ≠ .stub 1) :
    ¬ onQueue Mem.two q m := by
  by_cases h0 : q = 0
  · subst h0
    exact not_onQueue_of_empty _ 0 _ (by simp [IsEmptyQ, Mem.two, initMpscFifo, Mem.setPool]) hm0
  · by_cases h1 : q = 1
    · subst h1
      exact not_onQueue_of_empty _ 1 _ (by simp [IsEmptyQ, Mem.two, initMpscFifo, Mem.setPool])
        hm1
    · exact not_onQueue_of_null_tail _ q _ (by simp [Mem.two, initMpscFifo, Mem.setPool, h0, h1,
        Mem.zero])

/-- Witness of C5 on `Mem.two`: `node 5` is routed to its pool, queue 1. -/
theorem reply_or_return_links_once_witness :
    ∃ s1, send_rsp_or_ret Build.plain Mem.two (some (.node 5)) 42 = .ok s1 ∧
      onQueue s1 1 (.node 5) ∧ ∀ q, q ≠ 1 → ¬ onQueue s1 q (.node 5) :=
  (reply_or_return_links_once Build.plain Mem.two (.node 5) 42).1 1 (.stub 1) 0
    (by simp [routeTarget, Mem.two, initMpscFifo, Mem.setPool, Mem.zero])
    (by simp [Mem.two, initMpscFifo, Mem.setPool])
    (by simp [walk, Mem.two, initMpscFifo, Mem.setPool])
    (fun q => two_not_onQueue q _ (by decide) (by decide))
    (fun q hq => by
      by_cases h0 : q = 0
      · subst h0
        exact not_onQueue_of_empty _ 0 _
          (by simp [IsEmptyQ, Mem.two, initMpscFifo, Mem.setPool]) (by decide)
      · exact not_onQueue_of_null_tail _ q _ (by simp [Mem.two, initMpscFifo, Mem.setPool, h0, hq,
          Mem.zero]))

/-- Counterexample to C5 as stated: on the empty initialised queue 0 of a
zero-filled heap, `node 5` has no response queue and no pool;
`send_rsp_or_ret` returns with the heap unchanged and the message is
reachable from the tail of no queue, not of exactly one. -/
theorem reply_or_return_unrouted_counterexample :
    (initMpscFifo Mem.zero 0).msgs (.node 5) =
        { pNext := none, pPool := none, pRspQ := none, arg1 := 0, arg2 := 0 } ∧
      send_rsp_or_ret Build.plain (initMpscFifo Mem.zero 0) (some (.node 5)) 42 =
        .ok (initMpscFifo Mem.zero 0) ∧
      ∀ q, ¬ onQueue (initMpscFifo Mem.zero 0) q (.node 5) := by
  refine ⟨by simp [initMpscFifo, Mem.zero], rfl, fun q => ?_⟩
  by_cases h0 : q = 0
  · subst h0
    exact not_onQueue_of_empty _ 0 _ (init_isEmpty _ 0) (by decide)
  · exact not_onQueue_of_null_tail _ q _ (by simp [initMpscFifo, h0, Mem.zero])

theorem add_link_spec (b : Build) (s : Mem) (q : Nat) (p : Addr) (pMsg : Ptr) :
    ∃ s2, add_link b s q (some p) pMsg = .ok s2 ∧ s2.msgs = (s.setNext p pMsg).msgs ∧
      (s2.fifos q).pTail = (s.fifos q).pTail ∧ (s2.fifos q).pHead = (s.fifos q).pHead ∧
      (s2.fifos q).msgs_processed = (s.fifos q).msgs_processed ∧
      (∀ q1, q1 ≠ q → s2.fifos q1 = s.fifos q1) ∧ s2.yields = s.yields := by
  refine ⟨_, rfl, ?_⟩
  by_cases h : pMsg = some (Addr.stub q)
  · simp [h]
  · simp only [ne_eq, h, not_false_eq_true, if_true]
    exact ⟨by simp, by simp, by simp, by simp, fun q1 hq => by simp [addCount_fifos_ne, hq],
      by simp⟩

theorem rmv_ns_producer_pending (b : Build) (s : Mem) (q : Nat) (t : Addr)
    (ht : oldest s q = some t) (hnext : (s.msgs t).pNext = none)
    (hhead : (s.fifos q).pHead ≠ some t) :
    ∃ s1, rmv_non_stalling b s q = .ok (s1, none) ∧
      (s1.fifos q).msgs_processed = (s.fifos q).msgs_processed ∧
      s1.msgs = s.msgs ∧ (s1.fifos q).pHead = (s.fifos q).pHead ∧
      (s1.fifos q).pTail = some t ∧ t ≠ .stub q := by
  unfold oldest at ht
  cases htl : (s.fifos q).pTail with
  | none => rw [htl] at ht; exact Option.noConfusion ht
  | some t0 =>
    rw [htl] at ht
    have hhead2 : ¬ some t = (s.fifos q).pHead := fun e => hhead e.symm
    by_cases hst : t0 = Addr.stub q
    · subst hst
      simp only [if_true] at ht
      have hts : t ≠ Addr.stub q := by
        intro e; rw [e, ht] at hnext; exact Option.noConfusion hnext
      cases hb : b.USE_ATOMIC_TYPES <;>
        simp [rmv_non_stalling, rmv_non_stalling_rest, htl, ht, hnext, hhead2, hb, hts]
    · simp only [hst, if_false] at ht
      have ht0 : t0 = t := Option.some.inj ht
      subst ht0
      cases hb : b.USE_ATOMIC_TYPES <;>
        simp [rmv_non_stalling, rmv_non_stalling_rest, htl, hnext, hhead2, hb, hst]

theorem rmv_non_stalling_linked (b : Build) (s : Mem) (q : Nat) (t n : Addr)
    (ht : (s.fifos q).pTail = some t) (hts : t ≠ .stub q) (hn : (s.msgs t).pNext = some n) :
    ∃ s3, rmv_non_stalling b s q = .ok (s3, some t) ∧
      (s3.fifos q).msgs_processed = ((s.fifos q).msgs_processed + 1) % 2 ^ 64 ∧
      (s3.fifos q).pTail = some n ∧ (s3.fifos q).pHead = (s.fifos q).pHead ∧
      s3.msgs = s.msgs := by
  cases hb : b.USE_ATOMIC_TYPES <;>
    simp [rmv_non_stalling, rmv_non_stalling_rest, ht, hts, hn, hb]

/-- C9: `t` is the oldest undelivered message of `q` (the tail after skipping
the sentinel), `t->pNext` is `NULL` and `t` is not the head, so a producer
is between its exchange and its link store.  Then `rmv_non_stalling` returns
`NULL`, leaves `msgs_processed`, the head and every message as they were, and
`t` is still the oldest undelivered message.  Once the producer's store
`t->pNext = n` is done, the next `rmv_non_stalling` returns `t` and counts
it. -/
theorem non_stalling_in_flight (b : Build) (s : Mem) (q : Nat) (t n : Addr)
    (ht : oldest s q = some t) (hnext : (s.msgs t).pNext = none)
    (hhead : (s.fifos q).pHead ≠ some t) :
    ∃ s1, rmv_non_stalling b s q = .ok (s1, none) ∧
      (s1.fifos q).msgs_processed = (s.fifos q).msgs_processed ∧
      s1.msgs = s.msgs ∧ (s1.fifos q).pHead = (s.fifos q).pHead ∧ oldest s1 q = some t ∧
      ∃ s2, add_link b s1 q (some t) (some n) = .ok s2 ∧
        ∃ s3, rmv_non_stalling b s2 q = .ok (s3, some t) ∧
          (s3.fifos q).msgs_processed = ((s.fifos q).msgs_processed + 1) % 2 ^ 64 := by
  obtain ⟨s1, h1, hp, hm, hh, htl, hts⟩ := rmv_ns_producer_pending b s q t ht hnext hhead
  obtain ⟨s2, h2, hm2, ht2, -, hp2, -, -⟩ := add_link_spec b s1 q t (some n)
  obtain ⟨s3, h3, hp3, -⟩ := rmv_non_stalling_linked b s2 q t n (by rw [ht2, htl]) hts
    (by rw [hm2]; simp)
  refine ⟨s1, h1, hp, hm, hh, ?_, s2, h2, s3, h3, ?_⟩
  · simp [oldest, htl, hts]
  · rw [hp3, hp2, hp]

/-- Witness of C9 on `Mem.inFlight`: `node 1` is linked behind the sentinel of
queue 0 and the producer of `node 2` has not yet linked it behind `node 1`. -/
theorem non_stalling_in_flight_witness :
    ∃ s1, rmv_non_stalling Build.plain Mem.inFlight 0 = .ok (s1, none) ∧
      (s1.fifos 0).msgs_processed = (Mem.inFlight.fifos 0).msgs_processed ∧
      s1.msgs = Mem.inFlight.msgs ∧ (s1.fifos 0).pHead = (Mem.inFlight.fifos 0).pHead ∧
      oldest s1 0 = some (.node 1) ∧
      ∃ s2, add_link Build.plain s1 0 (some (.node 1)) (some (.node 2)) = .ok s2 ∧
        ∃ s3, rmv_non_stalling Build.plain s2 0 = .ok (s3, some (.node 1)) ∧
          (s3.fifos 0).msgs_processed = ((Mem.inFlight.fifos 0).msgs_processed + 1) % 2 ^ 64 :=
  non_stalling_in_flight Build.plain Mem.inFlight 0 (.node 1) (.node 2)
    (by decide) (by decide) (by decide)

/-! ## The processed count -/

theorem add_procSame (b : Build) (s s1 : Mem) (pQ : Nat) (pMsg : Ptr)
    (h : add b s pQ pMsg = .ok s1) : ProcSame s s1 := by
  cases pMsg with
  | none => simp [add, add_swap] at h
  | some m =>
    cases hh : (s.fifos pQ).pHead with
    | none => simp [add, add_swap, add_link, hh] at h
    | some hd =>
      obtain ⟨s2, h2, -, -, -, -, -, hf, -⟩ := add_spec b s pQ m hd hh
      rw [h2] at h
      cases h
      intro q
      by_cases hq : q = pQ
      · subst hq
        have := add_eq b s q m hd hh
        rw [h2] at this
        cases this
        split <;> simp
      · rw [hf.1 q hq]

theorem rmv_wait_ok (pTail : Addr) (fuel : Nat) (s s1 : Mem) (p : Ptr) (n : Addr)
    (h : rmv_wait pTail fuel s p = .ok (s1, n)) :
    s1.fifos = s.fifos ∧ s1.msgs = s.msgs := by
  induction fuel generalizing s p with
  | zero =>
    cases p with
    | none => simp [rmv_wait] at h
    | some a => simp at h; exact ⟨by rw [← h.1], by rw [← h.1]⟩
  | succ f ih =>
    cases p with
    | none =>
      simp only [rmv_wait] at h
      have := ih _ _ h
      simpa using this
    | some a => simp at h; exact ⟨by rw [← h.1], by rw [← h.1]⟩

theorem rmv_rest_proc (b : Build) (fuel : Nat) (s s1 : Mem) (pQ : Nat) (t : Addr) (p r : Ptr)
    (h : rmv_rest b fuel s pQ t p = .ok (s1, r)) : r = some t ∧ ProcInc pQ s s1 := by
  unfold rmv_rest at h
  cases p with
  | some n =>
    simp at h
    refine ⟨h.2.symm, ?_⟩
    intro q; rw [← h.1]; simp
  | none =>
    simp only at h
    cases hadd : (if some t = (s.fifos pQ).pHead then add b s pQ (some (Addr.stub pQ))
        else Res.ok s) with
    | fault => rw [hadd] at h; simp at h
    | stalled => rw [hadd] at h; simp at h
    | ok s2 =>
      rw [hadd] at h
      simp only [Res.bind_ok] at h
      have hs2 : ProcSame s s2 := by
        split at hadd
        · exact add_procSame b s s2 pQ _ hadd
        · cases hadd; intro q; rfl
      cases hw : rmv_wait t fuel s2 (s2.msgs t).pNext with
      | fault => rw [hw] at h; simp at h
      | stalled => rw [hw] at h; simp at h
      | ok v =>
        obtain ⟨s3, n⟩ := v
        rw [hw] at h
        simp at h
        have h3 := rmv_wait_ok t fuel s2 s3 _ n hw
        refine ⟨h.2.symm, ?_⟩
        intro q; rw [← h.1]; simp [h3.1, hs2 q]

theorem rmv_non_stalling_rest_proc (b : Build) (s s1 : Mem) (pQ : Nat) (t : Addr) (p r : Ptr)
    (h : rmv_non_stalling_rest b s pQ t p = .ok (s1, r)) :
    (r = none ∧ ProcSame s s1) ∨ (r = some t ∧ ProcInc pQ s s1) := by
  unfold rmv_non_stalling_rest at h
  cases hb : b.USE_ATOMIC_TYPES <;> rw [hb] at h <;> simp only [if_true, if_false] at h
  all_goals
    cases p with
    | some n =>
      simp at h
      refine Or.inr ⟨h.2.symm, ?_⟩
      intro q; rw [← h.1]; simp
    | none =>
      simp only at h
      by_cases hh : some t = (s.fifos pQ).pHead
      · simp only [hh, ne_eq, not_true_eq_false, if_false] at h
        cases hadd : add b s pQ (some (Addr.stub pQ)) with
        | fault => rw [hadd] at h; simp at h
        | stalled => rw [hadd] at h; simp at h
        | ok s2 =>
          rw [hadd] at h
          simp only [Res.bind_ok] at h
          have hs2 := add_procSame b s s2 pQ _ hadd
          cases hn : (s2.msgs t).pNext with
          | none =>
            rw [hn] at h
            simp at h
            refine Or.inl ⟨h.2.symm, ?_⟩
            intro q; rw [← h.1]; exact hs2 q
          | some n =>
            rw [hn] at h
            simp at h
            refine Or.inr ⟨by rw [← h.2, hh], ?_⟩
            intro q; rw [← h.1]; simp [hs2 q]
      · simp only [hh, ne_eq, not_false_eq_true, if_true] at h
        simp at h
        refine Or.inl ⟨h.2.symm, ?_⟩
        intro q; rw [← h.1]

theorem procInc_setTail (pQ : Nat) (s s1 : Mem) (p : Ptr) (h : ProcInc pQ (s.setTail pQ p) s1) :
    ProcInc pQ s s1 := by
  intro q; rw [h q]; simp

theorem procSame_setTail (pQ : Nat) (s s1 : Mem) (p : Ptr) (h : ProcSame (s.setTail pQ p) s1) :
    ProcSame s s1 := by
  intro q; rw [h q]; simp

/-- Every completed dequeue call either returns `NULL` and leaves all
processed counts, or returns a message and raises the processed count of its
queue by one. -/
theorem dequeue_proc (b : Build) (fuel : Nat) (k : Deq) (s s1 : Mem) (pQ : Nat) (r : Ptr)
    (h : dequeue b fuel k s pQ = .ok (s1, r)) :
    (r = none ∧ ProcSame s s1) ∨ (r.isSome = true ∧ ProcInc pQ s s1) := by
  have hrmv : ∀ r s1, rmv b fuel s pQ = .ok (s1, r) →
      (r = none ∧ ProcSame s s1) ∨ (r.isSome = true ∧ ProcInc pQ s s1) := by
    intro r s1 h
    unfold rmv at h
    cases ht : (s.fifos pQ).pTail with
    | none => rw [ht] at h; simp at h
    | some t =>
      rw [ht] at h
      simp only at h
      by_cases hst : t = Addr.stub pQ
      · simp only [hst, if_true] at h
        cases hn : (s.msgs (Addr.stub pQ)).pNext with
        | none =>
          rw [hn] at h; simp at h
          exact Or.inl ⟨h.2.symm, by intro q; rw [← h.1]⟩
        | some n =>
          rw [hn] at h
          simp only at h
          obtain ⟨e, hp⟩ := rmv_rest_proc b fuel _ s1 pQ n _ r h
          exact Or.inr ⟨by rw [e]; rfl, procInc_setTail pQ s s1 _ hp⟩
      · simp only [hst, if_false] at h
        obtain ⟨e, hp⟩ := rmv_rest_proc b fuel _ s1 pQ t _ r h
        exact Or.inr ⟨by rw [e]; rfl, hp⟩
  cases k with
  | rmv => exact hrmv r s1 h
  | rmv_non_stalling =>
    simp only [dequeue] at h
    unfold rmv_non_stalling at h
    cases ht : (s.fifos pQ).pTail with
    | none => rw [ht] at h; simp at h
    | some t =>
      rw [ht] at h
      simp only at h
      by_cases hst : t = Addr.stub pQ
      · simp only [hst, if_true] at h
        cases hn : (s.msgs (Addr.stub pQ)).pNext with
        | none =>
          rw [hn] at h; simp at h
          exact Or.inl ⟨h.2.symm, by intro q; rw [← h.1]⟩
        | some n =>
          rw [hn] at h
          simp only at h
          rcases rmv_non_stalling_rest_proc b _ s1 pQ n _ r h with ⟨e, hp⟩ | ⟨e, hp⟩
          · exact Or.inl ⟨e, procSame_setTail pQ s s1 _ hp⟩
          · exact Or.inr ⟨by rw [e]; rfl, procInc_setTail pQ s s1 _ hp⟩
      · simp only [hst, if_false] at h
        rcases rmv_non_stalling_rest_proc b _ s1 pQ t _ r h with ⟨e, hp⟩ | ⟨e, hp⟩
        · exact Or.inl ⟨e, hp⟩
        · exact Or.inr ⟨by rw [e]; rfl, hp⟩
  | rmv_no_dbg_on_empty =>
    simp only [dequeue] at h
    unfold rmv_no_dbg_on_empty at h
    cases ht : (s.fifos pQ).pTail with
    | none => rw [ht] at h; simp at h
    | some t =>
      rw [ht] at h
      simp only at h
      split at h
      · simp at h
        exact Or.inl ⟨h.2.symm, by intro q; rw [← h.1]⟩
      · exact hrmv r s1 h

theorem ret_msg_procSame (b : Build) (s s1 : Mem) (pMsg : Ptr)
    (h : ret_msg b s pMsg = .ok s1) : ProcSame s s1 := by
  unfold ret_msg at h
  cases pMsg with
  | none => simp at h; intro q; rw [h]
  | some m =>
    simp only at h
    cases hp : (s.msgs m).pPool with
    | none => rw [hp] at h; simp at h; intro q; rw [h]
    | some P => rw [hp] at h; exact add_procSame b s s1 P _ h

theorem send_rsp_or_ret_procSame (b : Build) (s s1 : Mem) (msg : Ptr) (c : Nat)
    (h : send_rsp_or_ret b s msg c = .ok s1) : ProcSame s s1 := by
  unfold send_rsp_or_ret at h
  cases msg with
  | none => simp at h
  | some m =>
    simp only at h
    cases hp : (s.msgs m).pRspQ with
    | none => rw [hp] at h; exact ret_msg_procSame b s s1 _ h
    | some R =>
      rw [hp] at h
      have := add_procSame b _ s1 R _ h
      intro q; rw [this q]; simp

theorem successes_cons (q : Nat) (o : Nat × Ptr) (tr : List (Nat × Ptr)) :
    successes q (o :: tr) =
      (if o.1 = q ∧ o.2.isSome = true then 1 else 0) + successes q tr := by
  unfold successes
  by_cases h : o.1 = q ∧ o.2.isSome = true
  · simp [List.filter_cons, h, Nat.add_comm]
  · rw [if_neg h]
    have : (decide (o.1 = q) && o.2.isSome) = false := by
      rcases not_and_or.mp h with h1 | h1
      · simp [h1]
      · simp [h1]
    simp [List.filter_cons, this]

/-- The processed count of `q` after a run is the count before plus the
number of dequeues on `q` that returned a message, as a `uint64_t`. -/
theorem run_processed (b : Build) (fuel : Nat) (q : Nat) (ops : List Op) :
    ∀ (s s1 : Mem) (tr : List (Nat × Ptr)), (s.fifos q).msgs_processed < 2 ^ 64 →
      run b fuel s ops = .ok (s1, tr) →
      (s1.fifos q).msgs_processed = ((s.fifos q).msgs_processed + successes q tr) % 2 ^ 64 := by
  induction ops with
  | nil =>
    intro s s1 tr hlt h
    simp [run] at h
    rw [← h.1, h.2]
    have : successes q [] = 0 := rfl
    rw [this, Nat.add_zero, Nat.mod_eq_of_lt hlt]
  | cons op ops ih =>
    intro s s1 tr hlt h
    simp only [run] at h
    cases hx : op.exec b fuel s with
    | fault => rw [hx] at h; simp at h
    | stalled => rw [hx] at h; simp at h
    | ok v =>
      obtain ⟨s2, o⟩ := v
      rw [hx] at h
      simp only [Res.bind_ok] at h
      cases hr : run b fuel s2 ops with
      | fault => rw [hr] at h; simp at h
      | stalled => rw [hr] at h; simp at h
      | ok w =>
        obtain ⟨s3, tr2⟩ := w
        rw [hr] at h
        simp at h
        obtain ⟨e1, e2⟩ := h
        subst e1
        have hsame : ProcSame s s2 → o = none →
            (s3.fifos q).msgs_processed =
              ((s.fifos q).msgs_processed + successes q tr) % 2 ^ 64 := by
          intro hp ho
          have := ih s2 s3 tr2 (by rw [hp q]; exact hlt) hr
          rw [this, hp q, ← e2, ho]
          rfl
        cases op with
        | add pQ pMsg =>
          simp only [Op.exec] at hx
          cases ha : MpscFifo.add b s pQ pMsg with
          | fault => rw [ha] at hx; simp at hx
          | stalled => rw [ha] at hx; simp at hx
          | ok s4 =>
            rw [ha] at hx; simp at hx
            exact hsame (by rw [← hx.1]; exact add_procSame b s s4 pQ pMsg ha) hx.2.symm
        | ret_msg pMsg =>
          simp only [Op.exec] at hx
          cases ha : MpscFifo.ret_msg b s pMsg with
          | fault => rw [ha] at hx; simp at hx
          | stalled => rw [ha] at hx; simp at hx
          | ok s4 =>
            rw [ha] at hx; simp at hx
            exact hsame (by rw [← hx.1]; exact ret_msg_procSame b s s4 pMsg ha) hx.2.symm
        | send_rsp_or_ret msg c =>
          simp only [Op.exec] at hx
          cases ha : MpscFifo.send_rsp_or_ret b s msg c with
          | fault => rw [ha] at hx; simp at hx
          | stalled => rw [ha] at hx; simp at hx
          | ok s4 =>
            rw [ha] at hx; simp at hx
            exact hsame (by rw [← hx.1]; exact send_rsp_or_ret_procSame b s s4 msg c ha)
              hx.2.symm
        | deq k pQ =>
          simp only [Op.exec] at hx
          cases ha : dequeue b fuel k s pQ with
          | fault => rw [ha] at hx; simp at hx
          | stalled => rw [ha] at hx; simp at hx
          | ok v4 =>
            obtain ⟨s4, r⟩ := v4
            rw [ha] at hx; simp at hx
            obtain ⟨e3, e4⟩ := hx
            subst e3
            subst e4
            simp only [List.singleton_append] at e2
            rw [← e2, successes_cons]
            rcases dequeue_proc b fuel k s s4 pQ r ha with ⟨hr0, hp⟩ | ⟨hr1, hp⟩
            · have := ih s4 s3 tr2 (by rw [hp q]; exact hlt) hr
              rw [this, hp q]
              simp [hr0]
            · have hlt4 : (s4.fifos q).msgs_processed < 2 ^ 64 := by
                rw [hp q]
                split
                · exact Nat.mod_lt _ (by norm_num)
                · exact hlt
              have := ih s4 s3 tr2 hlt4 hr
              rw [this, hp q]
              by_cases hq : q = pQ
              · subst hq
                simp only [hr1, and_self, if_true]
                rw [Nat.mod_add_mod, Nat.add_assoc]
              · have hq2 : ¬ (pQ = q ∧ r.isSome = true) := fun e => hq e.1.symm
                simp [hq, hq2]

/-- On an empty queue, `n` rounds of `add(q, m); rmv(q)` complete, every `rmv`
returns a message, and the queue is empty again. -/
theorem run_cycles (b : Build) (fuel : Nat) (q : Nat) (m : Addr) (hm : m ≠ .stub q) (n : Nat) :
    ∀ s, IsEmptyQ s q →
      ∃ s1 tr, run b fuel s (cycles q m n) = .ok (s1, tr) ∧ IsEmptyQ s1 q ∧
        successes q tr = n := by
  induction n with
  | zero => intro s he; exact ⟨s, [], rfl, he, rfl⟩
  | succ n ih =>
    intro s he
    obtain ⟨s1, h1, hs1, -, -⟩ := add_on_empty b s q m he hm
    obtain ⟨s2, h2, he2, -⟩ := dequeue_single b fuel .rmv s1 q m hs1 hm
    obtain ⟨s3, tr, h3, he3, hn⟩ := ih s2 he2
    refine ⟨s3, (q, some m) :: tr, ?_, he3, ?_⟩
    · simp [cycles, run, Op.exec, h1, h2, h3]
    · rw [successes_cons, hn]; simp [Nat.add_comm]

/-- C10 (amended): after any run of calls that completes on a heap in which
`q` was just initialised, `deinitMpscFifo(q)` returns the number of dequeue
calls on `q` that returned a message, reduced modulo `2 ^ 64` (so exactly that
number when it is below `2 ^ 64`), and leaves `pHead` and `pTail` of `q`
`NULL`. -/
theorem deinit_returns_processed (b : Build) (fuel : Nat) (s0 s : Mem) (q : Nat)
    (ops : List Op) (tr : List (Nat × Ptr))
    (hrun : run b fuel (initMpscFifo s0 q) ops = .ok (s, tr)) :
    (deinitMpscFifo s q).2 = successes q tr % 2 ^ 64 ∧
      (successes q tr < 2 ^ 64 → (deinitMpscFifo s q).2 = successes q tr) ∧
      ((deinitMpscFifo s q).1.fifos q).pHead = none ∧
      ((deinitMpscFifo s q).1.fifos q).pTail = none := by
  have h0 : ((initMpscFifo s0 q).fifos q).msgs_processed = 0 := by simp [initMpscFifo]
  have key := run_processed b fuel q ops (initMpscFifo s0 q) s tr (by rw [h0]; norm_num) hrun
  rw [h0, Nat.zero_add] at key
  refine ⟨key, fun hlt => ?_, by simp [deinitMpscFifo], by simp [deinitMpscFifo]⟩
  show (s.fifos q).msgs_processed = _
  rw [key, Nat.mod_eq_of_lt hlt]

/-- Witness of C10: three rounds of `add(0, node 1); rmv(0)` on a fresh queue
0, then `deinitMpscFifo` returns 3. -/
theorem deinit_returns_processed_witness :
    ∃ s tr, run Build.plain 0 (initMpscFifo Mem.zero 0) (cycles 0 (.node 1) 3) = .ok (s, tr) ∧
      successes 0 tr = 3 ∧ (deinitMpscFifo s 0).2 = 3 ∧
      ((deinitMpscFifo s 0).1.fifos 0).pHead = none ∧
      ((deinitMpscFifo s 0).1.fifos 0).pTail = none := by
  obtain ⟨s, tr, h, -, hn⟩ :=
    run_cycles Build.plain 0 0 (.node 1) (by decide) 3 _ (init_isEmpty Mem.zero 0)
  have hw := deinit_returns_processed Build.plain 0 Mem.zero s 0 _ tr h
  exact ⟨s, tr, h, hn, by rw [← hn]; exact hw.2.1 (by rw [hn]; norm_num), hw.2.2.1, hw.2.2.2⟩

/-- Counterexample to C10 as stated: `2 ^ 64` rounds of `add(0, node 1);
rmv(0)` on a fresh queue 0 complete, each `rmv` returns the message, and
`deinitMpscFifo` then returns 0, not `2 ^ 64`: the `uint64_t` count has
wrapped. -/
theorem deinit_count_wraps_counterexample :
    ∃ s tr, run Build.plain 0 (initMpscFifo Mem.zero 0) (cycles 0 (.node 1) (2 ^ 64)) =
        .ok (s, tr) ∧
      successes 0 tr = 2 ^ 64 ∧ (deinitMpscFifo s 0).2 = 0 := by
  obtain ⟨s, tr, h, -, hn⟩ :=
    run_cycles Build.plain 0 0 (.node 1) (by decide) (2 ^ 64) _ (init_isEmpty Mem.zero 0)
  have h0 : ((initMpscFifo Mem.zero 0).fifos 0).msgs_processed = 0 := by simp [initMpscFifo]
  have key := run_processed Build.plain 0 0 _ (initMpscFifo Mem.zero 0) s tr
    (by rw [h0]; norm_num) h
  rw [h0, Nat.zero_add, hn, Nat.mod_self] at key
  exact ⟨s, tr, h, hn, key⟩

/-! ## Chains -/

theorem lastOf_mem (x : Addr) (L : List Addr) : lastOf x L ∈ x :: L := by
  induction L generalizing x with
  | nil => simp [lastOf]
  | cons y L ih =>
    simp only [lastOf]
    exact List.mem_cons_of_mem _ (ih y)

theorem lastOf_append (x : Addr) (L : List Addr) (m : Addr) : lastOf x (L ++ [m]) = m := by
  induction L generalizing x with
  | nil => rfl
  | cons y L ih => simpa [lastOf] using ih y

theorem lastOf_eq_head (x : Addr) (L : List Addr) (hnd : (x :: L).Nodup)
    (h : lastOf x L = x) : L = [] := by
  cases L with
  | nil => rfl
  | cons y L =>
    exfalso
    have hm := lastOf_mem y L
    rw [show lastOf x (y :: L) = lastOf y L from rfl] at h
    rw [h] at hm
    exact (List.nodup_cons.mp hnd).1 hm

/-- A chain stays linked when the `pNext` of its nodes and the producers in
flight behind its nodes stay. -/
theorem linked_congr (next next1 : Addr → Ptr) (infl infl1 : List (Addr × Addr))
    (x : Addr) (L : List Addr)
    (hn : ∀ a ∈ x :: L, next1 a = next a)
    (hi : ∀ a ∈ x :: L, ∀ y, (a, y) ∈ infl1 ↔ (a, y) ∈ infl)
    (h : Linked next infl x L) : Linked next1 infl1 x L := by
  induction L generalizing x with
  | nil =>
    obtain ⟨h1, h2⟩ := h
    exact ⟨by rw [hn x (by simp)]; exact h1, fun y hy => h2 y ((hi x (by simp) y).mp hy)⟩
  | cons y L ih =>
    obtain ⟨h1, h2⟩ := h
    refine ⟨?_, ih y (fun a ha => hn a (List.mem_cons_of_mem _ ha))
      (fun a ha => hi a (List.mem_cons_of_mem _ ha)) h2⟩
    rw [hn x (by simp)]
    rcases h1 with ⟨e, hf⟩ | ⟨e, hm⟩
    · exact Or.inl ⟨e, fun z hz => hf z ((hi x (by simp) z).mp hz)⟩
    · exact Or.inr ⟨e, (hi x (by simp) y).mpr hm⟩

/-- The exchange of `add`: the chain grows by the new message, whose producer
is now in flight behind the old head. -/
theorem linked_swap (next next1 : Addr → Ptr) (infl : List (Addr × Addr))
    (x : Addr) (L : List Addr) (m : Addr)
    (hnd : (x :: L).Nodup) (hm : m ∉ x :: L)
    (hfree : ∀ y, (m, y) ∉ infl)
    (hn : ∀ a, a ≠ m → next1 a = next a) (hnm : next1 m = none)
    (h : Linked next infl x L) :
    Linked next1 (infl ++ [(lastOf x L, m)]) x (L ++ [m]) := by
  induction L generalizing x with
  | nil =>
    obtain ⟨h1, -⟩ := h
    have hxm : x ≠ m := fun e => hm (by simp [e])
    refine ⟨Or.inr ⟨by rw [hn x hxm]; exact h1, by simp [lastOf]⟩, hnm, ?_⟩
    intro y hy
    rcases List.mem_append.mp hy with hy | hy
    · exact hfree y hy
    · simp only [List.mem_singleton, Prod.mk.injEq, lastOf] at hy
      exact hxm hy.1.symm
  | cons y L ih =>
    obtain ⟨h1, h2⟩ := h
    have hxm : x ≠ m := fun e => hm (by simp [e])
    have hnd2 : (y :: L).Nodup := (List.nodup_cons.mp hnd).2
    have hx : x ∉ y :: L := (List.nodup_cons.mp hnd).1
    refine ⟨?_, ih y hnd2 (fun hmem => hm (List.mem_cons_of_mem _ hmem)) h2⟩
    rw [hn x hxm]
    rcases h1 with ⟨e, hf⟩ | ⟨e, hmem⟩
    · refine Or.inl ⟨e, fun z hz => ?_⟩
      rcases List.mem_append.mp hz with hz | hz
      · exact hf z hz
      · simp only [List.mem_singleton, Prod.mk.injEq] at hz
        exact hx (by rw [hz.1]; exact lastOf_mem y L)
    · exact Or.inr ⟨e, List.mem_append_left _ hmem⟩

theorem fst_unique (infl : List (Addr × Addr)) (hnd : (infl.map Prod.fst).Nodup)
    (p y z : Addr) (hy : (p, y) ∈ infl) (hz : (p, z) ∈ infl) : y = z := by
  induction infl with
  | nil => simp at hy
  | cons e infl ih =>
    simp only [List.map_cons, List.nodup_cons] at hnd
    rcases List.mem_cons.mp hy with hy | hy <;> rcases List.mem_cons.mp hz with hz | hz
    · rw [← hy] at hz; exact (Prod.mk.inj hz).2.symm
    · exfalso; rw [← hy] at hnd
      exact hnd.1 (List.mem_map.mpr ⟨(p, z), hz, rfl⟩)
    · exfalso; rw [← hz] at hnd
      exact hnd.1 (List.mem_map.mpr ⟨(p, y), hy, rfl⟩)
    · exact ih hnd.2 hy hz

/-- The link store of a producer in flight: its node is linked and the
producer leaves the list. -/
theorem linked_link (next next1 : Addr → Ptr) (l1 l2 : List (Addr × Addr))
    (x : Addr) (L : List Addr) (p m : Addr)
    (hnd : ((l1 ++ (p, m) :: l2).map Prod.fst).Nodup)
    (hn : ∀ a, a ≠ p → next1 a = next a) (hnp : next1 p = some m)
    (h : Linked next (l1 ++ (p, m) :: l2) x L) :
    Linked next1 (l1 ++ l2) x L := by
  have hsub : ∀ e, e ∈ l1 ++ l2 → e ∈ l1 ++ (p, m) :: l2 := by
    intro e he
    rcases List.mem_append.mp he with he | he
    · exact List.mem_append_left _ he
    · exact List.mem_append_right _ (List.mem_cons_of_mem _ he)
  have hpm : (p, m) ∈ l1 ++ (p, m) :: l2 := List.mem_append_right _ (List.mem_cons_self _ _)
  have hgone : ∀ z, (p, z) ∉ l1 ++ l2 := by
    intro z hz
    simp only [List.map_append, List.map_cons] at hnd
    have hnd2 := List.nodup_middle.mp hnd
    have : p ∈ List.map Prod.fst l1 ++ List.map Prod.fst l2 := by
      rw [← List.map_append]
      exact List.mem_map.mpr ⟨(p, z), hz, rfl⟩
    exact (List.nodup_cons.mp hnd2).1 this
  have hback : ∀ a y, a ≠ p → (a, y) ∈ l1 ++ (p, m) :: l2 → (a, y) ∈ l1 ++ l2 := by
    intro a y ha hy
    rcases List.mem_append.mp hy with hy | hy
    · exact List.mem_append_left _ hy
    · rcases List.mem_cons.mp hy with hy | hy
      · exact absurd (Prod.mk.inj hy).1 ha
      · exact List.mem_append_right _ hy
  induction L generalizing x with
  | nil =>
    obtain ⟨h1, h2⟩ := h
    have hxp : x ≠ p := fun e => h2 m (by rw [e]; exact hpm)
    exact ⟨by rw [hn x hxp]; exact h1, fun y hy => h2 y (hsub _ hy)⟩
  | cons y L ih =>
    obtain ⟨h1, h2⟩ := h
    refine ⟨?_, ih y h2⟩
    rcases h1 with ⟨e, hf⟩ | ⟨e, hmem⟩
    · have hxp : x ≠ p := fun e => hf m (by rw [e]; exact hpm)
      exact Or.inl ⟨by rw [hn x hxp]; exact e, fun z hz => hf z (hsub _ hz)⟩
    · by_cases hxp : x = p
      · subst hxp
        have : y = m := fst_unique _ hnd x y m hmem hpm
        subst this
        exact Or.inl ⟨hnp, hgone⟩
      · exact Or.inr ⟨by rw [hn x hxp]; exact e, hback x y hxp hmem⟩

theorem linked_last_free (next : Addr → Ptr) (infl : List (Addr × Addr)) (x : Addr)
    (L : List Addr) (h : Linked next infl x L) :
    next (lastOf x L) = none ∧ ∀ y, (lastOf x L, y) ∉ infl := by
  induction L generalizing x with
  | nil => exact h
  | cons y L ih => exact ih y h.2

/-- A chain depends only on the tail, the head and the `pNext` fields. -/
theorem chain_of_proj (q : Nat) (s s1 : Mem) (infl : List (Addr × Addr)) (t : Addr)
    (L : List Addr) (h : Chain q s infl t L)
    (ht : (s1.fifos q).pTail = (s.fifos q).pTail)
    (hh : (s1.fifos q).pHead = (s.fifos q).pHead)
    (hn : ∀ a, (s1.msgs a).pNext = (s.msgs a).pNext) : Chain q s1 infl t L := by
  obtain ⟨h1, h2, h3, h4, h5, h6⟩ := h
  exact ⟨by rw [ht, h1], by rw [hh, h2],
    linked_congr _ _ infl infl t L (fun a _ => hn a) (fun _ _ _ => Iff.rfl) h3, h4, h5, h6⟩

theorem chain_init (s0 : Mem) (q : Nat) : Chain q (initMpscFifo s0 q) [] (.stub q) [] := by
  refine ⟨by simp [initMpscFifo], by simp [initMpscFifo, lastOf], ?_, by simp, by simp, by simp⟩
  exact ⟨by simp [initMpscFifo], by simp⟩

theorem inv_init (s0 : Mem) (q : Nat) : Inv q ⟨initMpscFifo s0 q, [], []⟩ :=
  ⟨by simp, .stub q, [], Or.inl ⟨rfl, rfl⟩, chain_init s0 q⟩

/-- The exchange of `add` on a chain. -/
theorem chain_swap (q : Nat) (s s1 : Mem) (infl : List (Addr × Addr)) (t : Addr)
    (L : List Addr) (m : Addr) (pPrev : Ptr)
    (h : Chain q s infl t L) (hm : m ∉ t :: L)
    (hs : add_swap s q (some m) = .ok (s1, pPrev)) :
    pPrev = some (lastOf t L) ∧ Chain q s1 (infl ++ [(lastOf t L, m)]) t (L ++ [m]) := by
  obtain ⟨h1, h2, h3, h4, h5, h6⟩ := h
  simp only [add_swap, Res.ok.injEq, Prod.mk.injEq] at hs
  obtain ⟨e1, e2⟩ := hs
  subst e1
  have hp : pPrev = some (lastOf t L) := by rw [← e2]; simpa using h2
  have hfree : ∀ y, (m, y) ∉ infl := fun y hy => hm (h4 _ hy)
  have hlast := linked_last_free _ _ t L h3
  refine ⟨hp, by simpa using h1, by simp [lastOf_append], ?_, ?_, ?_, ?_⟩
  · exact linked_swap (fun a => (s.msgs a).pNext) _ infl t L m h6 hm hfree
      (fun a ha => by simp [ha]) (by simp) h3
  · intro e he
    rcases List.mem_append.mp he with he | he
    · have := h4 e he
      rw [← List.cons_append]
      exact List.mem_append_left _ this
    · simp only [List.mem_singleton] at he
      rw [he, ← List.cons_append]
      exact List.mem_append_left _ (lastOf_mem t L)
  · rw [List.map_append, List.nodup_append]
    refine ⟨h5, by simp, ?_⟩
    intro a ha hb
    simp only [List.map_cons, List.map_nil, List.mem_singleton] at hb
    subst hb
    obtain ⟨e, he, hfst⟩ := List.mem_map.mp ha
    apply hlast.2 e.2
    rw [← hfst]
    exact he
  · rw [← List.cons_append, List.nodup_append]
    refine ⟨h6, by simp, ?_⟩
    intro a ha hb
    simp only [List.mem_singleton] at hb
    subst hb
    exact hm ha

/-- The link store of `add` on a chain. -/
theorem chain_link (b : Build) (q : Nat) (s s1 : Mem) (l1 l2 : List (Addr × Addr)) (t : Addr)
    (L : List Addr) (p m : Addr)
    (h : Chain q s (l1 ++ (p, m) :: l2) t L)
    (hs : add_link b s q (some p) (some m) = .ok s1) :
    Chain q s1 (l1 ++ l2) t L := by
  obtain ⟨h1, h2, h3, h4, h5, h6⟩ := h
  obtain ⟨s2, e, hm, ht, hh, -, -, -⟩ := add_link_spec b s q p (some m)
  rw [e] at hs
  cases hs
  refine ⟨by rw [ht, h1], by rw [hh, h2], ?_, ?_, ?_, h6⟩
  · refine linked_link (fun a => (s.msgs a).pNext) _ l1 l2 t L p m h5 ?_ ?_ h3
    · intro a ha; simp only [hm]; simp [ha]
    · simp only [hm]; simp
  · intro e he
    apply h4
    rcases List.mem_append.mp he with he | he
    · exact List.mem_append_left _ he
    · exact List.mem_append_right _ (List.mem_cons_of_mem _ he)
  · simp only [List.map_append, List.map_cons] at h5 ⊢
    exact (List.nodup_cons.mp (List.nodup_middle.mp h5)).2

/-! ## The dequeue paths -/

theorem rmv_wait_stalled (t : Addr) (fuel : Nat) (s : Mem) (h : (s.msgs t).pNext = none) :
    rmv_wait t fuel s none = .stalled := by
  induction fuel generalizing s with
  | zero => rfl
  | succ f ih =>
    simp only [rmv_wait, sched_yield_msgs, h]
    exact ih (sched_yield s) h

/-- Path "more elements": `pNext` is not `NULL`. -/
theorem rest_next (b : Build) (fuel : Nat) (s : Mem) (q : Nat) (t n : Addr) :
    (∃ s1, rmv_rest b fuel s q t (some n) = .ok (s1, some t) ∧ s1.msgs = s.msgs ∧
      (s1.fifos q).pHead = (s.fifos q).pHead ∧ (s1.fifos q).pTail = some n) ∧
    (∃ s1, rmv_non_stalling_rest b s q t (some n) = .ok (s1, some t) ∧ s1.msgs = s.msgs ∧
      (s1.fifos q).pHead = (s.fifos q).pHead ∧ (s1.fifos q).pTail = some n) := by
  constructor
  · simp [rmv_rest]
  · cases hb : b.USE_ATOMIC_TYPES <;> simp [rmv_non_stalling_rest, hb]

/-- Path "last element": `pNext` is `NULL` and the tail is the head; the stub
is added behind it. -/
theorem rest_last (b : Build) (fuel : Nat) (s : Mem) (q : Nat) (t : Addr)
    (hh : (s.fifos q).pHead = some t) :
    (∃ s1, rmv_rest b fuel s q t none = .ok (s1, some t) ∧
      (∀ a, (s1.msgs a).pNext =
        if a = t then some (.stub q) else if a = .stub q then none else (s.msgs a).pNext) ∧
      (s1.fifos q).pHead = some (.stub q) ∧ (s1.fifos q).pTail = some (.stub q)) ∧
    (∃ s1, rmv_non_stalling_rest b s q t none = .ok (s1, some t) ∧
      (∀ a, (s1.msgs a).pNext =
        if a = t then some (.stub q) else if a = .stub q then none else (s.msgs a).pNext) ∧
      (s1.fifos q).pHead = some (.stub q) ∧ (s1.fifos q).pTail = some (.stub q)) := by
  have hadd := add_eq b s q (.stub q) t hh
  constructor
  · simp [rmv_rest, hh, hadd]
  · cases hb : b.USE_ATOMIC_TYPES <;> simp [rmv_non_stalling_rest, hb, hh, hadd]

/-- Path "producer in flight": `pNext` is `NULL` and the tail is not the head. -/
theorem rest_in_flight (b : Build) (fuel : Nat) (s : Mem) (q : Nat) (t : Addr)
    (hn : (s.msgs t).pNext = none) (hh : (s.fifos q).pHead ≠ some t) :
    rmv_rest b fuel s q t none = .stalled ∧
      rmv_non_stalling_rest b s q t none = .ok (s, none) := by
  have hh2 : ¬ some t = (s.fifos q).pHead := fun e => hh e.symm
  constructor
  · simp [rmv_rest, hh2, hn, rmv_wait_stalled t fuel s hn]
  · cases hb : b.USE_ATOMIC_TYPES <;> simp [rmv_non_stalling_rest, hb, hh2]

/-- After the path "more elements" the invariant holds for the rest of the
queue. -/
theorem inv_after_next (q : Nat) (s s1 : Mem) (infl : List (Addr × Addr)) (t n : Addr)
    (L : List Addr) (h : Chain q s infl t L) (hstub : Addr.stub q ∉ L)
    (hn : (s.msgs t).pNext = some n)
    (hm : s1.msgs = s.msgs) (hh : (s1.fifos q).pHead = (s.fifos q).pHead)
    (ht : (s1.fifos q).pTail = some n) :
    Inv q ⟨s1, infl, L⟩ := by
  obtain ⟨h1, h2, h3, h4, h5, h6⟩ := h
  cases L with
  | nil =>
    obtain ⟨e, -⟩ := h3
    beta_reduce at e
    rw [hn] at e
    exact Option.noConfusion e
  | cons y L =>
    obtain ⟨hl, h3⟩ := h3
    have hlinked : (s.msgs t).pNext = some y ∧ ∀ z, (t, z) ∉ infl := by
      rcases hl with hl | ⟨e, -⟩
      · exact hl
      · beta_reduce at e; rw [hn] at e; exact Option.noConfusion e
    have hny : n = y := by
      have := hlinked.1
      rw [hn] at this
      exact Option.some.inj this
    subst hny
    have hns : n ≠ Addr.stub q := fun e => hstub (by simp [e])
    refine ⟨hstub, n, L, Or.inr ⟨hns, rfl⟩, ht, by rw [hh, h2]; rfl, ?_, ?_, h5,
      (List.nodup_cons.mp h6).2⟩
    · simp only [hm]; exact h3
    · intro e he
      rcases List.mem_cons.mp (h4 e he) with h | h
      · exact absurd (by rw [← h]; exact he) (hlinked.2 e.2)
      · exact h

/-- After the path "last element" the queue is empty and the invariant
holds. -/
theorem inv_after_last (q : Nat) (s s1 : Mem) (infl : List (Addr × Addr)) (t : Addr)
    (L : List Addr) (h : Chain q s infl t L) (hts : t ≠ .stub q)
    (hh : (s.fifos q).pHead = some t)
    (hn1 : ∀ a, (s1.msgs a).pNext =
      if a = t then some (.stub q) else if a = .stub q then none else (s.msgs a).pNext)
    (hh1 : (s1.fifos q).pHead = some (.stub q)) (ht1 : (s1.fifos q).pTail = some (.stub q)) :
    L = [] ∧ infl = [] ∧ Inv q ⟨s1, infl, L⟩ := by
  obtain ⟨h1, h2, h3, h4, h5, h6⟩ := h
  have hL : L = [] := by
    apply lastOf_eq_head t L h6
    rw [h2] at hh
    exact Option.some.inj hh
  subst hL
  have hi : infl = [] := by
    cases infl with
    | nil => rfl
    | cons e infl =>
      exfalso
      have := h4 e (List.mem_cons_self _ _)
      simp only [List.mem_singleton] at this
      exact h3.2 e.2 (by rw [← this]; exact List.mem_cons_self _ _)
  subst hi
  refine ⟨rfl, rfl, by simp, .stub q, [], Or.inl ⟨rfl, rfl⟩, ht1, hh1, ?_, by simp, by simp,
    by simp⟩
  exact ⟨by simp [hn1, Ne.symm hts], by simp⟩

/-- On the path "producer in flight" some producer is in flight. -/
theorem in_flight_nonempty (q : Nat) (s : Mem) (infl : List (Addr × Addr)) (t : Addr)
    (L : List Addr) (h : Chain q s infl t L)
    (hn : (s.msgs t).pNext = none) (hh : (s.fifos q).pHead ≠ some t) :
    infl ≠ [] ∧ L ≠ [] := by
  obtain ⟨h1, h2, h3, h4, h5, h6⟩ := h
  cases L with
  | nil => exact absurd h2 hh
  | cons y L =>
    rcases h3.1 with ⟨e, -⟩ | ⟨-, hmem⟩
    · beta_reduce at e; rw [hn] at e; exact Option.noConfusion e
    · exact ⟨List.ne_nil_of_mem hmem, by simp⟩

/-- Both dequeue tails on a chain whose tail `t` is a message: either both
remove `t` and the invariant holds for the rest, or a producer is in flight
behind `t`, `rmv` keeps waiting and `rmv_non_stalling` gives up. -/
theorem rest_outcome (b : Build) (fuel : Nat) (q : Nat) (s : Mem) (infl : List (Addr × Addr))
    (t : Addr) (L : List Addr) (h : Chain q s infl t L) (hts : t ≠ .stub q)
    (hstub : Addr.stub q ∉ L) :
    ((∃ s1, rmv_rest b fuel s q t (s.msgs t).pNext = .ok (s1, some t) ∧ Inv q ⟨s1, infl, L⟩) ∧
      (∃ s1, rmv_non_stalling_rest b s q t (s.msgs t).pNext = .ok (s1, some t) ∧
        Inv q ⟨s1, infl, L⟩)) ∨
    (rmv_rest b fuel s q t (s.msgs t).pNext = .stalled ∧
      rmv_non_stalling_rest b s q t (s.msgs t).pNext = .ok (s, none) ∧ infl ≠ [] ∧ L ≠ []) := by
  cases hn : (s.msgs t).pNext with
  | some n =>
    left
    obtain ⟨⟨s1, e1, a1, b1, c1⟩, ⟨s2, e2, a2, b2, c2⟩⟩ := rest_next b fuel s q t n
    exact ⟨⟨s1, e1, inv_after_next q s s1 infl t n L h hstub hn a1 b1 c1⟩,
      ⟨s2, e2, inv_after_next q s s2 infl t n L h hstub hn a2 b2 c2⟩⟩
  | none =>
    by_cases hh : (s.fifos q).pHead = some t
    · left
      obtain ⟨⟨s1, e1, a1, b1, c1⟩, ⟨s2, e2, a2, b2, c2⟩⟩ := rest_last b fuel s q t hh
      exact ⟨⟨s1, e1, (inv_after_last q s s1 infl t L h hts hh a1 b1 c1).2.2⟩,
        ⟨s2, e2, (inv_after_last q s s2 infl t L h hts hh a2 b2 c2).2.2⟩⟩
    · right
      obtain ⟨e1, e2⟩ := rest_in_flight b fuel s q t hn hh
      obtain ⟨i1, i2⟩ := in_flight_nonempty q s infl t L h hn hh
      exact ⟨e1, e2, i1, i2⟩

/-- Moving the tail past the sentinel keeps the chain of the queued messages. -/
theorem chain_advance (q : Nat) (s : Mem) (infl : List (Addr × Addr)) (y : Addr)
    (L : List Addr) (h : Chain q s infl (.stub q) (y :: L))
    (hn : (s.msgs (.stub q)).pNext = some y) :
    Chain q (s.setTail q (some y)) infl y L := by
  obtain ⟨h1, h2, h3, h4, h5, h6⟩ := h
  obtain ⟨hl, h3⟩ := h3
  have hfree : ∀ z, (Addr.stub q, z) ∉ infl := by
    rcases hl with ⟨-, hf⟩ | ⟨e, -⟩
    · exact hf
    · beta_reduce at e; rw [hn] at e; exact Option.noConfusion e
  refine ⟨by simp, by simpa using h2, by simpa using h3, ?_, h5, (List.nodup_cons.mp h6).2⟩
  intro e he
  rcases List.mem_cons.mp (h4 e he) with h | h
  · exact absurd (by rw [← h]; exact he) (hfree e.2)
  · exact h

/-- What a dequeue call does on a queue that satisfies the invariant: it finds
no linked message and returns `NULL` with the heap untouched; or it returns
the oldest queued message and the invariant holds for the rest; or a producer
is in flight behind the oldest message, where `rmv_non_stalling` returns
`NULL` and the other two keep waiting. -/
theorem dequeue_outcome (b : Build) (fuel : Nat) (k : Deq) (s : Mem) (q : Nat)
    (infl : List (Addr × Addr)) (Q : List Addr) (h : Inv q ⟨s, infl, Q⟩) :
    (dequeue b fuel k s q = .ok (s, none) ∧ (s.fifos q).pTail = some (.stub q) ∧
      (s.msgs (.stub q)).pNext = none ∧ (Q = [] ∨ ∃ y, (Addr.stub q, y) ∈ infl)) ∨
    (∃ s1 x L, Q = x :: L ∧ dequeue b fuel k s q = .ok (s1, some x) ∧ Inv q ⟨s1, infl, L⟩) ∨
    (infl ≠ [] ∧ Q ≠ [] ∧
      if k = .rmv_non_stalling then
        ∃ s1, dequeue b fuel k s q = .ok (s1, none) ∧ Inv q ⟨s1, infl, Q⟩
      else dequeue b fuel k s q = .stalled) := by
  obtain ⟨hstub, t, L, hshape, hc⟩ := h
  dsimp only at hstub hshape hc
  rcases hshape with ⟨rfl, rfl⟩ | ⟨hts, hQ⟩
  · -- the tail is the sentinel
    have htl := hc.1
    cases L with
    | nil =>
      have hn : (s.msgs (Addr.stub q)).pNext = none := hc.2.2.1.1
      exact Or.inl ⟨dequeue_empty b fuel k s q htl hn, htl, hn, Or.inl rfl⟩
    | cons y L =>
      rcases hc.2.2.1.1 with ⟨hn, -⟩ | ⟨hn, hmem⟩
      · beta_reduce at hn
        have hys : y ≠ Addr.stub q := fun e => hstub (by simp [e])
        have hL : Addr.stub q ∉ L := fun e => hstub (List.mem_cons_of_mem _ e)
        have hc2 := chain_advance q s infl y L hc hn
        have hnext : ((s.setTail q (some y)).msgs y).pNext = (s.msgs y).pNext := rfl
        right
        rcases rest_outcome b fuel q _ infl y L hc2 hys hL with
          ⟨⟨s1, e1, i1⟩, ⟨s2, e2, i2⟩⟩ | ⟨e1, e2, i1, i2⟩
        · left
          rw [hnext] at e1 e2
          cases k with
          | rmv => exact ⟨s1, y, L, rfl, by simp [dequeue, rmv, htl, hn, e1], i1⟩
          | rmv_non_stalling =>
            exact ⟨s2, y, L, rfl, by simp [dequeue, rmv_non_stalling, htl, hn, e2], i2⟩
          | rmv_no_dbg_on_empty =>
            exact ⟨s1, y, L, rfl, by simp [dequeue, rmv_no_dbg_on_empty, rmv, htl, hn, e1], i1⟩
        · right
          rw [hnext] at e1 e2
          refine ⟨i1, by simp, ?_⟩
          cases k with
          | rmv => simp [dequeue, rmv, htl, hn, e1]
          | rmv_non_stalling =>
            simp only [if_true]
            exact ⟨s.setTail q (some y), by simp [dequeue, rmv_non_stalling, htl, hn, e2],
              hstub, y, L, Or.inr ⟨hys, rfl⟩, hc2⟩
          | rmv_no_dbg_on_empty => simp [dequeue, rmv_no_dbg_on_empty, rmv, htl, hn, e1]
      · beta_reduce at hn
        exact Or.inl ⟨dequeue_empty b fuel k s q htl hn, htl, hn, Or.inr ⟨y, hmem⟩⟩
  · -- the tail is a message
    subst hQ
    have htl := hc.1
    have hL : Addr.stub q ∉ L := fun e => hstub (List.mem_cons_of_mem _ e)
    right
    rcases rest_outcome b fuel q s infl t L hc hts hL with
      ⟨⟨s1, e1, i1⟩, ⟨s2, e2, i2⟩⟩ | ⟨e1, e2, i1, i2⟩
    · left
      cases k with
      | rmv => exact ⟨s1, t, L, rfl, by simp [dequeue, rmv, htl, hts, e1], i1⟩
      | rmv_non_stalling =>
        exact ⟨s2, t, L, rfl, by simp [dequeue, rmv_non_stalling, htl, hts, e2], i2⟩
      | rmv_no_dbg_on_empty =>
        exact ⟨s1, t, L, rfl, by simp [dequeue, rmv_no_dbg_on_empty, rmv, htl, hts, e1], i1⟩
    · right
      refine ⟨i1, by simp, ?_⟩
      cases k with
      | rmv => simp [dequeue, rmv, htl, hts, e1]
      | rmv_non_stalling =>
        simp only [if_true]
        exact ⟨s, by simp [dequeue, rmv_non_stalling, htl, hts, e2],
          hstub, t, L, Or.inr ⟨hts, rfl⟩, hc⟩
      | rmv_no_dbg_on_empty => simp [dequeue, rmv_no_dbg_on_empty, rmv, htl, hts, e1]

/-! ## The invariant along steps and runs -/

theorem not_mem_chain (q : Nat) (Q : List Addr) (t : Addr) (L : List Addr) (m : Addr)
    (hshape : (t = .stub q ∧ L = Q) ∨ (t ≠ .stub q ∧ t :: L = Q))
    (hm : m ≠ .stub q) (hmQ : m ∉ Q) : m ∉ t :: L := by
  rcases hshape with ⟨rfl, rfl⟩ | ⟨-, rfl⟩
  · simp [hm, hmQ]
  · exact hmQ

theorem shape_append (q : Nat) (Q : List Addr) (t : Addr) (L : List Addr) (m : Addr)
    (hshape : (t = .stub q ∧ L = Q) ∨ (t ≠ .stub q ∧ t :: L = Q)) :
    (t = .stub q ∧ L ++ [m] = Q ++ [m]) ∨ (t ≠ .stub q ∧ t :: (L ++ [m]) = Q ++ [m]) := by
  rcases hshape with ⟨rfl, rfl⟩ | ⟨h, rfl⟩
  · exact Or.inl ⟨rfl, rfl⟩
  · exact Or.inr ⟨h, rfl⟩

/-- A whole `add` of a fresh message keeps the invariant and appends the
message to the queued ones, whatever producers are in flight. -/
theorem inv_add (b : Build) (q : Nat) (s : Mem) (infl : List (Addr × Addr)) (Q : List Addr)
    (m : Addr) (h : Inv q ⟨s, infl, Q⟩) (hm : m ≠ .stub q) (hmQ : m ∉ Q) :
    ∃ s1, add b s q (some m) = .ok s1 ∧ Inv q ⟨s1, infl, Q ++ [m]⟩ := by
  obtain ⟨hstub, t, L, hshape, hc⟩ := h
  dsimp only at hstub hshape hc
  have hswap : add_swap s q (some m) =
      .ok ((s.setNext m none).setHead q (some m), ((s.setNext m none).fifos q).pHead) := rfl
  obtain ⟨hp, hc1⟩ := chain_swap q s _ infl t L m _ hc (not_mem_chain q Q t L m hshape hm hmQ)
    hswap
  obtain ⟨s2, e2, -⟩ :=
    add_link_spec b ((s.setNext m none).setHead q (some m)) q (lastOf t L) (some m)
  have hc2 := chain_link b q _ s2 infl [] t (L ++ [m]) (lastOf t L) m hc1 e2
  rw [List.append_nil] at hc2
  refine ⟨s2, ?_, ?_⟩
  · simp only [add, hswap, Res.bind_ok, hp]
    exact e2
  · refine ⟨?_, t, L ++ [m], shape_append q Q t L m hshape, hc2⟩
    simp only [List.mem_append, List.mem_singleton, not_or]
    exact ⟨hstub, Ne.symm hm⟩

/-! ## Single-threaded runs against the abstract FIFO list -/

theorem specRun_enq (L : List Addr) (m : Addr) (ops : List FifoOp) :
    specRun L (.enq m :: ops) = specRun (L ++ [m]) ops := by
  cases L <;> rfl

theorem specRun_deq_nil (ops : List FifoOp) :
    specRun [] (.deq :: ops) = ((specRun [] ops).1, none :: (specRun [] ops).2) := rfl

theorem specRun_deq_cons (x : Addr) (L : List Addr) (ops : List FifoOp) :
    specRun (x :: L) (.deq :: ops) = ((specRun L ops).1, some x :: (specRun L ops).2) := rfl

/-- Forward simulation: from a heap whose queue `q` holds the list `L` with no
producer in flight, every admissible run of `add` and `rmv` completes, returns
what the abstract list returns, and ends holding the abstract list. -/
theorem run_simulates (b : Build) (fuel : Nat) (q : Nat) (ops : List FifoOp) :
    ∀ (s : Mem) (L : List Addr), Inv q ⟨s, [], L⟩ → admissible q L ops →
      ∃ s1, run b fuel s (ops.map (FifoOp.toOp q)) =
          .ok (s1, (specRun L ops).2.map fun r => (q, r)) ∧
        Inv q ⟨s1, [], (specRun L ops).1⟩ := by
  induction ops with
  | nil => intro s L h _; exact ⟨s, rfl, h⟩
  | cons op ops ih =>
    intro s L h hadm
    cases op with
    | enq m =>
      obtain ⟨hm, hmL, hadm2⟩ := hadm
      obtain ⟨s1, e1, h1⟩ := inv_add b q s [] L m h hm hmL
      obtain ⟨s2, e2, h2⟩ := ih s1 (L ++ [m]) h1 hadm2
      rw [specRun_enq]
      refine ⟨s2, ?_, h2⟩
      simp only [List.map_cons, FifoOp.toOp, run, Op.exec, e1, Res.bind_ok, e2]
      rfl
    | deq =>
      rcases dequeue_outcome b fuel .rmv s q [] L h with
        ⟨e, -, -, hQ⟩ | ⟨s1, x, L1, hQ, e, hi⟩ | ⟨hne, -⟩
      · have hL : L = [] := by
          rcases hQ with hQ | ⟨y, hy⟩
          · exact hQ
          · simp at hy
        subst hL
        obtain ⟨s2, e2, h2⟩ := ih s [] h hadm
        rw [specRun_deq_nil]
        refine ⟨s2, ?_, h2⟩
        simp only [List.map_cons, FifoOp.toOp, run, Op.exec, e, Res.bind_ok, e2]
        rfl
      · subst hQ
        obtain ⟨s2, e2, h2⟩ := ih s1 L1 hi hadm
        rw [specRun_deq_cons]
        refine ⟨s2, ?_, h2⟩
        simp only [List.map_cons, FifoOp.toOp, run, Op.exec, e, Res.bind_ok, e2]
        rfl
      · exact absurd rfl hne

theorem specRun_enqs (L ms : List Addr) (rest : List FifoOp) :
    specRun L (ms.map FifoOp.enq ++ rest) = specRun (L ++ ms) rest := by
  induction ms generalizing L with
  | nil => simp
  | cons m ms ih =>
    rw [List.map_cons, List.cons_append, specRun_enq, ih (L ++ [m])]
    simp

theorem specRun_drain (L : List Addr) :
    specRun L (List.replicate (L.length + 1) FifoOp.deq) = ([], L.map some ++ [none]) := by
  induction L with
  | nil => rfl
  | cons x L ih =>
    rw [show (x :: L).length + 1 = (L.length + 1) + 1 from rfl, List.replicate_succ,
      specRun_deq_cons, ih]
    rfl

theorem admissible_deqs (q : Nat) (n : Nat) : ∀ L, admissible q L (List.replicate n FifoOp.deq) := by
  induction n with
  | zero => intro L; trivial
  | succ n ih =>
    intro L
    rw [List.replicate_succ]
    exact ih _

theorem admissible_enqs (q : Nat) (ms : List Addr) (rest : List FifoOp) :
    ∀ L, (L ++ ms).Nodup → Addr.stub q ∉ ms → (∀ L1, admissible q L1 rest) →
      admissible q L (ms.map FifoOp.enq ++ rest) := by
  induction ms with
  | nil => intro L _ _ hr; exact hr L
  | cons m ms ih =>
    intro L hnd hs hr
    have hnd2 : ((L ++ [m]) ++ ms).Nodup := by simpa using hnd
    refine ⟨fun e => hs (by simp [e]), ?_, ih (L ++ [m]) hnd2
      (fun e => hs (List.mem_cons_of_mem _ e)) hr⟩
    intro hmem
    have := (List.nodup_append.mp hnd).2.2
    exact this hmem (List.mem_cons_self _ _)

/-- C1: on a freshly initialised queue `q`, every single-threaded sequence of
`add` and `rmv` calls in which each added message is not the sentinel and not
in the queue completes and returns exactly what the abstract FIFO list returns:
`add` appends, `rmv` returns the oldest message, or `NULL` exactly on the empty
list.  In particular, adding the distinct messages `ms` and then calling `rmv`
`length ms + 1` times returns the messages of `ms` in order, each once, and
then `NULL`. -/
theorem fifo_refinement (b : Build) (fuel : Nat) (s0 : Mem) (q : Nat) :
    (∀ ops, admissible q [] ops →
      ∃ s1, run b fuel (initMpscFifo s0 q) (ops.map (FifoOp.toOp q)) =
        .ok (s1, (specRun [] ops).2.map fun r => (q, r))) ∧
    (∀ ms : List Addr, ms.Nodup → Addr.stub q ∉ ms →
      ∃ s1, run b fuel (initMpscFifo s0 q)
          ((ms.map FifoOp.enq ++ List.replicate (ms.length + 1) FifoOp.deq).map
            (FifoOp.toOp q)) =
        .ok (s1, (ms.map fun m => (q, some m)) ++ [(q, none)])) := by
  have main : ∀ ops, admissible q [] ops →
      ∃ s1, run b fuel (initMpscFifo s0 q) (ops.map (FifoOp.toOp q)) =
        .ok (s1, (specRun [] ops).2.map fun r => (q, r)) := by
    intro ops hadm
    obtain ⟨s1, e, -⟩ := run_simulates b fuel q ops _ [] (inv_init s0 q) hadm
    exact ⟨s1, e⟩
  refine ⟨main, ?_⟩
  intro ms hnd hs
  obtain ⟨s1, e⟩ := main (ms.map FifoOp.enq ++ List.replicate (ms.length + 1) FifoOp.deq)
    (admissible_enqs q ms _ [] (by simpa using hnd) hs (admissible_deqs q _))
  refine ⟨s1, ?_⟩
  rw [e, specRun_enqs, List.nil_append, specRun_drain]
  simp

/-- Witness of C1: `add` of `node 1`, `rmv`, `add` of `node 2` and of
`node 1` again, then three `rmv` calls on queue 0 of a zero-filled heap. -/
theorem fifo_refinement_witness :
    ∃ s1, run Build.plain 0 (initMpscFifo Mem.zero 0)
        ([FifoOp.enq (.node 1), .deq, .enq (.node 2), .enq (.node 1), .deq, .deq, .deq].map
          (FifoOp.toOp 0)) =
      .ok (s1, [(0, some (.node 1)), (0, some (.node 2)), (0, some (.node 1)), (0, none)]) :=
  (fifo_refinement Build.plain 0 Mem.zero 0).1
    [FifoOp.enq (.node 1), .deq, .enq (.node 2), .enq (.node 1), .deq, .deq, .deq]
    (by simp [admissible, specStep])

/-! ## Recycling, the fast empty check and the enqueue frame -/

/-- C11: `ret_msg(NULL)` and `ret_msg(m)` with `m->pPool == NULL` return with
the whole heap (every queue, every field of every message) unchanged; for a
message `m` with pool `P`, `ret_msg(m)` is exactly `add(P, m)`: the same
outcome and the same heap. -/
theorem ret_msg_no_pool_noop (b : Build) (s : Mem) :
    ret_msg b s none = .ok s ∧
      (∀ m, (s.msgs m).pPool = none → ret_msg b s (some m) = .ok s) ∧
      (∀ m P, (s.msgs m).pPool = some P → ret_msg b s (some m) = add b s P (some m)) := by
  refine ⟨rfl, ?_, ?_⟩
  · intro m h; simp [ret_msg, h]
  · intro m P h; simp [ret_msg, h]

/-- Witness of C11 on `Mem.two`: `node 5` has pool 1, `node 6` has none. -/
theorem ret_msg_no_pool_noop_witness :
    ret_msg Build.plain Mem.two (some (.node 6)) = .ok Mem.two ∧
      ret_msg Build.plain Mem.two (some (.node 5)) = add Build.plain Mem.two 1 (some (.node 5)) :=
  ⟨(ret_msg_no_pool_noop Build.plain Mem.two).2.1 (.node 6) (by decide),
    (ret_msg_no_pool_noop Build.plain Mem.two).2.2 (.node 5) 1 (by decide)⟩

theorem quiet_is_rmv (b : Build) (fuel : Nat) (s : Mem) (q : Nat) :
    rmv_no_dbg_on_empty b fuel s q = rmv b fuel s q := by
  unfold rmv_no_dbg_on_empty
  cases ht : (s.fifos q).pTail with
  | none => simp [rmv, ht]
  | some t =>
    simp only
    split
    · rename_i h
      obtain ⟨h1, h2⟩ := h
      subst h2
      simp [rmv, ht, h1]
    · rfl

/-- C12: on every heap and for every fuel `rmv_no_dbg_on_empty` has the outcome
of `rmv`: the same returned pointer and the same heap when `rmv` returns, and
it faults or keeps waiting exactly when `rmv` does. -/
theorem rmv_no_dbg_on_empty_eq_rmv (b : Build) (fuel : Nat) (s : Mem) (q : Nat) :
    rmv_no_dbg_on_empty b fuel s q = rmv b fuel s q ∧
      ∀ s1 r, rmv b fuel s q = .ok (s1, r) → rmv_no_dbg_on_empty b fuel s q = .ok (s1, r) :=
  ⟨quiet_is_rmv b fuel s q, fun _ _ h => (quiet_is_rmv b fuel s q).trans h⟩

/-- C19: the head of `q` is `h` (not `NULL`) and `msg` is not `h`.  Then
`add(q, msg)` returns; afterwards the head is `msg`, `msg->pNext` is `NULL`
and `h->pNext` is `msg`; the tail and `msgs_processed` of `q`, the record of
every other queue, the `pNext` of every node other than `msg` and `h`, and
`pPool`, `pRspQ`, `arg1`, `arg2` of every message are unchanged. -/
theorem add_postcondition_frame (b : Build) (s : Mem) (q : Nat) (msg h : Addr)
    (hh : (s.fifos q).pHead = some h) (hne : msg ≠ h) :
    ∃ s1, add b s q (some msg) = .ok s1 ∧
      (s1.fifos q).pHead = some msg ∧ (s1.msgs msg).pNext = none ∧
      (s1.msgs h).pNext = some msg ∧
      (s1.fifos q).pTail = (s.fifos q).pTail ∧
      (s1.fifos q).msgs_processed = (s.fifos q).msgs_processed ∧
      (∀ q1, q1 ≠ q → s1.fifos q1 = s.fifos q1) ∧
      (∀ a, a ≠ msg → a ≠ h → (s1.msgs a).pNext = (s.msgs a).pNext) ∧
      (∀ a, (s1.msgs a).pPool = (s.msgs a).pPool ∧ (s1.msgs a).pRspQ = (s.msgs a).pRspQ ∧
        (s1.msgs a).arg1 = (s.msgs a).arg1 ∧ (s1.msgs a).arg2 = (s.msgs a).arg2) := by
  obtain ⟨s1, e, h1, h2, h3, h4, h5, hf, -⟩ := add_spec b s q msg h hh
  refine ⟨s1, e, h1, h5 hne, h4, h2, h3, hf.1, ?_, hf.2.1⟩
  intro a ha1 ha2
  exact hf.2.2 a (by simp [ha1, ha2])

/-- Witness of C19: `add(0, node 5)` on the empty queue 0 of `Mem.two`. -/
theorem add_postcondition_frame_witness :
    ∃ s1, add Build.plain Mem.two 0 (some (.node 5)) = .ok s1 ∧
      (s1.fifos 0).pHead = some (.node 5) ∧ (s1.msgs (.node 5)).pNext = none ∧
      (s1.msgs (.stub 0)).pNext = some (.node 5) ∧
      (s1.fifos 0).pTail = (Mem.two.fifos 0).pTail ∧
      (s1.fifos 0).msgs_processed = (Mem.two.fifos 0).msgs_processed ∧
      (∀ q1, q1 ≠ 0 → s1.fifos q1 = Mem.two.fifos q1) ∧
      (∀ a, a ≠ .node 5 → a ≠ .stub 0 → (s1.msgs a).pNext = (Mem.two.msgs a).pNext) ∧
      (∀ a, (s1.msgs a).pPool = (Mem.two.msgs a).pPool ∧
        (s1.msgs a).pRspQ = (Mem.two.msgs a).pRspQ ∧
        (s1.msgs a).arg1 = (Mem.two.msgs a).arg1 ∧ (s1.msgs a).arg2 = (Mem.two.msgs a).arg2) :=
  add_postcondition_frame Build.plain Mem.two 0 (.node 5) (.stub 0) (by decide) (by decide)

/-! ## The link of a returned message -/

theorem rmv_wait_next (t : Addr) (fuel : Nat) (s s1 : Mem) (n : Addr)
    (h : rmv_wait t fuel s (s.msgs t).pNext = .ok (s1, n)) :
    (s1.msgs t).pNext = some n ∧ s1.msgs = s.msgs ∧ s1.fifos = s.fifos := by
  induction fuel generalizing s with
  | zero =>
    cases hp : (s.msgs t).pNext with
    | none => rw [hp] at h; simp [rmv_wait] at h
    | some a =>
      rw [hp] at h
      simp at h
      obtain ⟨rfl, rfl⟩ := h
      exact ⟨hp, rfl, rfl⟩
  | succ f ih =>
    cases hp : (s.msgs t).pNext with
    | none =>
      rw [hp] at h
      simp only [rmv_wait] at h
      have := ih (sched_yield s) h
      simpa using this
    | some a =>
      rw [hp] at h
      simp at h
      obtain ⟨rfl, rfl⟩ := h
      exact ⟨hp, rfl, rfl⟩

theorem rmv_rest_link (b : Build) (fuel : Nat) (s s1 : Mem) (q : Nat) (t : Addr) (r : Ptr)
    (h : rmv_rest b fuel s q t (s.msgs t).pNext = .ok (s1, r)) :
    r = some t ∧ (s1.msgs t).pNext = (s1.fifos q).pTail ∧ (s1.msgs t).pNext ≠ none := by
  unfold rmv_rest at h
  cases hp : (s.msgs t).pNext with
  | some n =>
    rw [hp] at h
    simp at h
    obtain ⟨rfl, rfl⟩ := h
    simp [hp]
  | none =>
    rw [hp] at h
    simp only at h
    cases hadd : (if some t = (s.fifos q).pHead then add b s q (some (Addr.stub q))
        else Res.ok s) with
    | fault => rw [hadd] at h; simp at h
    | stalled => rw [hadd] at h; simp at h
    | ok s2 =>
      rw [hadd] at h
      simp only [Res.bind_ok] at h
      cases hw : rmv_wait t fuel s2 (s2.msgs t).pNext with
      | fault => rw [hw] at h; simp at h
      | stalled => rw [hw] at h; simp at h
      | ok v =>
        obtain ⟨s3, n⟩ := v
        rw [hw] at h
        simp at h
        obtain ⟨rfl, rfl⟩ := h
        have h3 := rmv_wait_next t fuel s2 s3 n hw
        simp [h3.1]

theorem rmv_non_stalling_rest_link (b : Build) (s s1 : Mem) (q : Nat) (t m : Addr)
    (h : rmv_non_stalling_rest b s q t (s.msgs t).pNext = .ok (s1, some m)) :
    m = t ∧ (s1.msgs t).pNext = (s1.fifos q).pTail ∧ (s1.msgs t).pNext ≠ none := by
  unfold rmv_non_stalling_rest at h
  cases hb : b.USE_ATOMIC_TYPES <;> rw [hb] at h <;> simp only [if_true, if_false] at h
  all_goals
    cases hp : (s.msgs t).pNext with
    | some n =>
      rw [hp] at h
      simp at h
      obtain ⟨rfl, rfl⟩ := h
      simp [hp]
    | none =>
      rw [hp] at h
      simp only at h
      by_cases hh : some t = (s.fifos q).pHead
      · simp only [hh, ne_eq, not_true_eq_false, if_false] at h
        cases hadd : add b s q (some (Addr.stub q)) with
        | fault => rw [hadd] at h; simp at h
        | stalled => rw [hadd] at h; simp at h
        | ok s2 =>
          rw [hadd] at h
          simp only [Res.bind_ok] at h
          cases hn : (s2.msgs t).pNext with
          | none => rw [hn] at h; simp at h
          | some n =>
            rw [hn] at h
            simp at h
            obtain ⟨rfl, e⟩ := h
            refine ⟨by rw [← hh] at e; exact (Option.some.inj e).symm, ?_⟩
            simp [hn]
      · simp only [hh, ne_eq, not_false_eq_true, if_true] at h
        simp at h

/-- C17 (amended): whenever a dequeue call (`rmv`, `rmv_non_stalling` or
`rmv_no_dbg_on_empty`) returns a message `m`, on any heap, `m->pNext` is not
`NULL` when the call returns: it still holds the node the tail has moved to,
the next message or the sentinel that was added behind `m`.  No dequeue path
stores into the `pNext` of the message it returns; the field is set to `NULL`
again only by the next `add` of `m`. -/
theorem returned_message_keeps_link (b : Build) (fuel : Nat) (k : Deq) (s s1 : Mem) (q : Nat)
    (m : Addr) (h : dequeue b fuel k s q = .ok (s1, some m)) :
    (s1.msgs m).pNext = (s1.fifos q).pTail ∧ (s1.msgs m).pNext ≠ none := by
  have hrmv : ∀ s1, rmv b fuel s q = .ok (s1, some m) →
      (s1.msgs m).pNext = (s1.fifos q).pTail ∧ (s1.msgs m).pNext ≠ none := by
    intro s1 h
    unfold rmv at h
    cases ht : (s.fifos q).pTail with
    | none => rw [ht] at h; simp at h
    | some t =>
      rw [ht] at h
      dsimp only at h
      by_cases hst : t = Addr.stub q
      · simp only [hst, if_true] at h
        cases hn : (s.msgs (Addr.stub q)).pNext with
        | none => rw [hn] at h; simp at h
        | some n =>
          rw [hn] at h
          dsimp only at h
          obtain ⟨e, hl⟩ := rmv_rest_link b fuel _ s1 q n _ h
          cases Option.some.inj e
          exact hl
      · simp only [hst, if_false] at h
        obtain ⟨e, hl⟩ := rmv_rest_link b fuel _ s1 q t _ h
        cases Option.some.inj e
        exact hl
  cases k with
  | rmv => exact hrmv s1 h
  | rmv_non_stalling =>
    simp only [dequeue] at h
    unfold rmv_non_stalling at h
    cases ht : (s.fifos q).pTail with
    | none => rw [ht] at h; simp at h
    | some t =>
      rw [ht] at h
      dsimp only at h
      by_cases hst : t = Addr.stub q
      · simp only [hst, if_true] at h
        cases hn : (s.msgs (Addr.stub q)).pNext with
        | none => rw [hn] at h; simp at h
        | some n =>
          rw [hn] at h
          dsimp only at h
          obtain ⟨e, hl⟩ := rmv_non_stalling_rest_link b _ s1 q n m h
          subst e
          exact hl
      · simp only [hst, if_false] at h
        obtain ⟨e, hl⟩ := rmv_non_stalling_rest_link b _ s1 q t m h
        subst e
        exact hl
  | rmv_no_dbg_on_empty =>
    simp only [dequeue, quiet_is_rmv] at h
    exact hrmv s1 h

theorem one_isSingle : IsSingle Mem.one 0 (.node 5) := by
  unfold IsSingle
  decide

/-- Witness of C17 (amended): `rmv` on `Mem.one`, whose queue 0 holds
`node 5`. -/
theorem returned_message_keeps_link_witness :
    ∃ s1, dequeue Build.plain 0 .rmv Mem.one 0 = .ok (s1, some (.node 5)) ∧
      (s1.msgs (.node 5)).pNext = (s1.fifos 0).pTail ∧ (s1.msgs (.node 5)).pNext ≠ none := by
  obtain ⟨s1, h, -⟩ := dequeue_single Build.plain 0 .rmv Mem.one 0 (.node 5) one_isSingle
    (by decide)
  exact ⟨s1, h, returned_message_keeps_link Build.plain 0 .rmv Mem.one s1 0 (.node 5) h⟩

/-- Counterexample to C17 as stated: `rmv` on `Mem.one` (queue 0 holds just
`node 5`) and likewise `rmv_non_stalling` return `node 5`, and in the heap
they leave `node 5->pNext` is the sentinel of queue 0, not `NULL`. -/
theorem returned_message_linked_counterexample :
    (rmv Build.plain 0 Mem.one 0).val?.map (fun r => (r.2, (r.1.msgs (.node 5)).pNext)) =
        some (some (.node 5), some (.stub 0)) ∧
      (rmv_non_stalling Build.plain Mem.one 0).val?.map
          (fun r => (r.2, (r.1.msgs (.node 5)).pNext)) =
        some (some (.node 5), some (.stub 0)) := by
  decide

/-! ## The structural invariant without producers in flight -/

theorem setTail_incProcessed_comm (s : Mem) (q : Nat) (p : Ptr) :
    (s.setTail q p).incProcessed q = (s.incProcessed q).setTail q p := by
  simp only [Mem.setTail, Mem.incProcessed, if_true]
  congr 1
  funext q1
  by_cases h : q1 = q <;> simp [h]

theorem addCount_not_counting (s : Mem) (b : Build) (q : Nat) (d : Int)
    (h : b.USE_ATOMIC_TYPES = false) : s.addCount b q d = s := by
  simp [Mem.addCount, Build.counting, h]

/-- Path "more elements": both dequeue tails leave the same heap. -/
theorem rest_next_eq (b : Build) (fuel : Nat) (s : Mem) (q : Nat) (t n : Addr) :
    rmv_rest b fuel s q t (some n) =
        .ok (((s.incProcessed q).setTail q (some n)).addCount b q (-1), some t) ∧
      rmv_non_stalling_rest b s q t (some n) =
        .ok (((s.incProcessed q).setTail q (some n)).addCount b q (-1), some t) := by
  constructor
  · simp [rmv_rest]
  · cases hb : b.USE_ATOMIC_TYPES
    · simp [rmv_non_stalling_rest, hb, addCount_not_counting]
    · simp [rmv_non_stalling_rest, hb, setTail_incProcessed_comm]

/-- Path "last element": both dequeue tails add the stub, find the link at
once and leave the same heap. -/
theorem rest_last_eq (b : Build) (fuel : Nat) (s : Mem) (q : Nat) (t : Addr)
    (hh : (s.fifos q).pHead = some t) :
    rmv_rest b fuel s q t none =
        .ok ((((((s.setNext (.stub q) none).setHead q (some (.stub q))).setNext t
          (some (.stub q))).incProcessed q).setTail q (some (.stub q))).addCount b q (-1),
          some t) ∧
      rmv_non_stalling_rest b s q t none =
        .ok ((((((s.setNext (.stub q) none).setHead q (some (.stub q))).setNext t
          (some (.stub q))).incProcessed q).setTail q (some (.stub q))).addCount b q (-1),
          some t) := by
  have hadd := add_eq b s q (.stub q) t hh
  constructor
  · simp [rmv_rest, hh, hadd]
  · cases hb : b.USE_ATOMIC_TYPES
    · simp [rmv_non_stalling_rest, hb, hh, hadd, addCount_not_counting]
    · simp [rmv_non_stalling_rest, hb, hh, hadd, setTail_incProcessed_comm]

theorem path_iff_linked (s : Mem) (x : Addr) (L : List Addr) :
    Path s x L ↔ Linked (fun a => (s.msgs a).pNext) [] x L := by
  induction L generalizing x with
  | nil => simp [Path, Linked]
  | cons y L ih => simp [Path, Linked, ih]

theorem structural_iff (s : Mem) (q : Nat) :
    Structural s q ↔ ∃ t L, Chain q s [] t L := by
  unfold Structural Chain
  constructor
  · rintro ⟨t, L, h1, h2, h3, h4⟩
    exact ⟨t, L, h1, h2, (path_iff_linked s t L).mp h3, by simp, by simp, h4⟩
  · rintro ⟨t, L, h1, h2, h3, -, -, h4⟩
    exact ⟨t, L, h1, h2, (path_iff_linked s t L).mpr h3, h4⟩

/-- A whole `add` of a message that is not on the chain appends it. -/
theorem chain_add (b : Build) (q : Nat) (s : Mem) (infl : List (Addr × Addr)) (t : Addr)
    (L : List Addr) (m : Addr) (hc : Chain q s infl t L) (hm : m ∉ t :: L) :
    ∃ s1, add b s q (some m) = .ok s1 ∧ Chain q s1 infl t (L ++ [m]) ∧ s1.yields = s.yields := by
  have hswap : add_swap s q (some m) =
      .ok ((s.setNext m none).setHead q (some m), ((s.setNext m none).fifos q).pHead) := rfl
  obtain ⟨hp, hc1⟩ := chain_swap q s _ infl t L m _ hc hm hswap
  obtain ⟨s2, e2, -, -, -, -, -, hy⟩ :=
    add_link_spec b ((s.setNext m none).setHead q (some m)) q (lastOf t L) (some m)
  have hc2 := chain_link b q _ s2 infl [] t (L ++ [m]) (lastOf t L) m hc1 e2
  rw [List.append_nil] at hc2
  refine ⟨s2, ?_, hc2, by rw [hy]; simp⟩
  simp only [add, hswap, Res.bind_ok, hp]
  exact e2

/-- Every node of a chain without producers in flight is reachable from the
tail. -/
theorem mem_chain_walk (s : Mem) (t : Addr) (L : List Addr) (m : Addr)
    (hp : Path s t L) (hm : m ∈ t :: L) : ∃ n, walk s n (some t) = some m := by
  induction L generalizing t with
  | nil =>
    simp only [List.mem_singleton] at hm
    exact ⟨0, by rw [hm]; rfl⟩
  | cons y L ih =>
    rcases List.mem_cons.mp hm with h | h
    · exact ⟨0, by rw [h]; rfl⟩
    · obtain ⟨n, hn⟩ := ih y hp.2 h
      refine ⟨n + 1, ?_⟩
      show walk s n (s.msgs t).pNext = some m
      rw [hp.1]
      exact hn

/-- The chain after the path "more elements". -/
theorem chain_after_next (q : Nat) (s s1 : Mem) (t n y : Addr) (L : List Addr)
    (h : Chain q s [] t (y :: L)) (hn : (s.msgs t).pNext = some n)
    (hm : s1.msgs = s.msgs) (hh : (s1.fifos q).pHead = (s.fifos q).pHead)
    (ht : (s1.fifos q).pTail = some n) :
    n = y ∧ Chain q s1 [] y L := by
  obtain ⟨h1, h2, h3, -, -, h6⟩ := h
  obtain ⟨hl, h3⟩ := h3
  have hny : n = y := by
    rcases hl with ⟨e, -⟩ | ⟨-, e⟩
    · beta_reduce at e; rw [hn] at e; exact Option.some.inj e
    · simp at e
  subst hny
  refine ⟨rfl, ht, by rw [hh, h2]; rfl, ?_, by simp, by simp, (List.nodup_cons.mp h6).2⟩
  simp only [hm]
  exact h3

/-- The chain after the path "last element". -/
theorem chain_after_last (q : Nat) (s s1 : Mem) (t : Addr) (hts : t ≠ .stub q)
    (hn1 : ∀ a, (s1.msgs a).pNext =
      if a = t then some (.stub q) else if a = .stub q then none else (s.msgs a).pNext)
    (hh1 : (s1.fifos q).pHead = some (.stub q)) (ht1 : (s1.fifos q).pTail = some (.stub q)) :
    Chain q s1 [] (.stub q) [] :=
  ⟨ht1, hh1, ⟨by simp [hn1, Ne.symm hts], by simp⟩, by simp, by simp, by simp⟩

/-- Both dequeue tails on a chain without producers in flight whose tail `t`
is not the sentinel: they return `t` for every fuel, call `sched_yield` zero
times, leave the same heap, and the chain that remains is the rest of the
old one, or the sentinel alone when `t` was the last node. -/
theorem rest_structural (b : Build) (q : Nat) (s : Mem) (t : Addr) (L : List Addr)
    (h : Chain q s [] t L) (hts : t ≠ .stub q) :
    ∃ s1, (∀ fuel, rmv_rest b fuel s q t (s.msgs t).pNext = .ok (s1, some t)) ∧
      rmv_non_stalling_rest b s q t (s.msgs t).pNext = .ok (s1, some t) ∧
      s1.yields = s.yields ∧
      ((L = [] ∧ Chain q s1 [] (.stub q) []) ∨ (∃ z L1, L = z :: L1 ∧ Chain q s1 [] z L1)) := by
  cases L with
  | nil =>
    have hn : (s.msgs t).pNext = none := h.2.2.1.1
    have hh : (s.fifos q).pHead = some t := h.2.1
    rw [hn]
    refine ⟨_, fun fuel => (rest_last_eq b fuel s q t hh).1, (rest_last_eq b 0 s q t hh).2,
      by simp, Or.inl ⟨rfl, ?_⟩⟩
    exact chain_after_last q s _ t hts (fun a => by simp) (by simp) (by simp)
  | cons y L =>
    have hn : (s.msgs t).pNext = some y := by
      rcases h.2.2.1.1 with ⟨e, -⟩ | ⟨-, e⟩
      · exact e
      · simp at e
    rw [hn]
    refine ⟨_, fun fuel => (rest_next_eq b fuel s q t y).1, (rest_next_eq b 0 s q t y).2,
      by simp, Or.inr ⟨y, L, rfl, ?_⟩⟩
    exact (chain_after_next q s _ t y y L h hn (by simp) (by simp) (by simp)).2

theorem isEmpty_of_chain (q : Nat) (s : Mem) (h : Chain q s [] (.stub q) []) : IsEmptyQ s q :=
  ⟨h.2.1, h.1, h.2.2.1.1⟩

/-- What the three dequeue entry points do on a chain without producers in
flight: on the sentinel alone they all return `NULL` and leave the heap; on
any other chain they all return the first node `x` that is not the leading
sentinel, for every fuel, with no `sched_yield` call and the same final heap,
and what remains is the chain behind `x`, or the sentinel alone when `x` was
the last node. -/
theorem dequeue_structural (b : Build) (q : Nat) (s : Mem) (t : Addr) (L : List Addr)
    (h : Chain q s [] t L) :
    (t = .stub q ∧ L = [] ∧ ∀ fuel k, dequeue b fuel k s q = .ok (s, none)) ∨
    (∃ s1 x t1 L1, (∀ fuel k, dequeue b fuel k s q = .ok (s1, some x)) ∧
      s1.yields = s.yields ∧ Chain q s1 [] t1 L1 ∧ x ≠ .stub q ∧
      ((t = .stub q ∧ L = [x] ∧ t1 = .stub q ∧ L1 = []) ∨
        (t = .stub q ∧ L = x :: t1 :: L1) ∨
        (t = x ∧ L = [] ∧ t1 = .stub q ∧ L1 = []) ∨
        (t = x ∧ L = t1 :: L1))) := by
  have htl := h.1
  by_cases hst : t = Addr.stub q
  · subst hst
    cases L with
    | nil =>
      have hn : (s.msgs (Addr.stub q)).pNext = none := h.2.2.1.1
      exact Or.inl ⟨rfl, rfl, fun fuel k => dequeue_empty b fuel k s q htl hn⟩
    | cons y L =>
      have hn : (s.msgs (Addr.stub q)).pNext = some y := by
        rcases h.2.2.1.1 with ⟨e, -⟩ | ⟨-, e⟩
        · exact e
        · simp at e
      have hys : y ≠ Addr.stub q := by
        intro e
        have := (List.nodup_cons.mp h.2.2.2.2.2).1
        exact this (by simp [e])
      have hc2 := chain_advance q s [] y L h hn
      have hnext : ((s.setTail q (some y)).msgs y).pNext = (s.msgs y).pNext := rfl
      obtain ⟨s1, e1, e2, hy, hrest⟩ := rest_structural b q _ y L hc2 hys
      rw [hnext] at e1 e2
      have hall : ∀ fuel k, dequeue b fuel k s q = .ok (s1, some y) := by
        intro fuel k
        cases k with
        | rmv => simp [dequeue, rmv, htl, hn, e1 fuel]
        | rmv_non_stalling => simp [dequeue, rmv_non_stalling, htl, hn, e2]
        | rmv_no_dbg_on_empty => simp [dequeue, quiet_is_rmv, rmv, htl, hn, e1 fuel]
      right
      rcases hrest with ⟨hL, hc⟩ | ⟨z, L1, hL, hc⟩
      · subst hL
        exact ⟨s1, y, .stub q, [], hall, by rw [hy]; rfl, hc, hys, Or.inl ⟨rfl, rfl, rfl, rfl⟩⟩
      · subst hL
        exact ⟨s1, y, z, L1, hall, by rw [hy]; rfl, hc, hys, Or.inr (Or.inl ⟨rfl, rfl⟩)⟩
  · obtain ⟨s1, e1, e2, hy, hrest⟩ := rest_structural b q s t L h hst
    have hall : ∀ fuel k, dequeue b fuel k s q = .ok (s1, some t) := by
      intro fuel k
      cases k with
      | rmv => simp [dequeue, rmv, htl, hst, e1 fuel]
      | rmv_non_stalling => simp [dequeue, rmv_non_stalling, htl, hst, e2]
      | rmv_no_dbg_on_empty => simp [dequeue, quiet_is_rmv, rmv, htl, hst, e1 fuel]
    right
    rcases hrest with ⟨hL, hc⟩ | ⟨z, L1, hL, hc⟩
    · subst hL
      exact ⟨s1, t, .stub q, [], hall, hy, hc, hst, Or.inr (Or.inr (Or.inl ⟨rfl, rfl, rfl, rfl⟩))⟩
    · subst hL
      exact ⟨s1, t, z, L1, hall, hy, hc, hst, Or.inr (Or.inr (Or.inr ⟨rfl, rfl⟩))⟩

theorem structural_init (s0 : Mem) (q : Nat) : Structural (initMpscFifo s0 q) q :=
  (structural_iff _ q).mpr ⟨.stub q, [], chain_init s0 q⟩

theorem structural_add (b : Build) (q : Nat) (s : Mem) (m : Addr) (h : Structural s q)
    (hm : ¬ onQueue s q m) : ∃ s1, add b s q (some m) = .ok s1 ∧ Structural s1 q := by
  obtain ⟨t, L, hc⟩ := (structural_iff s q).mp h
  have hmem : m ∉ t :: L := by
    intro hmem
    obtain ⟨n, hn⟩ := mem_chain_walk s t L m ((path_iff_linked s t L).mpr hc.2.2.1) hmem
    exact hm ⟨n, by rw [hc.1]; exact hn⟩
  obtain ⟨s1, e, hc1, -⟩ := chain_add b q s [] t L m hc hmem
  exact ⟨s1, e, (structural_iff s1 q).mpr ⟨t, L ++ [m], hc1⟩⟩

theorem structural_dequeue (b : Build) (q : Nat) (s : Mem) (h : Structural s q) :
    ∃ s1 r, (∀ fuel k, dequeue b fuel k s q = .ok (s1, r)) ∧ s1.yields = s.yields ∧
      Structural s1 q := by
  obtain ⟨t, L, hc⟩ := (structural_iff s q).mp h
  rcases dequeue_structural b q s t L hc with ⟨-, -, e⟩ | ⟨s1, x, t1, L1, e, hy, hc1, -, -⟩
  · exact ⟨s, none, e, rfl, h⟩
  · exact ⟨s1, some x, e, hy, (structural_iff s1 q).mpr ⟨t1, L1, hc1⟩⟩

/-- C13: the structural invariant (head not `NULL`, the chain of distinct
nodes from the tail ends at the head, the head's `pNext` is `NULL`, hence the
sentinel at most once on the chain) holds after `initMpscFifo`, and is
preserved by every complete call made without interleaving: `add` of a message
that is not on the chain, and `rmv`, `rmv_non_stalling`,
`rmv_no_dbg_on_empty`, each of which returns. -/
theorem structural_invariant_preserved (b : Build) (fuel : Nat) (q : Nat) :
    (∀ s0, Structural (initMpscFifo s0 q) q) ∧
    (∀ s m, Structural s q → ¬ onQueue s q m →
      ∃ s1, add b s q (some m) = .ok s1 ∧ Structural s1 q) ∧
    (∀ s k, Structural s q →
      ∃ s1 r, dequeue b fuel k s q = .ok (s1, r) ∧ Structural s1 q) := by
  refine ⟨fun s0 => structural_init s0 q, fun s m h hm => structural_add b q s m h hm, ?_⟩
  intro s k h
  obtain ⟨s1, r, e, -, h1⟩ := structural_dequeue b q s h
  exact ⟨s1, r, e fuel k, h1⟩

/-- Witness of C13: `add(0, node 1)` and `rmv(0)` on a fresh queue 0. -/
theorem structural_invariant_preserved_witness :
    (∃ s1, add Build.plain (initMpscFifo Mem.zero 0) 0 (some (.node 1)) = .ok s1 ∧
        Structural s1 0) ∧
      ∃ s1 r, dequeue Build.plain 0 .rmv (initMpscFifo Mem.zero 0) 0 = .ok (s1, r) ∧
        Structural s1 0 :=
  ⟨(structural_invariant_preserved Build.plain 0 0).2.1 _ (.node 1)
      ((structural_invariant_preserved Build.plain 0 0).1 Mem.zero)
      (not_onQueue_of_empty _ 0 _ (init_isEmpty Mem.zero 0) (by decide)),
    (structural_invariant_preserved Build.plain 0 0).2.2 _ .rmv
      ((structural_invariant_preserved Build.plain 0 0).1 Mem.zero)⟩

/-- C15: on every heap in which queue `q` satisfies the structural invariant
(no producer in flight) `rmv_non_stalling` and `rmv`, for every fuel, return
the same pointer and leave the same heap, `msgs_processed` included. -/
theorem non_stalling_eq_blocking (b : Build) (fuel : Nat) (s : Mem) (q : Nat)
    (h : Structural s q) :
    rmv_non_stalling b s q = rmv b fuel s q ∧
      ∃ s1 r, rmv_non_stalling b s q = .ok (s1, r) ∧ rmv b fuel s q = .ok (s1, r) := by
  obtain ⟨s1, r, e, -, -⟩ := structural_dequeue b q s h
  have e1 : rmv_non_stalling b s q = .ok (s1, r) := e 0 .rmv_non_stalling
  have e2 : rmv b fuel s q = .ok (s1, r) := e fuel .rmv
  exact ⟨e1.trans e2.symm, s1, r, e1, e2⟩

theorem one_structural : Structural Mem.one 0 :=
  ⟨.stub 0, [.node 5], by decide, by decide,
    ⟨by decide, show (Mem.one.msgs (.node 5)).pNext = none by decide⟩, by decide⟩

/-- Witness of C15 on `Mem.one`, whose queue 0 holds `node 5`. -/
theorem non_stalling_eq_blocking_witness :
    rmv_non_stalling Build.plain Mem.one 0 = rmv Build.plain 7 Mem.one 0 ∧
      ∃ s1 r, rmv_non_stalling Build.plain Mem.one 0 = .ok (s1, r) ∧
        rmv Build.plain 7 Mem.one 0 = .ok (s1, r) :=
  non_stalling_eq_blocking Build.plain 7 Mem.one 0 one_structural

/-- C20: on every heap in which queue `q` satisfies the structural invariant
`rmv` returns for every fuel, even with fuel 0 where the body of the wait loop
cannot run, and makes no `sched_yield` call: the loop body executes zero
times.  The reason: after `add(q, &stub)` the `pNext` of the old head, the
last message, is already the sentinel. -/
theorem rmv_no_spin (b : Build) (fuel : Nat) (s : Mem) (q : Nat) (h : Structural s q) :
    (∃ s1 r, rmv b fuel s q = .ok (s1, r) ∧ rmv b 0 s q = .ok (s1, r) ∧
      s1.yields = s.yields) ∧
    (∀ t, (s.fifos q).pHead = some t →
      ∃ s2, add b s q (some (.stub q)) = .ok s2 ∧ (s2.msgs t).pNext = some (.stub q)) := by
  obtain ⟨s1, r, e, hy, -⟩ := structural_dequeue b q s h
  refine ⟨⟨s1, r, e fuel .rmv, e 0 .rmv, hy⟩, ?_⟩
  intro t ht
  obtain ⟨s2, e2, -, -, -, hl, -⟩ := add_spec b s q (.stub q) t ht
  exact ⟨s2, e2, hl⟩

/-- Witness of C20 on `Mem.one`, whose queue 0 holds `node 5` as its last
message. -/
theorem rmv_no_spin_witness :
    (∃ s1 r, rmv Build.plain 3 Mem.one 0 = .ok (s1, r) ∧ rmv Build.plain 0 Mem.one 0 = .ok (s1, r) ∧
      s1.yields = Mem.one.yields) ∧
    (∀ t, (Mem.one.fifos 0).pHead = some t →
      ∃ s2, add Build.plain Mem.one 0 (some (.stub 0)) = .ok s2 ∧
        (s2.msgs t).pNext = some (.stub 0)) :=
  rmv_no_spin Build.plain 3 Mem.one 0 one_structural

theorem filter_cons_stub (q : Nat) (L : List Addr) :
    (Addr.stub q :: L).filter (fun a => decide (a ≠ Addr.stub q)) =
      L.filter (fun a => decide (a ≠ Addr.stub q)) := by
  simp [List.filter_cons]

theorem filter_cons_msg (q : Nat) (x : Addr) (L : List Addr) (hx : x ≠ .stub q) :
    (x :: L).filter (fun a => decide (a ≠ Addr.stub q)) =
      x :: L.filter (fun a => decide (a ≠ Addr.stub q)) := by
  simp [List.filter_cons, hx]

theorem filter_stub_nil (q : Nat) (L : List Addr) (hnd : L.Nodup)
    (h : L.filter (fun a => decide (a ≠ Addr.stub q)) = []) : L = [] ∨ L = [.stub q] := by
  cases L with
  | nil => exact Or.inl rfl
  | cons a L =>
    right
    have ha : a = Addr.stub q := by
      by_contra hne
      rw [filter_cons_msg q a L hne] at h
      exact List.noConfusion h
    subst ha
    cases L with
    | nil => rfl
    | cons c L =>
      exfalso
      rw [filter_cons_stub] at h
      have hc : c = Addr.stub q := by
        by_contra hne
        rw [filter_cons_msg q c L hne] at h
        exact List.noConfusion h
      subst hc
      simp at hnd

/-- C16: queue `q` satisfies the structural invariant and `m` is its only
remaining message.  Then every dequeue entry point (`rmv`, `rmv_non_stalling`,
`rmv_no_dbg_on_empty`) returns `m`, and afterwards the head and the tail are
the sentinel and the sentinel's `pNext` is `NULL`: the head, tail and link
state that `initMpscFifo` produces. -/
theorem drain_last_restores_empty (b : Build) (fuel : Nat) (k : Deq) (s : Mem) (q : Nat)
    (m : Addr) (h : HoldsOnly s q m) :
    ∃ s1, dequeue b fuel k s q = .ok (s1, some m) ∧
      (s1.fifos q).pHead = some (.stub q) ∧ (s1.fifos q).pTail = some (.stub q) ∧
      (s1.msgs (.stub q)).pNext = none ∧
      (s1.fifos q).pHead = ((initMpscFifo s q).fifos q).pHead ∧
      (s1.fifos q).pTail = ((initMpscFifo s q).fifos q).pTail ∧
      (s1.msgs (.stub q)).pNext = ((initMpscFifo s q).msgs (.stub q)).pNext := by
  obtain ⟨t, L, h1, h2, h3, h4, h5⟩ := h
  have hc : Chain q s [] t L :=
    ⟨h1, h2, (path_iff_linked s t L).mp h3, by simp, by simp, h4⟩
  have fin : ∀ s1, Chain q s1 [] (.stub q) [] →
      (s1.fifos q).pHead = some (.stub q) ∧ (s1.fifos q).pTail = some (.stub q) ∧
      (s1.msgs (.stub q)).pNext = none ∧
      (s1.fifos q).pHead = ((initMpscFifo s q).fifos q).pHead ∧
      (s1.fifos q).pTail = ((initMpscFifo s q).fifos q).pTail ∧
      (s1.msgs (.stub q)).pNext = ((initMpscFifo s q).msgs (.stub q)).pNext := by
    intro s1 hc1
    obtain ⟨a, b1, c⟩ := isEmpty_of_chain q s1 hc1
    obtain ⟨a0, b0, c0⟩ := init_isEmpty s q
    exact ⟨a, b1, c, by rw [a, a0], by rw [b1, b0], by rw [c, c0]⟩
  rcases dequeue_structural b q s t L hc with
    ⟨rfl, rfl, -⟩ | ⟨s1, x, t1, L1, e, -, hc1, hx, hshape⟩
  · rw [filter_cons_stub] at h5
    exact List.noConfusion h5
  · rcases hshape with ⟨rfl, rfl, rfl, rfl⟩ | ⟨rfl, rfl⟩ | ⟨rfl, rfl, rfl, rfl⟩ | ⟨rfl, rfl⟩
    · rw [filter_cons_stub, filter_cons_msg q x [] hx] at h5
      have hxm : x = m := (List.cons.inj h5).1
      subst hxm
      exact ⟨s1, e fuel k, fin s1 hc1⟩
    · exfalso
      have hnd : (t1 :: L1).Nodup := (List.nodup_cons.mp (List.nodup_cons.mp h4).2).2
      have hstub : Addr.stub q ∉ t1 :: L1 := fun hmem =>
        (List.nodup_cons.mp h4).1 (List.mem_cons_of_mem _ hmem)
      rw [filter_cons_stub, filter_cons_msg q x _ hx] at h5
      have hf := (List.cons.inj h5).2
      rcases filter_stub_nil q _ hnd hf with e0 | e0
      · exact List.noConfusion e0
      · exact hstub (by rw [e0]; simp)
    · rw [filter_cons_msg q t [] hx] at h5
      have hxm : t = m := (List.cons.inj h5).1
      subst hxm
      exact ⟨s1, e fuel k, fin s1 hc1⟩
    · have hnd : (t1 :: L1).Nodup := (List.nodup_cons.mp h4).2
      rw [filter_cons_msg q t _ hx] at h5
      obtain ⟨hxm, hf⟩ := List.cons.inj h5
      subst hxm
      rcases filter_stub_nil q _ hnd hf with e0 | e0
      · exact List.noConfusion e0
      · simp only [List.cons.injEq] at e0
        obtain ⟨rfl, rfl⟩ := e0
        exact ⟨s1, e fuel k, fin s1 hc1⟩

/-- Witness of C16 on `Mem.one`, whose queue 0 holds only `node 5`. -/
theorem drain_last_restores_empty_witness :
    ∃ s1, dequeue Build.plain 0 .rmv_non_stalling Mem.one 0 = .ok (s1, some (.node 5)) ∧
      (s1.fifos 0).pHead = some (.stub 0) ∧ (s1.fifos 0).pTail = some (.stub 0) ∧
      (s1.msgs (.stub 0)).pNext = none ∧
      (s1.fifos 0).pHead = ((initMpscFifo Mem.one 0).fifos 0).pHead ∧
      (s1.fifos 0).pTail = ((initMpscFifo Mem.one 0).fifos 0).pTail ∧
      (s1.msgs (.stub 0)).pNext = ((initMpscFifo Mem.one 0).msgs (.stub 0)).pNext :=
  drain_last_restores_empty Build.plain 0 .rmv_non_stalling Mem.one 0 (.node 5)
    ⟨.stub 0, [.node 5], by decide, by decide,
      ⟨by decide, show (Mem.one.msgs (.node 5)).pNext = none by decide⟩, by decide, by decide⟩

/-! ## The sentinel is never returned -/

theorem add_stub_next (b : Build) (s s2 : Mem) (q : Nat) (t : Addr) (hts : t ≠ .stub q)
    (hh : some t = (s.fifos q).pHead) (h : add b s q (some (.stub q)) = .ok s2) :
    (s2.msgs (.stub q)).pNext = none ∧ (s2.fifos q).pHead = some (.stub q) := by
  obtain ⟨s3, e, h1, -, -, -, h5, -⟩ := add_spec b s q (.stub q) t hh.symm
  rw [e] at h
  cases h
  exact ⟨h5 (Ne.symm hts), h1⟩

/-- The dequeue tails store into the sentinel's `pNext` only `NULL`, and
leave the head a valid pointer. -/
theorem rest_stub_next (b : Build) (fuel : Nat) (s s1 : Mem) (q : Nat) (t : Addr) (p r : Ptr)
    (hts : t ≠ .stub q)
    (h : rmv_rest b fuel s q t p = .ok (s1, r) ∨
      rmv_non_stalling_rest b s q t p = .ok (s1, r)) :
    ((s1.msgs (.stub q)).pNext = (s.msgs (.stub q)).pNext ∨
      (s1.msgs (.stub q)).pNext = none) ∧
    ((s.fifos q).pHead ≠ none → (s1.fifos q).pHead ≠ none) := by
  rcases h with h | h
  · unfold rmv_rest at h
    cases p with
    | some n =>
      simp at h
      obtain ⟨rfl, -⟩ := h
      exact ⟨Or.inl (by simp), by simp⟩
    | none =>
      simp only at h
      by_cases hh : some t = (s.fifos q).pHead
      · simp only [hh, if_true] at h
        cases hadd : add b s q (some (Addr.stub q)) with
        | fault => rw [hadd] at h; simp at h
        | stalled => rw [hadd] at h; simp at h
        | ok s2 =>
          rw [hadd] at h
          simp only [Res.bind_ok] at h
          obtain ⟨hn2, hh2⟩ := add_stub_next b s s2 q t hts hh hadd
          cases hw : rmv_wait t fuel s2 (s2.msgs t).pNext with
          | fault => rw [hw] at h; simp at h
          | stalled => rw [hw] at h; simp at h
          | ok v =>
            obtain ⟨s3, n⟩ := v
            rw [hw] at h
            simp at h
            obtain ⟨rfl, -⟩ := h
            have h3 := rmv_wait_ok t fuel s2 s3 _ n hw
            exact ⟨Or.inr (by simp [h3.2, hn2]), by simp [h3.1, hh2]⟩
      · simp only [hh, if_false, Res.bind_ok] at h
        cases hw : rmv_wait t fuel s (s.msgs t).pNext with
        | fault => rw [hw] at h; simp at h
        | stalled => rw [hw] at h; simp at h
        | ok v =>
          obtain ⟨s3, n⟩ := v
          rw [hw] at h
          simp at h
          obtain ⟨rfl, -⟩ := h
          have h3 := rmv_wait_ok t fuel s s3 _ n hw
          exact ⟨Or.inl (by simp [h3.2]), by simp [h3.1]⟩
  · unfold rmv_non_stalling_rest at h
    cases hb : b.USE_ATOMIC_TYPES <;> rw [hb] at h <;> simp only [if_true, if_false] at h
    all_goals
      cases p with
      | some n =>
        simp at h
        obtain ⟨rfl, -⟩ := h
        exact ⟨Or.inl (by simp), by simp⟩
      | none =>
        simp only at h
        by_cases hh : some t = (s.fifos q).pHead
        · simp only [hh, ne_eq, not_true_eq_false, if_false] at h
          cases hadd : add b s q (some (Addr.stub q)) with
          | fault => rw [hadd] at h; simp at h
          | stalled => rw [hadd] at h; simp at h
          | ok s2 =>
            rw [hadd] at h
            simp only [Res.bind_ok] at h
            obtain ⟨hn2, hh2⟩ := add_stub_next b s s2 q t hts hh hadd
            cases hn : (s2.msgs t).pNext with
            | none =>
              rw [hn] at h
              simp at h
              obtain ⟨rfl, -⟩ := h
              exact ⟨Or.inr hn2, fun _ => by rw [hh2]; simp⟩
            | some n =>
              rw [hn] at h
              simp at h
              obtain ⟨rfl, -⟩ := h
              exact ⟨Or.inr (by simp [hn2]), by simp [hh2]⟩
        · simp only [hh, ne_eq, not_false_eq_true, if_true] at h
          simp at h
          obtain ⟨rfl, -⟩ := h
          exact ⟨Or.inl rfl, id⟩

/-- When the sentinel does not point at itself, a dequeue call does not return
it and does not make it point at itself. -/
theorem dequeue_never_stub (b : Build) (fuel : Nat) (k : Deq) (s s1 : Mem) (q : Nat) (r : Ptr)
    (hs : (s.msgs (.stub q)).pNext ≠ some (.stub q))
    (h : dequeue b fuel k s q = .ok (s1, r)) :
    r ≠ some (.stub q) ∧ (s1.msgs (.stub q)).pNext ≠ some (.stub q) ∧
      ((s.fifos q).pHead ≠ none → (s1.fifos q).pHead ≠ none) := by
  have keep : ∀ s0 : Mem, (s0.msgs (.stub q)).pNext = (s.msgs (.stub q)).pNext →
      ((s1.msgs (.stub q)).pNext = (s0.msgs (.stub q)).pNext ∨
        (s1.msgs (.stub q)).pNext = none) → (s1.msgs (.stub q)).pNext ≠ some (.stub q) := by
    intro s0 e0 hor
    rcases hor with e | e
    · rw [e, e0]; exact hs
    · rw [e]; exact Option.noConfusion
  have hrmv : ∀ s1 r, rmv b fuel s q = .ok (s1, r) →
      r ≠ some (.stub q) ∧
      (∃ s0 : Mem, (s0.msgs (.stub q)).pNext = (s.msgs (.stub q)).pNext ∧
        ((s1.msgs (.stub q)).pNext = (s0.msgs (.stub q)).pNext ∨
          (s1.msgs (.stub q)).pNext = none)) ∧
      ((s.fifos q).pHead ≠ none → (s1.fifos q).pHead ≠ none) := by
    intro s1 r h
    unfold rmv at h
    cases ht : (s.fifos q).pTail with
    | none => rw [ht] at h; simp at h
    | some t =>
      rw [ht] at h
      dsimp only at h
      by_cases hst : t = Addr.stub q
      · simp only [hst, if_true] at h
        cases hn : (s.msgs (Addr.stub q)).pNext with
        | none =>
          rw [hn] at h; simp at h
          obtain ⟨rfl, rfl⟩ := h
          exact ⟨Option.noConfusion, ⟨s, hn, Or.inl rfl⟩, id⟩
        | some n =>
          rw [hn] at h
          dsimp only at h
          have hns : n ≠ Addr.stub q := fun e => hs (by rw [hn, e])
          obtain ⟨e, -⟩ := rmv_rest_proc b fuel _ s1 q n _ r h
          obtain ⟨h1, h2⟩ := rest_stub_next b fuel _ s1 q n _ r hns (Or.inl h)
          exact ⟨by rw [e]; exact fun e2 => hns (Option.some.inj e2),
            ⟨s.setTail q (some n), hn, h1⟩, fun hh => h2 (by simpa using hh)⟩
      · simp only [hst, if_false] at h
        obtain ⟨e, -⟩ := rmv_rest_proc b fuel _ s1 q t _ r h
        obtain ⟨h1, h2⟩ := rest_stub_next b fuel _ s1 q t _ r hst (Or.inl h)
        exact ⟨by rw [e]; exact fun e2 => hst (Option.some.inj e2), ⟨s, rfl, h1⟩, h2⟩
  cases k with
  | rmv =>
    obtain ⟨a, ⟨s0, e0, hor⟩, c⟩ := hrmv s1 r h
    exact ⟨a, keep s0 e0 hor, c⟩
  | rmv_no_dbg_on_empty =>
    simp only [dequeue, quiet_is_rmv] at h
    obtain ⟨a, ⟨s0, e0, hor⟩, c⟩ := hrmv s1 r h
    exact ⟨a, keep s0 e0 hor, c⟩
  | rmv_non_stalling =>
    simp only [dequeue] at h
    unfold rmv_non_stalling at h
    cases ht : (s.fifos q).pTail with
    | none => rw [ht] at h; simp at h
    | some t =>
      rw [ht] at h
      dsimp only at h
      by_cases hst : t = Addr.stub q
      · simp only [hst, if_true] at h
        cases hn : (s.msgs (Addr.stub q)).pNext with
        | none =>
          rw [hn] at h; simp at h
          obtain ⟨rfl, rfl⟩ := h
          exact ⟨Option.noConfusion, hs, id⟩
        | some n =>
          rw [hn] at h
          dsimp only at h
          have hns : n ≠ Addr.stub q := fun e => hs (by rw [hn, e])
          obtain ⟨h1, h2⟩ := rest_stub_next b fuel _ s1 q n _ r hns (Or.inr h)
          refine ⟨?_, keep (s.setTail q (some n)) rfl h1, fun hh => h2 (by simpa using hh)⟩
          rcases rmv_non_stalling_rest_proc b _ s1 q n _ r h with ⟨e, -⟩ | ⟨e, -⟩
          · rw [e]; exact Option.noConfusion
          · rw [e]; exact fun e2 => hns (Option.some.inj e2)
      · simp only [hst, if_false] at h
        obtain ⟨h1, h2⟩ := rest_stub_next b fuel _ s1 q t _ r hst (Or.inr h)
        refine ⟨?_, keep s rfl h1, h2⟩
        rcases rmv_non_stalling_rest_proc b _ s1 q t _ r h with ⟨e, -⟩ | ⟨e, -⟩
        · rw [e]; exact Option.noConfusion
        · rw [e]; exact fun e2 => hst (Option.some.inj e2)

/-! ## The advisory count -/

/-- Witness of C12 on `Mem.one`, where `rmv` returns `node 5`. -/
theorem rmv_no_dbg_on_empty_eq_rmv_witness :
    ∃ s1, rmv Build.plain 0 Mem.one 0 = .ok (s1, some (.node 5)) ∧
      rmv_no_dbg_on_empty Build.plain 0 Mem.one 0 = .ok (s1, some (.node 5)) := by
  obtain ⟨s1, h, -⟩ := dequeue_single Build.plain 0 .rmv Mem.one 0 (.node 5) one_isSingle
    (by decide)
  exact ⟨s1, h, (rmv_no_dbg_on_empty_eq_rmv Build.plain 0 Mem.one 0).2 s1 _ h⟩

/-! ## The interleaved system: the steps of `add` and of the consumer -/

/-- The first half of `add` is the store of `NULL`, then the exchange. -/
theorem add_swap_split (s : Mem) (q : Nat) (pMsg : Ptr) :
    add_swap s q pMsg = (add_clear s pMsg).bind fun s1 => .ok (add_xchg s1 q pMsg) := by
  cases pMsg <;> rfl

/-- The second half of `add` is the link store, then the count update. -/
theorem add_link_split (b : Build) (s : Mem) (q : Nat) (pPrev pMsg : Ptr) :
    add_link b s q pPrev pMsg =
      (add_store s pPrev pMsg).bind fun s1 => .ok (add_count_step b s1 q pMsg) := by
  cases pPrev <;> rfl

/-- `add` is its four steps in program order. -/
theorem add_split (b : Build) (s : Mem) (q : Nat) (pMsg : Ptr) :
    add b s q pMsg =
      (add_clear s pMsg).bind fun s1 =>
        (add_store (add_xchg s1 q pMsg).1 (add_xchg s1 q pMsg).2 pMsg).bind fun s2 =>
          .ok (add_count_step b s2 q pMsg) := by
  cases pMsg with
  | none => rfl
  | some m =>
    simp only [add, add_swap_split, add_link_split, add_clear, Res.bind_ok]

@[simp] theorem add_count_step_msgs (b : Build) (s : Mem) (q : Nat) (pMsg : Ptr) :
    (add_count_step b s q pMsg).msgs = s.msgs := by
  unfold add_count_step
  split <;> simp

@[simp] theorem add_count_step_pHead (b : Build) (s : Mem) (q q1 : Nat) (pMsg : Ptr) :
    ((add_count_step b s q pMsg).fifos q1).pHead = (s.fifos q1).pHead := by
  unfold add_count_step
  split <;> simp

@[simp] theorem add_count_step_pTail (b : Build) (s : Mem) (q q1 : Nat) (pMsg : Ptr) :
    ((add_count_step b s q pMsg).fifos q1).pTail = (s.fifos q1).pTail := by
  unfold add_count_step
  split <;> simp

@[simp] theorem commit_exec_msgs (b : Build) (q : Nat) (n : Addr) (s : Mem) (o : Commit) :
    (o.exec b q n s).msgs = s.msgs := by
  cases o <;> simp [Commit.exec]

@[simp] theorem commit_exec_pHead (b : Build) (q q1 : Nat) (n : Addr) (s : Mem) (o : Commit) :
    ((o.exec b q n s).fifos q1).pHead = (s.fifos q1).pHead := by
  cases o <;> simp [Commit.exec]

theorem commit_exec_pTail (b : Build) (q : Nat) (n : Addr) (s : Mem) (o : Commit)
    (ho : o ≠ .tail) : ((o.exec b q n s).fifos q).pTail = (s.fifos q).pTail := by
  cases o
  · simp [Commit.exec]
  · exact absurd rfl ho
  · simp [Commit.exec]

theorem commits_nodup (b : Build) (k : Deq) : (commits b k).Nodup := by
  unfold commits
  split <;> split <;> decide

theorem tail_mem_commits (b : Build) (k : Deq) : Commit.tail ∈ commits b k := by
  unfold commits
  split <;> simp

theorem consumer_loaded_cases (b : Build) (k : Deq) (t : Addr) (p : Ptr) :
    (p = none ∧ consumer_loaded b k t p = .go (.readHead k t)) ∨
    (∃ n, p = some n ∧ consumer_loaded b k t p = .go (.commit k t n (commits b k))) := by
  cases p with
  | none => exact Or.inl ⟨rfl, rfl⟩
  | some n => exact Or.inr ⟨n, rfl, rfl⟩

/-- The step from `check`: both loads, then the test of line 354 (341). -/
theorem step_check (b : Build) (q : Nat) (s s1 : Mem) (nx : Next)
    (h : consumer_step b q s .check = .ok (s1, nx)) :
    s1 = s ∧ ∃ t, (s.fifos q).pTail = some t ∧
      (((s.msgs t).pNext = none ∧ t = .stub q ∧ nx = .ret none) ∨
        nx = .go (.entry .rmv_no_dbg_on_empty)) := by
  simp only [consumer_step] at h
  cases ht : (s.fifos q).pTail with
  | none => rw [ht] at h; simp at h
  | some t =>
    rw [ht] at h
    dsimp only at h
    split at h
    · rename_i hc
      simp only [Res.ok.injEq, Prod.mk.injEq] at h
      exact ⟨h.1.symm, t, rfl, Or.inl ⟨hc.1, hc.2, h.2.symm⟩⟩
    · simp only [Res.ok.injEq, Prod.mk.injEq] at h
      exact ⟨h.1.symm, t, rfl, Or.inr h.2.symm⟩

/-- The step from `entry`: both loads, then the tests of lines 304-305. -/
theorem step_entry (b : Build) (q : Nat) (s s1 : Mem) (k : Deq) (nx : Next)
    (h : consumer_step b q s (.entry k) = .ok (s1, nx)) :
    s1 = s ∧ ∃ t, (s.fifos q).pTail = some t ∧
      ((t = .stub q ∧ (s.msgs (.stub q)).pNext = none ∧ nx = .ret none) ∨
        (t = .stub q ∧ ∃ n, (s.msgs (.stub q)).pNext = some n ∧ nx = .go (.skip k n)) ∨
        (t ≠ .stub q ∧ (s.msgs t).pNext = none ∧ nx = .go (.readHead k t)) ∨
        (t ≠ .stub q ∧ ∃ n, (s.msgs t).pNext = some n ∧
          nx = .go (.commit k t n (commits b k)))) := by
  simp only [consumer_step] at h
  cases ht : (s.fifos q).pTail with
  | none => rw [ht] at h; simp at h
  | some t =>
    rw [ht] at h
    dsimp only at h
    by_cases hst : t = Addr.stub q
    · subst hst
      simp only [if_true] at h
      cases hn : (s.msgs (Addr.stub q)).pNext with
      | none =>
        rw [hn] at h
        simp only [Res.ok.injEq, Prod.mk.injEq] at h
        exact ⟨h.1.symm, _, rfl, Or.inl ⟨rfl, rfl, h.2.symm⟩⟩
      | some n =>
        rw [hn] at h
        simp only [Res.ok.injEq, Prod.mk.injEq] at h
        exact ⟨h.1.symm, _, rfl, Or.inr (Or.inl ⟨rfl, n, rfl, h.2.symm⟩)⟩
    · simp only [hst, if_false, Res.ok.injEq, Prod.mk.injEq] at h
      refine ⟨h.1.symm, t, rfl, Or.inr (Or.inr ?_)⟩
      rcases consumer_loaded_cases b k t (s.msgs t).pNext with ⟨e1, e2⟩ | ⟨n, e1, e2⟩
      · exact Or.inl ⟨hst, e1, by rw [← h.2, e2]⟩
      · exact Or.inr ⟨hst, n, e1, by rw [← h.2, e2]⟩

theorem step_skip (b : Build) (q : Nat) (s s1 : Mem) (k : Deq) (n : Addr) (nx : Next)
    (h : consumer_step b q s (.skip k n) = .ok (s1, nx)) :
    s1 = s.setTail q (some n) ∧ nx = .go (.second k n) := by
  simp only [consumer_step, Res.ok.injEq, Prod.mk.injEq] at h
  exact ⟨h.1.symm, h.2.symm⟩

theorem step_second (b : Build) (q : Nat) (s s1 : Mem) (k : Deq) (a : Addr) (nx : Next)
    (h : consumer_step b q s (.second k a) = .ok (s1, nx)) :
    s1 = s ∧ (((s.msgs a).pNext = none ∧ nx = .go (.readHead k a)) ∨
      ∃ n, (s.msgs a).pNext = some n ∧ nx = .go (.commit k a n (commits b k))) := by
  simp only [consumer_step, Res.ok.injEq, Prod.mk.injEq] at h
  refine ⟨h.1.symm, ?_⟩
  rcases consumer_loaded_cases b k a (s.msgs a).pNext with ⟨e1, e2⟩ | ⟨n, e1, e2⟩
  · exact Or.inl ⟨e1, by rw [← h.2, e2]⟩
  · exact Or.inr ⟨n, e1, by rw [← h.2, e2]⟩

theorem step_readHead (b : Build) (q : Nat) (s s1 : Mem) (k : Deq) (a : Addr) (nx : Next)
    (h : consumer_step b q s (.readHead k a) = .ok (s1, nx)) :
    s1 = s ∧ (((s.fifos q).pHead = some a ∧ nx = .go (.clear k a)) ∨
      (k = .rmv_non_stalling ∧ nx = .ret none) ∨
      (k ≠ .rmv_non_stalling ∧ nx = .go (.wait k a))) := by
  simp only [consumer_step] at h
  split at h
  · rename_i hh
    simp only [Res.ok.injEq, Prod.mk.injEq] at h
    exact ⟨h.1.symm, Or.inl ⟨hh.symm, h.2.symm⟩⟩
  · split at h
    · rename_i hk
      simp only [Res.ok.injEq, Prod.mk.injEq] at h
      exact ⟨h.1.symm, Or.inr (Or.inl ⟨hk, h.2.symm⟩)⟩
    · rename_i hk
      simp only [Res.ok.injEq, Prod.mk.injEq] at h
      exact ⟨h.1.symm, Or.inr (Or.inr ⟨hk, h.2.symm⟩)⟩

theorem step_clear (b : Build) (q : Nat) (s s1 : Mem) (k : Deq) (a : Addr) (nx : Next)
    (h : consumer_step b q s (.clear k a) = .ok (s1, nx)) :
    s1 = s.setNext (.stub q) none ∧ nx = .go (.xchg k a) := by
  simp only [consumer_step, add_clear, Res.bind_ok, Res.ok.injEq, Prod.mk.injEq] at h
  exact ⟨h.1.symm, h.2.symm⟩

theorem step_xchg (b : Build) (q : Nat) (s s1 : Mem) (k : Deq) (a : Addr) (nx : Next)
    (h : consumer_step b q s (.xchg k a) = .ok (s1, nx)) :
    s1 = s.setHead q (some (.stub q)) ∧ nx = .go (.link k a (s.fifos q).pHead) := by
  simp only [consumer_step, add_xchg, Res.ok.injEq, Prod.mk.injEq] at h
  exact ⟨h.1.symm, h.2.symm⟩

theorem step_link (b : Build) (q : Nat) (s s1 : Mem) (k : Deq) (a : Addr) (pPrev : Ptr)
    (nx : Next) (h : consumer_step b q s (.link k a pPrev) = .ok (s1, nx)) :
    ∃ p, pPrev = some p ∧ s1 = s.setNext p (some (.stub q)) ∧ nx = .go (.wait k a) := by
  cases pPrev with
  | none => simp [consumer_step, add_store] at h
  | some p =>
    simp only [consumer_step, add_store, add_count_step, Res.bind_ok, Res.ok.injEq,
      Prod.mk.injEq, ne_eq, not_true_eq_false, if_false] at h
    exact ⟨p, rfl, h.1.symm, h.2.symm⟩

theorem step_wait (b : Build) (q : Nat) (s s1 : Mem) (k : Deq) (a : Addr) (nx : Next)
    (h : consumer_step b q s (.wait k a) = .ok (s1, nx)) :
    s1 = s ∧ ((∃ n, (s.msgs a).pNext = some n ∧ nx = .go (.commit k a n (commits b k))) ∨
      ((s.msgs a).pNext = none ∧ k = .rmv_non_stalling ∧ nx = .ret none) ∨
      ((s.msgs a).pNext = none ∧ k ≠ .rmv_non_stalling ∧ nx = .go (.yield k a))) := by
  simp only [consumer_step] at h
  cases hn : (s.msgs a).pNext with
  | some n =>
    rw [hn] at h
    simp only [Res.ok.injEq, Prod.mk.injEq] at h
    exact ⟨h.1.symm, Or.inl ⟨n, rfl, h.2.symm⟩⟩
  | none =>
    rw [hn] at h
    dsimp only at h
    split at h
    · rename_i hk
      simp only [Res.ok.injEq, Prod.mk.injEq] at h
      exact ⟨h.1.symm, Or.inr (Or.inl ⟨rfl, hk, h.2.symm⟩)⟩
    · rename_i hk
      simp only [Res.ok.injEq, Prod.mk.injEq] at h
      exact ⟨h.1.symm, Or.inr (Or.inr ⟨rfl, hk, h.2.symm⟩)⟩

theorem step_yield (b : Build) (q : Nat) (s s1 : Mem) (k : Deq) (a : Addr) (nx : Next)
    (h : consumer_step b q s (.yield k a) = .ok (s1, nx)) :
    s1 = sched_yield s ∧ nx = .go (.wait k a) := by
  simp only [consumer_step, Res.ok.injEq, Prod.mk.injEq] at h
  exact ⟨h.1.symm, h.2.symm⟩

theorem step_commit_nil (b : Build) (q : Nat) (s s1 : Mem) (k : Deq) (a n : Addr) (nx : Next)
    (h : consumer_step b q s (.commit k a n []) = .ok (s1, nx)) :
    s1 = s ∧ nx = .ret (some a) := by
  simp only [consumer_step, Res.ok.injEq, Prod.mk.injEq] at h
  exact ⟨h.1.symm, h.2.symm⟩

theorem step_commit_cons (b : Build) (q : Nat) (s s1 : Mem) (k : Deq) (a n : Addr)
    (o : Commit) (todo : List Commit) (nx : Next)
    (h : consumer_step b q s (.commit k a n (o :: todo)) = .ok (s1, nx)) :
    s1 = o.exec b q n s ∧ nx = .go (.commit k a n todo) := by
  simp only [consumer_step, Res.ok.injEq, Prod.mk.injEq] at h
  exact ⟨h.1.symm, h.2.symm⟩

/-! ## The interleaved system: the sentinel is never returned -/

/-- A step of the consumer keeps `Guard`, and what it returns is not the
stub. -/
theorem guard_consumer (b : Build) (q : Nat) (σ : Conc) (c : Ctl) (s1 : Mem) (nx : Next)
    (h : Guard q σ) (hc : σ.consumer = some c)
    (hstep : consumer_step b q σ.mem c = .ok (s1, nx)) :
    Guard q (σ.resume s1 nx) ∧ ∀ x, nx = .ret (some x) → x ≠ .stub q := by
  obtain ⟨i1, i2, i3, i4⟩ := h
  rw [hc] at i4
  cases c with
  | check =>
    obtain ⟨rfl, t, -, ⟨-, -, rfl⟩ | rfl⟩ := step_check b q _ _ _ hstep
    · exact ⟨⟨i1, i2, i3, trivial⟩, by simp⟩
    · exact ⟨⟨i1, i2, i3, trivial⟩, by simp⟩
  | entry k =>
    obtain ⟨rfl, t, -, ⟨-, -, rfl⟩ | ⟨-, n, hn, rfl⟩ | ⟨ht, -, rfl⟩ | ⟨ht, n, -, rfl⟩⟩ :=
      step_entry b q _ _ _ _ hstep
    · exact ⟨⟨i1, i2, i3, trivial⟩, by simp⟩
    · exact ⟨⟨i1, i2, i3, fun e => i1 (by rw [hn, e])⟩, by simp⟩
    · exact ⟨⟨i1, i2, i3, ht⟩, by simp⟩
    · exact ⟨⟨i1, i2, i3, ht⟩, by simp⟩
  | skip k n =>
    obtain ⟨rfl, rfl⟩ := step_skip b q _ _ _ _ _ hstep
    exact ⟨⟨by simpa [Conc.resume] using i1, i2, i3, i4⟩, by simp⟩
  | second k a =>
    obtain ⟨rfl, ⟨-, rfl⟩ | ⟨n, -, rfl⟩⟩ := step_second b q _ _ _ _ _ hstep
    · exact ⟨⟨i1, i2, i3, i4⟩, by simp⟩
    · exact ⟨⟨i1, i2, i3, i4⟩, by simp⟩
  | readHead k a =>
    obtain ⟨rfl, ⟨hh, rfl⟩ | ⟨-, rfl⟩ | ⟨-, rfl⟩⟩ := step_readHead b q _ _ _ _ _ hstep
    · refine ⟨⟨i1, i2, i3, i4, ?_⟩, by simp⟩
      show (σ.mem.fifos q).pHead ≠ some (Addr.stub q)
      rw [hh]
      exact fun e => i4 (Option.some.inj e)
    · exact ⟨⟨i1, i2, i3, trivial⟩, by simp⟩
    · exact ⟨⟨i1, i2, i3, i4⟩, by simp⟩
  | clear k a =>
    obtain ⟨rfl, rfl⟩ := step_clear b q _ _ _ _ _ hstep
    exact ⟨⟨by simp [Conc.resume], i2, i3, i4.1, by simpa [Conc.resume] using i4.2⟩, by simp⟩
  | xchg k a =>
    obtain ⟨rfl, rfl⟩ := step_xchg b q _ _ _ _ _ hstep
    exact ⟨⟨by simpa [Conc.resume] using i1, i2, i3, i4.1, i4.2⟩, by simp⟩
  | link k a p =>
    obtain ⟨p1, rfl, rfl, rfl⟩ := step_link b q _ _ _ _ _ _ hstep
    have hp : p1 ≠ Addr.stub q := fun e => i4.2 (by rw [e])
    refine ⟨⟨?_, i2, i3, i4.1⟩, by simp⟩
    simp only [Conc.resume, setNext_pNext]
    rw [if_neg (Ne.symm hp)]
    exact i1
  | wait k a =>
    obtain ⟨rfl, ⟨n, -, rfl⟩ | ⟨-, -, rfl⟩ | ⟨-, -, rfl⟩⟩ := step_wait b q _ _ _ _ _ hstep
    · exact ⟨⟨i1, i2, i3, i4⟩, by simp⟩
    · exact ⟨⟨i1, i2, i3, trivial⟩, by simp⟩
    · exact ⟨⟨i1, i2, i3, i4⟩, by simp⟩
  | yield k a =>
    obtain ⟨rfl, rfl⟩ := step_yield b q _ _ _ _ _ hstep
    exact ⟨⟨by simpa [Conc.resume] using i1, i2, i3, i4⟩, by simp⟩
  | commit k a n todo =>
    cases todo with
    | nil =>
      obtain ⟨rfl, rfl⟩ := step_commit_nil b q _ _ _ _ _ _ hstep
      refine ⟨⟨i1, i2, i3, trivial⟩, ?_⟩
      intro x hx
      simp only [Next.ret.injEq, Option.some.injEq] at hx
      rw [← hx]
      exact i4
    | cons o todo =>
      obtain ⟨rfl, rfl⟩ := step_commit_cons b q _ _ _ _ _ _ _ _ hstep
      exact ⟨⟨by simpa [Conc.resume] using i1, i2, i3, i4⟩, by simp⟩

/-- The consumer's part of `Guard` does not depend on the producers as long
as the head stays away from the stub. -/
theorem guard_ctl (q : Nat) (σ σ1 : Conc) (h : Guard q σ)
    (h1 : (σ1.mem.msgs (.stub q)).pNext ≠ some (.stub q))
    (h2 : ∀ m ∈ σ1.cleared, m ≠ .stub q)
    (h3 : ∀ e ∈ σ1.inflight, e.2 ≠ .stub q)
    (hh : (σ.mem.fifos q).pHead ≠ some (.stub q) → (σ1.mem.fifos q).pHead ≠ some (.stub q))
    (hc : σ1.consumer = σ.consumer) : Guard q σ1 := by
  obtain ⟨-, -, -, i4⟩ := h
  refine ⟨h1, h2, h3, ?_⟩
  rw [hc]
  cases hcc : σ.consumer with
  | none => trivial
  | some c =>
    rw [hcc] at i4
    cases c with
    | check => trivial
    | entry k => trivial
    | skip k n => exact i4
    | second k a => exact i4
    | readHead k a => exact i4
    | clear k a => exact ⟨i4.1, hh i4.2⟩
    | xchg k a => exact ⟨i4.1, hh i4.2⟩
    | link k a p => exact i4
    | wait k a => exact i4
    | yield k a => exact i4
    | commit k a n todo => exact i4

/-- Every step keeps `Guard`, and a dequeue call that returns does not return
the stub. -/
theorem guard_step (strict : Bool) (b : Build) (q : Nat) (σ σ1 : Conc)
    (l : Option (Deq × Ptr)) (hs : CStep strict b q σ l σ1) (h : Guard q σ) :
    Guard q σ1 ∧ ∀ k x, l = some (k, some x) → x ≠ .stub q := by
  cases hs with
  | clear m s1 hm _ hcl =>
    simp only [add_clear, Res.ok.injEq] at hcl
    subst hcl
    refine ⟨guard_ctl q σ _ h ?_ ?_ h.2.2.1 (fun hh => by simpa using hh) rfl, by simp⟩
    · simpa [Ne.symm hm] using h.1
    · intro x hx
      rcases List.mem_append.mp hx with hx | hx
      · exact h.2.1 x hx
      · rw [List.mem_singleton.mp hx]; exact hm
  | xchg l1 l2 m p s1 hcl hx =>
    simp only [add_xchg, Prod.mk.injEq] at hx
    obtain ⟨rfl, -⟩ := hx
    have hm : m ≠ Addr.stub q := h.2.1 m (by rw [hcl]; simp)
    refine ⟨guard_ctl q σ _ h (by simpa using h.1) ?_ ?_ ?_ rfl, by simp⟩
    · intro x hx
      apply h.2.1 x
      rw [hcl]
      rcases List.mem_append.mp hx with hx | hx
      · exact List.mem_append_left _ hx
      · exact List.mem_append_right _ (List.mem_cons_of_mem _ hx)
    · intro e he
      rcases List.mem_append.mp he with he | he
      · exact h.2.2.1 e he
      · rw [List.mem_singleton.mp he]; exact hm
    · intro _
      simpa using fun e => hm e
  | link l1 l2 p m s1 hi hl =>
    simp only [add_store, Res.ok.injEq] at hl
    subst hl
    have hm : m ≠ Addr.stub q := h.2.2.1 (p, m) (by rw [hi]; simp)
    refine ⟨guard_ctl q σ _ h ?_ h.2.1 ?_ (fun hh => by simpa using hh) rfl, by simp⟩
    · simp only [setNext_pNext]
      split
      · exact fun e2 => hm (Option.some.inj e2)
      · exact h.1
    · intro e he
      apply h.2.2.1 e
      rw [hi]
      rcases List.mem_append.mp he with he | he
      · exact List.mem_append_left _ he
      · exact List.mem_append_right _ (List.mem_cons_of_mem _ he)
  | count l1 l2 m hcnt =>
    exact ⟨guard_ctl q σ _ h (by simpa using h.1) h.2.1 h.2.2.1
      (fun hh => by simpa using hh) rfl, by simp⟩
  | call k hc =>
    refine ⟨⟨h.1, h.2.1, h.2.2.1, ?_⟩, by simp⟩
    cases k <;> trivial
  | go c c1 s1 hc hstep =>
    exact ⟨(guard_consumer b q σ c s1 _ h hc hstep).1, by simp⟩
  | ret c s1 r hc hstep =>
    obtain ⟨g1, g2⟩ := guard_consumer b q σ c s1 _ h hc hstep
    refine ⟨g1, ?_⟩
    intro k x hx
    simp only [Option.some.injEq, Prod.mk.injEq] at hx
    exact g2 x (by rw [hx.2])

theorem guard_init (s0 : Mem) (q : Nat) : Guard q ⟨initMpscFifo s0 q, [], [], [], [], none⟩ := by
  refine ⟨by simp [initMpscFifo], by simp, by simp, trivial⟩

theorem reach_guard (strict : Bool) (b : Build) (q : Nat) (σ : Conc)
    (h : Reach strict b q σ) : Guard q σ := by
  induction h with
  | init s0 => exact guard_init s0 q
  | step σ σ1 l _ hs ih => exact (guard_step strict b q σ σ1 l hs ih).1

/-- C14: in every state reachable from `initMpscFifo` by interleaved atomic
steps of the consumer and of producers that enqueue non-sentinel messages
(every store, every exchange and every load of a location that another thread
writes, in `add` and in the dequeue functions, is a step of its own, so that
producers may stand anywhere inside `add`, in particular between the exchange
and the link store, also while the consumer is inside a dequeue call), whatever
a call of `rmv`, `rmv_non_stalling` or `rmv_no_dbg_on_empty` returns is `NULL`
or a message other than the queue's stub. -/
theorem sentinel_never_returned (b : Build) (q : Nat) (σ σ1 : Conc) (k : Deq) (r : Ptr)
    (hr : Reach false b q σ) (hs : CStep false b q σ (some (k, r)) σ1) :
    r = none ∨ ∃ m, r = some m ∧ m ≠ .stub q := by
  have hg := reach_guard false b q σ hr
  obtain ⟨-, h2⟩ := guard_step false b q σ σ1 _ hs hg
  cases r with
  | none => exact Or.inl rfl
  | some m => exact Or.inr ⟨m, rfl, h2 k m rfl⟩

/-- Witness of C14: after the four steps of `add(0, node 1)` and of
`add(0, node 2)` the consumer calls `rmv`, moves the tail past the stub, finds
`node 2` behind `node 1`, does its two stores and returns `node 1`. -/
theorem sentinel_never_returned_witness :
    ∃ σ σ1, Reach false Build.plain 0 σ ∧
      CStep false Build.plain 0 σ (some (.rmv, some (.node 1))) σ1 ∧
      ((some (Addr.node 1) : Ptr) = none ∨
        ∃ m, (some (Addr.node 1) : Ptr) = some m ∧ m ≠ Addr.stub 0) := by
  have r0 : Reach false Build.plain 0 _ := @Reach.init false Build.plain 0 Mem.zero
  have r1 : Reach false Build.plain 0 _ := Reach.step _ _ _ r0
    (CStep.clear _ (.node 1) _ (by decide) (fun h => by cases h) rfl)
  have r2 : Reach false Build.plain 0 _ := Reach.step _ _ _ r1
    (CStep.xchg _ [] [] (.node 1) (.stub 0) _ rfl rfl)
  have r3 : Reach false Build.plain 0 _ := Reach.step _ _ _ r2
    (CStep.link _ [] [] (.stub 0) (.node 1) _ rfl rfl)
  have r4 : Reach false Build.plain 0 _ := Reach.step _ _ _ r3
    (CStep.count _ [] [] (.node 1) rfl)
  have r5 : Reach false Build.plain 0 _ := Reach.step _ _ _ r4
    (CStep.clear _ (.node 2) _ (by decide) (fun h => by cases h) rfl)
  have r6 : Reach false Build.plain 0 _ := Reach.step _ _ _ r5
    (CStep.xchg _ [] [] (.node 2) (.node 1) _ rfl rfl)
  have r7 : Reach false Build.plain 0 _ := Reach.step _ _ _ r6
    (CStep.link _ [] [] (.node 1) (.node 2) _ rfl rfl)
  have r8 : Reach false Build.plain 0 _ := Reach.step _ _ _ r7
    (CStep.count _ [] [] (.node 2) rfl)
  have r9 : Reach false Build.plain 0 _ := Reach.step _ _ _ r8 (CStep.call _ .rmv rfl)
  have r10 : Reach false Build.plain 0 _ := Reach.step _ _ _ r9
    (CStep.go _ (.entry .rmv) (.skip .rmv (.node 1)) _ rfl rfl)
  have r11 : Reach false Build.plain 0 _ := Reach.step _ _ _ r10
    (CStep.go _ (.skip .rmv (.node 1)) (.second .rmv (.node 1)) _ rfl rfl)
  have r12 : Reach false Build.plain 0 _ := Reach.step _ _ _ r11
    (CStep.go _ (.second .rmv (.node 1))
      (.commit .rmv (.node 1) (.node 2) [.processed, .tail]) _ rfl rfl)
  have r13 : Reach false Build.plain 0 _ := Reach.step _ _ _ r12
    (CStep.go _ (.commit .rmv (.node 1) (.node 2) [.processed, .tail])
      (.commit .rmv (.node 1) (.node 2) [.tail]) _ rfl rfl)
  have r14 : Reach false Build.plain 0 _ := Reach.step _ _ _ r13
    (CStep.go _ (.commit .rmv (.node 1) (.node 2) [.tail])
      (.commit .rmv (.node 1) (.node 2) []) _ rfl rfl)
  have key : ∀ σ σ1, Reach false Build.plain 0 σ →
      CStep false Build.plain 0 σ (some (.rmv, some (.node 1))) σ1 →
      ∃ σ σ1, Reach false Build.plain 0 σ ∧
        CStep false Build.plain 0 σ (some (.rmv, some (.node 1))) σ1 ∧
        ((some (Addr.node 1) : Ptr) = none ∨
          ∃ m, (some (Addr.node 1) : Ptr) = some m ∧ m ≠ Addr.stub 0) :=
    fun σ σ1 h1 h2 => ⟨σ, σ1, h1, h2, sentinel_never_returned Build.plain 0 σ σ1 .rmv _ h1 h2⟩
  exact key _ _ r14 (CStep.ret _ (.commit .rmv (.node 1) (.node 2) []) _ (some (.node 1)) rfl rfl)

/-! ## The interleaved system: the chain invariant -/

/-- A chain depends on the producers in flight only as a set. -/
theorem chain_infl_congr (q : Nat) (s : Mem) (infl infl1 : List (Addr × Addr)) (t : Addr)
    (L : List Addr) (h : Chain q s infl t L) (hmem : ∀ e, e ∈ infl1 ↔ e ∈ infl)
    (hnd : (infl1.map Prod.fst).Nodup) : Chain q s infl1 t L := by
  obtain ⟨h1, h2, h3, h4, -, h6⟩ := h
  refine ⟨h1, h2, ?_, fun e he => h4 e ((hmem e).mp he), hnd, h6⟩
  exact linked_congr _ _ infl infl1 t L (fun _ _ => rfl) (fun a _ y => hmem (a, y)) h3

/-- A chain depends on the heap only through the tail, the head and the
`pNext` of its own nodes. -/
theorem chain_off (q : Nat) (s s1 : Mem) (infl : List (Addr × Addr)) (t : Addr)
    (L : List Addr) (h : Chain q s infl t L)
    (ht : (s1.fifos q).pTail = (s.fifos q).pTail)
    (hh : (s1.fifos q).pHead = (s.fifos q).pHead)
    (hn : ∀ a ∈ t :: L, (s1.msgs a).pNext = (s.msgs a).pNext) : Chain q s1 infl t L := by
  obtain ⟨h1, h2, h3, h4, h5, h6⟩ := h
  refine ⟨by rw [ht, h1], by rw [hh, h2], ?_, h4, h5, h6⟩
  exact linked_congr _ _ infl infl t L hn (fun _ _ _ => Iff.rfl) h3

/-- When the tail of a chain has a successor stored in `pNext`, it is the
next node of the chain and no producer is in flight behind the tail. -/
theorem chain_next_cons (q : Nat) (s : Mem) (infl : List (Addr × Addr)) (t n : Addr)
    (L : List Addr) (h : Chain q s infl t L) (hn : (s.msgs t).pNext = some n) :
    ∃ L1, L = n :: L1 ∧ ∀ z, (t, z) ∉ infl := by
  obtain ⟨-, -, h3, -, -, -⟩ := h
  cases L with
  | nil =>
    obtain ⟨e, -⟩ := h3
    beta_reduce at e
    rw [hn] at e
    exact Option.noConfusion e
  | cons y L =>
    rcases h3.1 with ⟨e, hf⟩ | ⟨e, -⟩
    · beta_reduce at e
      rw [hn] at e
      cases Option.some.inj e
      exact ⟨L, rfl, hf⟩
    · beta_reduce at e
      rw [hn] at e
      exact Option.noConfusion e

/-- Moving the tail to its successor keeps the rest of the chain. -/
theorem chain_drop (q : Nat) (s s1 : Mem) (infl : List (Addr × Addr)) (t n : Addr)
    (L : List Addr) (h : Chain q s infl t L) (hn : (s.msgs t).pNext = some n)
    (hm : s1.msgs = s.msgs) (hh : (s1.fifos q).pHead = (s.fifos q).pHead)
    (ht : (s1.fifos q).pTail = some n) :
    ∃ L1, L = n :: L1 ∧ Chain q s1 infl n L1 := by
  obtain ⟨L1, rfl, hfree⟩ := chain_next_cons q s infl t n L h hn
  obtain ⟨h1, h2, h3, h4, h5, h6⟩ := h
  refine ⟨L1, rfl, ht, by rw [hh, h2]; rfl, ?_, ?_, h5, (List.nodup_cons.mp h6).2⟩
  · simp only [hm]; exact h3.2
  · intro e he
    rcases List.mem_cons.mp (h4 e he) with h | h
    · exact absurd (by rw [← h]; exact he) (hfree e.2)
    · exact h

/-- The exchange of `add` alone on a chain, for a message off the chain whose
`pNext` is `NULL`. -/
theorem chain_xchg (q : Nat) (s : Mem) (infl : List (Addr × Addr)) (t : Addr)
    (L : List Addr) (m : Addr) (h : Chain q s infl t L) (hm : m ∉ t :: L)
    (hn : (s.msgs m).pNext = none) :
    (s.fifos q).pHead = some (lastOf t L) ∧
      Chain q (s.setHead q (some m)) (infl ++ [(lastOf t L, m)]) t (L ++ [m]) := by
  obtain ⟨-, hc⟩ := chain_swap q s _ infl t L m _ h hm rfl
  refine ⟨h.2.1, chain_of_proj q _ _ _ t _ hc (by simp) (by simp) ?_⟩
  intro a
  simp only [setHead_msgs, setNext_pNext]
  split
  · rename_i e
    rw [e, hn]
  · rfl

/-- The link store of `add` alone on a chain. -/
theorem chain_store (q : Nat) (s : Mem) (l1 l2 : List (Addr × Addr)) (t : Addr)
    (L : List Addr) (p m : Addr) (h : Chain q s (l1 ++ (p, m) :: l2) t L) :
    Chain q (s.setNext p (some m)) (l1 ++ l2) t L := by
  have hc := chain_link Build.plain q s _ l1 l2 t L p m h rfl
  refine chain_of_proj q _ _ _ t L hc ?_ ?_ ?_
  · split <;> simp
  · split <;> simp
  · intro a
    split <;> simp

theorem filter_append_msg (q : Nat) (L : List Addr) (m : Addr) (hm : m ≠ .stub q) :
    (L ++ [m]).filter (fun a => decide (a ≠ Addr.stub q)) =
      L.filter (fun a => decide (a ≠ Addr.stub q)) ++ [m] := by
  rw [List.filter_append, filter_cons_msg q m [] hm]
  rfl

theorem filter_append_stub (q : Nat) (L : List Addr) :
    (L ++ [Addr.stub q]).filter (fun a => decide (a ≠ Addr.stub q)) =
      L.filter (fun a => decide (a ≠ Addr.stub q)) := by
  rw [List.filter_append, filter_cons_stub]
  simp

theorem mem_filter_msg (q : Nat) (L : List Addr) (m : Addr) (hm : m ≠ .stub q) (h : m ∈ L) :
    m ∈ L.filter (fun a => decide (a ≠ Addr.stub q)) := by
  rw [List.mem_filter]
  exact ⟨h, by simpa using hm⟩

theorem chain_tail_eq (q : Nat) (s : Mem) (infl : List (Addr × Addr)) (t a : Addr)
    (L : List Addr) (hc : Chain q s infl t L) (ht : (s.fifos q).pTail = some a) : t = a := by
  have := hc.1
  rw [ht] at this
  exact (Option.some.inj this).symm

theorem not_mem_append_msg (t : Addr) (L : List Addr) (m x : Addr)
    (hx : x ∉ t :: L) (hxm : x ≠ m) : x ∉ t :: (L ++ [m]) := by
  intro hmem
  rw [← List.cons_append] at hmem
  rcases List.mem_append.mp hmem with hmem | hmem
  · exact hx hmem
  · exact hxm (List.mem_singleton.mp hmem)

/-- The consumer's facts survive the growth of the chain at the head. -/
theorem ctlOK_append (q : Nat) (s : Mem) (c : Option Ctl) (t : Addr) (L : List Addr)
    (m : Addr) (hm : m ≠ .stub q) (h : CtlOK q s c t L) : CtlOK q s c t (L ++ [m]) := by
  cases c with
  | none => trivial
  | some c =>
    cases c with
    | check => trivial
    | entry k => trivial
    | skip k n => exact h
    | second k a => exact h
    | readHead k a => exact h
    | clear k a =>
      exact ⟨h.1, h.2.1, not_mem_append_msg t L m _ h.2.2 (Ne.symm hm)⟩
    | xchg k a =>
      exact ⟨h.1, h.2.1, not_mem_append_msg t L m _ h.2.2.1 (Ne.symm hm), h.2.2.2⟩
    | link k a p => exact h
    | wait k a => exact h
    | yield k a => exact h
    | commit k a n todo => exact h

/-- The consumer's facts survive a change of the heap that keeps a successor
stored in the tail and a `NULL` stored in a stub off the chain. -/
theorem ctlOK_heap (q : Nat) (s s1 : Mem) (c : Option Ctl) (t : Addr) (L : List Addr)
    (hsome : ∀ n, (s.msgs t).pNext = some n → (s1.msgs t).pNext = some n)
    (hnone : Addr.stub q ∉ t :: L → (s.msgs (.stub q)).pNext = none →
      (s1.msgs (.stub q)).pNext = none)
    (h : CtlOK q s c t L) : CtlOK q s1 c t L := by
  cases c with
  | none => trivial
  | some c =>
    cases c with
    | check => trivial
    | entry k => trivial
    | skip k n =>
      obtain ⟨h1, h2⟩ := h
      subst h1
      exact ⟨rfl, hsome n h2⟩
    | second k a => exact h
    | readHead k a => exact h
    | clear k a => exact h
    | xchg k a => exact ⟨h.1, h.2.1, h.2.2.1, hnone h.2.2.1 h.2.2.2⟩
    | link k a p => exact h
    | wait k a => exact h
    | yield k a => exact h
    | commit k a n todo =>
      refine ⟨h.1, h.2.1, fun hm => ?_⟩
      obtain ⟨h1, h2⟩ := h.2.2 hm
      subst h1
      exact ⟨rfl, hsome n h2⟩

/-- A step that keeps the tail, the head and every `pNext` keeps the
invariant. -/
theorem cinv_frame (q : Nat) (σ : Conc) (s1 : Mem) (cnt : List Addr) (h : CInv q σ)
    (ht : (s1.fifos q).pTail = (σ.mem.fifos q).pTail)
    (hh : (s1.fifos q).pHead = (σ.mem.fifos q).pHead)
    (hn : ∀ a, (s1.msgs a).pNext = (σ.mem.msgs a).pNext) :
    CInv q ⟨s1, σ.cleared, σ.inflight, cnt, σ.queued, σ.consumer⟩ := by
  obtain ⟨t, L, h1, h2, h3, h4, h5⟩ := h
  refine ⟨t, L, chain_of_proj q _ s1 _ t L h1 ht hh hn, h2, ?_, ?_, h5⟩
  · exact ctlOK_heap q σ.mem s1 _ t L (fun n e => by rw [hn]; exact e)
      (fun _ e => by rw [hn]; exact e) h3
  · intro m hm
    obtain ⟨a1, a2, a3⟩ := h4 m hm
    exact ⟨a1, a2, by dsimp only; rw [hn]; exact a3⟩

/-- A producer's store of `NULL` into its message keeps the invariant. -/
theorem cinv_clear (q : Nat) (σ : Conc) (m : Addr) (h : CInv q σ) (hm : m ≠ .stub q)
    (hmQ : m ∉ σ.queued) (hmC : m ∉ σ.cleared) :
    CInv q ⟨σ.mem.setNext m none, σ.cleared ++ [m], σ.inflight, σ.counting, σ.queued,
      σ.consumer⟩ := by
  obtain ⟨t, L, h1, h2, h3, h4, h5⟩ := h
  have hmem : m ∉ t :: L := fun hmem => hmQ (by
    rw [← h2]
    exact List.mem_append_right _ (mem_filter_msg q _ m hm hmem))
  have hkeep : ∀ a, a ≠ m → ((σ.mem.setNext m none).msgs a).pNext = (σ.mem.msgs a).pNext := by
    intro a ha
    simp [ha]
  refine ⟨t, L, ?_, h2, ?_, ?_, ?_⟩
  · exact chain_off q _ _ _ t L h1 (by simp) (by simp)
      (fun a ha => hkeep a (fun e => hmem (e ▸ ha)))
  · refine ctlOK_heap q σ.mem _ _ t L ?_ ?_ h3
    · intro n e
      rw [hkeep t (fun e1 => hmem (e1 ▸ List.mem_cons_self _ _))]
      exact e
    · intro _ e
      rw [hkeep _ (Ne.symm hm)]
      exact e
  · intro x hx
    dsimp only at hx ⊢
    rcases List.mem_append.mp hx with hx | hx
    · obtain ⟨a1, a2, a3⟩ := h4 x hx
      refine ⟨a1, a2, ?_⟩
      by_cases e : x = m
      · simp [e]
      · rw [hkeep x e]; exact a3
    · rw [List.mem_singleton.mp hx]
      exact ⟨hm, hmem, by simp⟩
  · dsimp only
    rw [List.nodup_append]
    refine ⟨h5, List.nodup_singleton m, ?_⟩
    intro x hx hx1
    rw [List.mem_singleton.mp hx1] at hx
    exact hmC hx

/-- A producer's exchange keeps the invariant. -/
theorem cinv_xchg (q : Nat) (σ : Conc) (l1 l2 : List Addr) (m p : Addr) (h : CInv q σ)
    (hcl : σ.cleared = l1 ++ m :: l2) (hp : (σ.mem.fifos q).pHead = some p) :
    CInv q ⟨σ.mem.setHead q (some m), l1 ++ l2, σ.inflight ++ [(p, m)], σ.counting,
      σ.queued ++ [m], σ.consumer⟩ := by
  obtain ⟨t, L, h1, h2, h3, h4, h5⟩ := h
  obtain ⟨hm, hmem, hnone⟩ := h4 m (by rw [hcl]; simp)
  obtain ⟨hhead, hc⟩ := chain_xchg q σ.mem _ t L m h1 hmem hnone
  have hpe : p = lastOf t L := by
    rw [hp] at hhead
    exact Option.some.inj hhead
  subst hpe
  rw [hcl] at h5
  have hmid := List.nodup_cons.mp (List.nodup_middle.mp h5)
  refine ⟨t, L ++ [m], ?_, ?_, ?_, ?_, hmid.2⟩
  · rw [List.append_assoc] at hc
    exact hc
  · dsimp only
    rw [← List.cons_append, filter_append_msg q _ m hm, ← List.append_assoc, h2]
  · exact ctlOK_append q _ _ t L m hm
      (ctlOK_heap q σ.mem _ _ t L (fun n e => e) (fun _ e => e) h3)
  · intro x hx
    have hx1 : x ∈ σ.cleared := by
      rw [hcl]
      rcases List.mem_append.mp hx with hx | hx
      · exact List.mem_append_left _ hx
      · exact List.mem_append_right _ (List.mem_cons_of_mem _ hx)
    obtain ⟨a1, a2, a3⟩ := h4 x hx1
    exact ⟨a1, not_mem_append_msg t L m x a2 (fun e => hmid.1 (e ▸ hx)), a3⟩

/-- A producer's link store keeps the invariant. -/
theorem cinv_store (q : Nat) (σ : Conc) (l1 l2 : List (Addr × Addr)) (p m : Addr)
    (h : CInv q σ) (hi : σ.inflight = l1 ++ (p, m) :: l2) :
    CInv q ⟨σ.mem.setNext p (some m), σ.cleared, l1 ++ l2, σ.counting ++ [m], σ.queued,
      σ.consumer⟩ := by
  obtain ⟨t, L, h1, h2, h3, h4, h5⟩ := h
  have hin : (p, m) ∈ Ctl.pending q σ.consumer ++ σ.inflight := by
    rw [hi]
    simp
  have hpc : p ∈ t :: L := h1.2.2.2.1 (p, m) hin
  have hkeep : ∀ a, a ≠ p →
      ((σ.mem.setNext p (some m)).msgs a).pNext = (σ.mem.msgs a).pNext := by
    intro a ha
    simp [ha]
  rw [hi, ← List.append_assoc] at h1
  have hc := chain_store q σ.mem _ l2 t L p m h1
  rw [List.append_assoc] at hc
  rw [List.append_assoc, ← hi] at h1
  refine ⟨t, L, hc, h2, ?_, ?_, h5⟩
  · refine ctlOK_heap q σ.mem _ _ t L ?_ ?_ h3
    · intro n e
      obtain ⟨-, -, hfree⟩ := chain_next_cons q σ.mem _ t n L h1 e
      rw [hkeep t (fun e1 => hfree m (e1 ▸ hin))]
      exact e
    · intro hs e
      rw [hkeep (Addr.stub q) (fun e1 => hs (e1 ▸ hpc))]
      exact e
  · intro x hx
    obtain ⟨a1, a2, a3⟩ := h4 x hx
    exact ⟨a1, a2, by dsimp only; rw [hkeep x (fun e => a2 (e ▸ hpc))]; exact a3⟩

/-- A step of the consumer keeps the invariant. -/
theorem cinv_consumer (b : Build) (q : Nat) (σ : Conc) (c : Ctl) (s1 : Mem) (nx : Next)
    (h : CInv q σ) (hc : σ.consumer = some c)
    (hstep : consumer_step b q σ.mem c = .ok (s1, nx)) : CInv q (σ.resume s1 nx) := by
  obtain ⟨t, L, h1, h2, h3, h4, h5⟩ := h
  rw [hc] at h1 h2 h3
  have hcommit : ∀ k n, t ≠ Addr.stub q → (σ.mem.msgs t).pNext = some n →
      Ctl.pending q (some c) = [] → Ctl.held (some c) = [] →
      CInv q (σ.resume σ.mem (.go (.commit k t n (commits b k)))) := by
    intro k n hts hn hp hh
    rw [hp] at h1
    rw [hh] at h2
    refine ⟨t, L, h1, ?_, ⟨hts, commits_nodup b k, fun _ => ⟨rfl, hn⟩⟩, h4, h5⟩
    simp only [Conc.resume, Ctl.held, if_pos (tail_mem_commits b k)]
    exact h2
  have hsame : ∀ nx1 : Next, Ctl.pending q (some c) = [] → Ctl.held (some c) = [] →
      (match nx1 with
        | .ret r => r = none
        | .go c1 => Ctl.pending q (some c1) = [] ∧ Ctl.held (some c1) = [] ∧
          CtlOK q σ.mem (some c1) t L) →
      CInv q (σ.resume σ.mem nx1) := by
    intro nx1 hp hh hnx
    rw [hp] at h1
    rw [hh] at h2
    cases nx1 with
    | ret r =>
      dsimp only at hnx
      subst hnx
      exact ⟨t, L, h1, h2, trivial, h4, h5⟩
    | go c1 =>
      obtain ⟨e1, e2, e3⟩ := hnx
      refine ⟨t, L, ?_, ?_, e3, h4, h5⟩
      · simp only [Conc.resume, e1]
        exact h1
      · simp only [Conc.resume, e2]
        exact h2
  cases c with
  | check =>
    obtain ⟨rfl, a, -, ⟨-, -, rfl⟩ | rfl⟩ := step_check b q _ _ _ hstep
    · exact hsame _ rfl rfl rfl
    · exact hsame _ rfl rfl ⟨rfl, rfl, trivial⟩
  | entry k =>
    obtain ⟨rfl, a, hta, hcases⟩ := step_entry b q _ _ _ _ hstep
    have hte := chain_tail_eq q σ.mem _ t a L h1 hta
    subst hte
    rcases hcases with ⟨-, -, rfl⟩ | ⟨hts, n, hn, rfl⟩ | ⟨hts, -, rfl⟩ | ⟨hts, n, hn, rfl⟩
    · exact hsame _ rfl rfl rfl
    · exact hsame _ rfl rfl ⟨rfl, rfl, hts, hn⟩
    · exact hsame _ rfl rfl ⟨rfl, rfl, rfl, hts⟩
    · exact hcommit k n hts hn rfl rfl
  | skip k n =>
    obtain ⟨rfl, rfl⟩ := step_skip b q _ _ _ _ _ hstep
    obtain ⟨hts, hn⟩ := h3
    subst hts
    simp only [Ctl.pending, List.nil_append] at h1
    simp only [Ctl.held, List.nil_append] at h2
    obtain ⟨L1, rfl, -⟩ := chain_next_cons q σ.mem _ _ n L h1 hn
    have hns : n ≠ Addr.stub q := by
      intro e
      have := (List.nodup_cons.mp h1.2.2.2.2.2).1
      exact this (by simp [e])
    have hc1 := chain_advance q σ.mem _ n L1 h1 hn
    refine ⟨n, L1, hc1, ?_, ⟨rfl, hns⟩, ?_, h5⟩
    · simp only [Conc.resume, Ctl.held, List.nil_append]
      rw [← h2, filter_cons_stub]
    · intro m hm
      obtain ⟨a1, a2, a3⟩ := h4 m hm
      exact ⟨a1, fun hmem => a2 (List.mem_cons_of_mem _ hmem), a3⟩
  | second k a =>
    obtain ⟨rfl, hts⟩ := h3
    obtain ⟨rfl, ⟨-, rfl⟩ | ⟨n, hn, rfl⟩⟩ := step_second b q _ _ _ _ _ hstep
    · exact hsame _ rfl rfl ⟨rfl, rfl, rfl, hts⟩
    · exact hcommit k n hts hn rfl rfl
  | readHead k a =>
    obtain ⟨rfl, hts⟩ := h3
    obtain ⟨rfl, ⟨hh, rfl⟩ | ⟨-, rfl⟩ | ⟨-, rfl⟩⟩ := step_readHead b q _ _ _ _ _ hstep
    · have hL : L = [] := by
        apply lastOf_eq_head t L h1.2.2.2.2.2
        have := h1.2.1
        rw [hh] at this
        exact (Option.some.inj this).symm
      subst hL
      refine hsame _ rfl rfl ⟨rfl, rfl, rfl, hts, ?_⟩
      simp only [List.mem_singleton]
      exact fun e => hts e.symm
    · exact hsame _ rfl rfl rfl
    · exact hsame _ rfl rfl ⟨rfl, rfl, rfl, hts⟩
  | clear k a =>
    obtain ⟨rfl, hts, hstub⟩ := h3
    obtain ⟨rfl, rfl⟩ := step_clear b q _ _ _ _ _ hstep
    simp only [Ctl.pending, List.nil_append] at h1
    simp only [Ctl.held, List.nil_append] at h2
    have hkeep : ∀ x, x ≠ Addr.stub q →
        ((σ.mem.setNext (Addr.stub q) none).msgs x).pNext = (σ.mem.msgs x).pNext := by
      intro x hx
      simp [hx]
    refine ⟨t, L, ?_, h2, ⟨rfl, hts, hstub, by simp [Conc.resume]⟩, ?_, h5⟩
    · exact chain_off q σ.mem (σ.mem.setNext (Addr.stub q) none) _ t L h1 (by simp) (by simp)
        (fun x hx => hkeep x (fun e => hstub (e ▸ hx)))
    · intro m hm
      obtain ⟨a1, a2, a3⟩ := h4 m hm
      exact ⟨a1, a2, by dsimp only [Conc.resume]; rw [hkeep m a1]; exact a3⟩
  | xchg k a =>
    obtain ⟨rfl, hts, hstub, hnone⟩ := h3
    obtain ⟨rfl, rfl⟩ := step_xchg b q _ _ _ _ _ hstep
    simp only [Ctl.pending, List.nil_append] at h1
    simp only [Ctl.held, List.nil_append] at h2
    obtain ⟨hhead, hc1⟩ := chain_xchg q σ.mem _ t L (.stub q) h1 hstub hnone
    have hfree := (linked_last_free _ _ t L h1.2.2.1).2
    rw [hhead]
    refine ⟨t, L ++ [.stub q], ?_, ?_, ⟨rfl, hts, by simp⟩, ?_, h5⟩
    · refine chain_infl_congr q _ _ _ t _ hc1 ?_ ?_
      · intro e
        simp only [Conc.resume, Ctl.pending, List.mem_append, List.mem_singleton,
          List.mem_cons, List.not_mem_nil, or_false]
        exact or_comm
      · simp only [Conc.resume, Ctl.pending, List.singleton_append, List.map_cons,
          List.nodup_cons]
        refine ⟨?_, h1.2.2.2.2.1⟩
        intro hmem
        obtain ⟨e, he, hfst⟩ := List.mem_map.mp hmem
        apply hfree e.2
        rw [← hfst]
        exact he
    · simp only [Conc.resume, Ctl.held, List.nil_append]
      rw [← List.cons_append, filter_append_stub, h2]
    · intro m hm
      obtain ⟨a1, a2, a3⟩ := h4 m hm
      exact ⟨a1, not_mem_append_msg t L _ m a2 a1, a3⟩
  | link k a p =>
    obtain ⟨rfl, hts, hp⟩ := h3
    obtain ⟨p1, rfl, rfl, rfl⟩ := step_link b q _ _ _ _ _ _ hstep
    simp only [Ctl.pending, List.singleton_append] at h1
    simp only [Ctl.held, List.nil_append] at h2
    have hpc : p1 ∈ t :: L := h1.2.2.2.1 (p1, .stub q) (by simp)
    have hc1 := chain_store q σ.mem [] _ t L p1 (.stub q) h1
    refine ⟨t, L, hc1, h2, ⟨rfl, hts⟩, ?_, h5⟩
    intro m hm
    obtain ⟨a1, a2, a3⟩ := h4 m hm
    refine ⟨a1, a2, ?_⟩
    have hne : m ≠ p1 := fun e => a2 (e ▸ hpc)
    simp only [Conc.resume, setNext_pNext, hne, if_false]
    exact a3
  | wait k a =>
    obtain ⟨rfl, hts⟩ := h3
    obtain ⟨rfl, ⟨n, hn, rfl⟩ | ⟨-, -, rfl⟩ | ⟨-, -, rfl⟩⟩ := step_wait b q _ _ _ _ _ hstep
    · exact hcommit k n hts hn rfl rfl
    · exact hsame _ rfl rfl rfl
    · exact hsame _ rfl rfl ⟨rfl, rfl, rfl, hts⟩
  | yield k a =>
    obtain ⟨rfl, hts⟩ := h3
    obtain ⟨rfl, rfl⟩ := step_yield b q _ _ _ _ _ hstep
    simp only [Ctl.pending, List.nil_append] at h1
    simp only [Ctl.held, List.nil_append] at h2
    exact ⟨t, L, chain_of_proj q _ _ _ t L h1 rfl rfl (fun _ => rfl), h2, ⟨rfl, hts⟩, h4, h5⟩
  | commit k a n todo =>
    obtain ⟨hts, hnd, htail⟩ := h3
    simp only [Ctl.pending, List.nil_append] at h1
    cases todo with
    | nil =>
      obtain ⟨rfl, rfl⟩ := step_commit_nil b q _ _ _ _ _ _ hstep
      refine ⟨t, L, h1, ?_, trivial, h4, h5⟩
      simp only [Ctl.held, List.not_mem_nil, if_false] at h2
      simp only [Conc.resume, Conc.after, Ctl.held, List.nil_append]
      rw [← h2]
      simp
    | cons o todo =>
      obtain ⟨rfl, rfl⟩ := step_commit_cons b q _ _ _ _ _ _ _ _ hstep
      obtain ⟨ho, hnd1⟩ := List.nodup_cons.mp hnd
      by_cases hot : o = Commit.tail
      · subst hot
        obtain ⟨rfl, hn⟩ := htail (List.mem_cons_self _ _)
        simp only [Ctl.held, List.mem_cons, true_or, if_true, List.nil_append] at h2
        obtain ⟨L1, rfl, hc1⟩ := chain_drop q σ.mem (Commit.tail.exec b q n σ.mem) _ t n L h1 hn
          (by simp) (by simp) (by simp [Commit.exec])
        refine ⟨n, L1, hc1, ?_, ⟨hts, hnd1, fun hm => absurd hm ho⟩, ?_, h5⟩
        · simp only [Conc.resume, Ctl.held, ho, if_false]
          rw [← h2, filter_cons_msg q t _ hts]
          rfl
        · intro m hm
          obtain ⟨a1, a2, a3⟩ := h4 m hm
          exact ⟨a1, fun hmem => a2 (List.mem_cons_of_mem _ hmem),
            by simpa [Conc.resume] using a3⟩
      · have hiff : Commit.tail ∈ o :: todo ↔ Commit.tail ∈ todo := by
          simp only [List.mem_cons]
          exact ⟨fun e => e.resolve_left (fun e1 => hot e1.symm), Or.inr⟩
        refine ⟨t, L, ?_, ?_, ⟨hts, hnd1, ?_⟩, ?_, h5⟩
        · exact chain_of_proj q σ.mem (o.exec b q n σ.mem) _ t L h1
            (commit_exec_pTail b q n _ o hot) (by simp) (fun _ => by simp)
        · simp only [Conc.resume, Ctl.held]
          simp only [Ctl.held] at h2
          by_cases hm : Commit.tail ∈ todo
          · rw [if_pos hm]
            rw [if_pos (hiff.mpr hm)] at h2
            exact h2
          · rw [if_neg hm]
            rw [if_neg (fun e => hm (hiff.mp e))] at h2
            exact h2
        · intro hm
          obtain ⟨e1, e2⟩ := htail (hiff.mpr hm)
          exact ⟨e1, by simpa [Conc.resume] using e2⟩
        · intro m hm
          obtain ⟨a1, a2, a3⟩ := h4 m hm
          exact ⟨a1, a2, by simpa [Conc.resume] using a3⟩

theorem cinv_init (s0 : Mem) (q : Nat) : CInv q ⟨initMpscFifo s0 q, [], [], [], [], none⟩ :=
  ⟨.stub q, [], by simpa [Ctl.pending] using chain_init s0 q, by simp [Ctl.held], trivial,
    by simp, by simp⟩

/-- Every step of the interleaved system with producers that enqueue messages
neither queued nor in the hands of another producer keeps the invariant. -/
theorem cinv_step (b : Build) (q : Nat) (σ σ1 : Conc) (l : Option (Deq × Ptr))
    (hs : CStep true b q σ l σ1) (h : CInv q σ) : CInv q σ1 := by
  cases hs with
  | clear m s1 hm hmQ hcl =>
    simp only [add_clear, Res.ok.injEq] at hcl
    subst hcl
    exact cinv_clear q σ m h hm (hmQ rfl).1 (hmQ rfl).2
  | xchg l1 l2 m p s1 hcl hx =>
    simp only [add_xchg, Prod.mk.injEq] at hx
    obtain ⟨rfl, hp⟩ := hx
    exact cinv_xchg q σ l1 l2 m p h hcl hp
  | link l1 l2 p m s1 hi hl =>
    simp only [add_store, Res.ok.injEq] at hl
    subst hl
    exact cinv_store q σ l1 l2 p m h hi
  | count l1 l2 m hcnt => exact cinv_frame q σ _ _ h (by simp) (by simp) (fun _ => by simp)
  | call k hcons =>
    obtain ⟨t, L, h1, h2, -, h4, h5⟩ := h
    rw [hcons] at h1 h2
    refine ⟨t, L, ?_, ?_, ?_, h4, h5⟩
    · cases k <;> simpa [Ctl.pending, Ctl.start] using h1
    · cases k <;> simpa [Ctl.held, Ctl.start] using h2
    · cases k <;> exact trivial
  | go c c1 s1 hcons hstep => exact cinv_consumer b q σ c s1 _ h hcons hstep
  | ret c s1 r hcons hstep => exact cinv_consumer b q σ c s1 _ h hcons hstep

theorem reach_cinv (b : Build) (q : Nat) (σ : Conc) (h : Reach true b q σ) : CInv q σ := by
  induction h with
  | init s0 => exact cinv_init s0 q
  | step σ σ1 l _ hs ih => exact cinv_step b q σ σ1 l hs ih

/-! ## C2: when the blocking dequeue returns `NULL` -/

/-- A consumer step of `rmv` (also when called from `rmv_no_dbg_on_empty`)
that returns `NULL`: the heap is unchanged, the tail is the sentinel and the
sentinel's `pNext` is `NULL`; the step is the emptiness check at the entry. -/
theorem null_return_step (b : Build) (q : Nat) (s s1 : Mem) (c : Ctl)
    (hstep : consumer_step b q s c = .ok (s1, .ret none))
    (hk : c.kind ≠ .rmv_non_stalling) :
    s1 = s ∧ (s.fifos q).pTail = some (.stub q) ∧ (s.msgs (.stub q)).pNext = none ∧
      Ctl.pending q (some c) = [] ∧ Ctl.held (some c) = [] := by
  cases c with
  | check =>
    obtain ⟨rfl, t, ht, ⟨hn, rfl, -⟩ | e⟩ := step_check b q _ _ _ hstep
    · exact ⟨rfl, ht, hn, rfl, rfl⟩
    · cases e
  | entry k =>
    obtain ⟨rfl, t, ht, ⟨rfl, hn, -⟩ | ⟨-, n, -, e⟩ | ⟨-, -, e⟩ | ⟨-, n, -, e⟩⟩ :=
      step_entry b q _ _ _ _ hstep
    · exact ⟨rfl, ht, hn, rfl, rfl⟩
    · cases e
    · cases e
    · cases e
  | skip k n => cases (step_skip b q _ _ _ _ _ hstep).2
  | second k a =>
    obtain ⟨-, ⟨-, e⟩ | ⟨n, -, e⟩⟩ := step_second b q _ _ _ _ _ hstep
    · cases e
    · cases e
  | readHead k a =>
    obtain ⟨-, ⟨-, e⟩ | ⟨e, -⟩ | ⟨-, e⟩⟩ := step_readHead b q _ _ _ _ _ hstep
    · cases e
    · exact absurd e hk
    · cases e
  | clear k a => cases (step_clear b q _ _ _ _ _ hstep).2
  | xchg k a => cases (step_xchg b q _ _ _ _ _ hstep).2
  | link k a p =>
    obtain ⟨p1, -, -, e⟩ := step_link b q _ _ _ _ _ _ hstep
    cases e
  | wait k a =>
    obtain ⟨-, ⟨n, -, e⟩ | ⟨-, e, -⟩ | ⟨-, -, e⟩⟩ := step_wait b q _ _ _ _ _ hstep
    · cases e
    · exact absurd e hk
    · cases e
  | yield k a => cases (step_yield b q _ _ _ _ _ hstep).2
  | commit k a n todo =>
    cases todo with
    | nil => cases (step_commit_nil b q _ _ _ _ _ _ hstep).2
    | cons o todo => cases (step_commit_cons b q _ _ _ _ _ _ _ _ hstep).2

/-- Under the invariant, a tail at the sentinel whose `pNext` is `NULL` means
that nothing is queued and the head is the sentinel, or a producer is between
its exchange on the sentinel and its link store. -/
theorem cinv_null_tail (q : Nat) (σ : Conc) (h : CInv q σ)
    (hp : Ctl.pending q σ.consumer = []) (hh : Ctl.held σ.consumer = [])
    (ht : (σ.mem.fifos q).pTail = some (.stub q))
    (hn : (σ.mem.msgs (.stub q)).pNext = none) :
    (σ.queued = [] ∧ (σ.mem.fifos q).pHead = some (.stub q)) ∨
      ∃ y, (Addr.stub q, y) ∈ σ.inflight ∧ y ∈ σ.queued := by
  obtain ⟨t, L, hc, hf, -, -, -⟩ := h
  rw [hp, List.nil_append] at hc
  rw [hh, List.nil_append] at hf
  have hts := chain_tail_eq q σ.mem _ t _ L hc ht
  subst hts
  cases L with
  | nil =>
    left
    refine ⟨?_, by simpa [lastOf] using hc.2.1⟩
    rw [← hf, filter_cons_stub]
    rfl
  | cons y L =>
    right
    rcases hc.2.2.1.1 with ⟨hy, -⟩ | ⟨-, hmem⟩
    · beta_reduce at hy
      rw [hn] at hy
      cases hy
    · refine ⟨y, hmem, ?_⟩
      rw [← hf]
      apply mem_filter_msg q _ y ?_ (by simp)
      intro e
      have := (List.nodup_cons.mp hc.2.2.2.2.2).1
      exact this (by simp [e])

/-- C2 (amended): in every state reachable from `initMpscFifo` by interleaved
atomic steps of the consumer and of producers that enqueue non-sentinel
messages neither queued nor in the hands of another producer (every store,
every exchange and every load of a location that another thread writes, in
`add` and in the dequeue functions, is a step of its own), when a call of
`rmv`, directly or from `rmv_no_dbg_on_empty`, returns `NULL`,
then at that step the heap is not written, the tail is the sentinel and the
sentinel's `pNext` is `NULL`, so no message is linked behind the tail; and
either nothing is queued and the head is the sentinel, or a producer is
between its exchange on the sentinel and its link store and its message is
queued. With no producer between its exchange and its link store nothing is
queued and the head is the sentinel. -/
theorem rmv_null_only_when_unlinked (b : Build) (q : Nat) (σ σ1 : Conc) (k : Deq)
    (hr : Reach true b q σ) (hs : CStep true b q σ (some (k, none)) σ1)
    (hk : k ≠ .rmv_non_stalling) :
    σ1.mem = σ.mem ∧ (σ.mem.fifos q).pTail = some (.stub q) ∧
      (σ.mem.msgs (.stub q)).pNext = none ∧
      ((σ.queued = [] ∧ (σ.mem.fifos q).pHead = some (.stub q)) ∨
        ∃ y, (Addr.stub q, y) ∈ σ.inflight ∧ y ∈ σ.queued) ∧
      (σ.inflight = [] → σ.queued = [] ∧ (σ.mem.fifos q).pHead = some (.stub q)) := by
  have hinv := reach_cinv b q σ hr
  cases hs with
  | ret c s1 r hcons hstep =>
    obtain ⟨h1, h2, h3, h4, h5⟩ := null_return_step b q σ.mem s1 c hstep hk
    have h6 := cinv_null_tail q σ hinv (by rw [hcons]; exact h4) (by rw [hcons]; exact h5) h2 h3
    refine ⟨h1, h2, h3, h6, fun hi => ?_⟩
    rcases h6 with h6 | ⟨y, hy, -⟩
    · exact h6
    · rw [hi] at hy
      cases hy

/-- Witness of C2 (amended): on the freshly initialised queue 0 the consumer
calls `rmv` and its first step returns `NULL`. -/
theorem rmv_null_only_when_unlinked_witness :
    ∃ σ σ1, Reach true Build.plain 0 σ ∧ CStep true Build.plain 0 σ (some (.rmv, none)) σ1 ∧
      Deq.rmv ≠ Deq.rmv_non_stalling ∧
      σ1.mem = σ.mem ∧ (σ.mem.fifos 0).pTail = some (.stub 0) ∧
      (σ.mem.msgs (.stub 0)).pNext = none ∧
      ((σ.queued = [] ∧ (σ.mem.fifos 0).pHead = some (.stub 0)) ∨
        ∃ y, (Addr.stub 0, y) ∈ σ.inflight ∧ y ∈ σ.queued) ∧
      (σ.inflight = [] → σ.queued = [] ∧ (σ.mem.fifos 0).pHead = some (.stub 0)) := by
  have r0 : Reach true Build.plain 0 _ := @Reach.init true Build.plain 0 Mem.zero
  have r1 : Reach true Build.plain 0 _ := Reach.step _ _ _ r0 (CStep.call _ .rmv rfl)
  have key : ∀ σ σ1, Reach true Build.plain 0 σ →
      CStep true Build.plain 0 σ (some (.rmv, none)) σ1 →
      ∃ σ σ1, Reach true Build.plain 0 σ ∧
        CStep true Build.plain 0 σ (some (.rmv, none)) σ1 ∧
        Deq.rmv ≠ Deq.rmv_non_stalling ∧
        σ1.mem = σ.mem ∧ (σ.mem.fifos 0).pTail = some (.stub 0) ∧
        (σ.mem.msgs (.stub 0)).pNext = none ∧
        ((σ.queued = [] ∧ (σ.mem.fifos 0).pHead = some (.stub 0)) ∨
          ∃ y, (Addr.stub 0, y) ∈ σ.inflight ∧ y ∈ σ.queued) ∧
        (σ.inflight = [] → σ.queued = [] ∧ (σ.mem.fifos 0).pHead = some (.stub 0)) :=
    fun σ σ1 h1 h2 => ⟨σ, σ1, h1, h2, by decide,
      rmv_null_only_when_unlinked Build.plain 0 σ σ1 .rmv h1 h2 (by decide)⟩
  exact key _ _ r1 (CStep.ret _ (.entry .rmv) _ none rfl rfl)

/-- Counterexample to C2 as stated: on the freshly initialised queue 0 a
producer stores `NULL` into `node 1` and performs the exchange of
`add(0, node 1)`, so that the head is `node 1` and the message is published,
but not yet its link store; the consumer then calls `rmv`, whose first step
returns `NULL` although the head is not the sentinel and `node 1` is queued. -/
theorem rmv_null_while_published_counterexample :
    ∃ σ σ1, Reach true Build.plain 0 σ ∧ CStep true Build.plain 0 σ (some (.rmv, none)) σ1 ∧
      σ.inflight = [(Addr.stub 0, Addr.node 1)] ∧ σ.queued = [Addr.node 1] ∧
      (σ.mem.fifos 0).pHead = some (.node 1) ∧
      (σ.mem.fifos 0).pHead ≠ some (.stub 0) := by
  have r0 : Reach true Build.plain 0 _ := @Reach.init true Build.plain 0 Mem.zero
  have r1 : Reach true Build.plain 0 _ := Reach.step _ _ _ r0
    (CStep.clear _ (.node 1) _ (by decide) (fun _ => ⟨by decide, by decide⟩) rfl)
  have r2 : Reach true Build.plain 0 _ := Reach.step _ _ _ r1
    (CStep.xchg _ [] [] (.node 1) (.stub 0) _ rfl rfl)
  have r3 : Reach true Build.plain 0 _ := Reach.step _ _ _ r2 (CStep.call _ .rmv rfl)
  have key : ∀ σ σ1, Reach true Build.plain 0 σ →
      CStep true Build.plain 0 σ (some (.rmv, none)) σ1 →
      σ.inflight = [(Addr.stub 0, Addr.node 1)] → σ.queued = [Addr.node 1] →
      (σ.mem.fifos 0).pHead = some (.node 1) →
      ∃ σ σ1, Reach true Build.plain 0 σ ∧
        CStep true Build.plain 0 σ (some (.rmv, none)) σ1 ∧
        σ.inflight = [(Addr.stub 0, Addr.node 1)] ∧ σ.queued = [Addr.node 1] ∧
        (σ.mem.fifos 0).pHead = some (.node 1) ∧
        (σ.mem.fifos 0).pHead ≠ some (.stub 0) :=
    fun σ σ1 h1 h2 h3 h4 h5 => ⟨σ, σ1, h1, h2, h3, h4, h5, by rw [h5]; decide⟩
  exact key _ _ r3 (CStep.ret _ (.entry .rmv) _ none rfl rfl) rfl rfl rfl

/-- An execution in which a producer's exchange falls between the head read of
`rmv` and its `add(&stub)`: with `node 1` queued alone the consumer reads the
head, the producer of `node 2` exchanges the head, the consumer enqueues the
stub behind `node 2`, finds `node 1` still unlinked and yields once, the
producer stores its link, and `rmv` does its two stores and returns `node 1`.
Afterwards the tail is `node 2`, whose `pNext` is the stub, the head is the
stub and the stub's `pNext` is `NULL`. -/
theorem rmv_released_by_link_store :
    ∃ σ σ1, Reach true Build.plain 0 σ ∧
      CStep true Build.plain 0 σ (some (.rmv, some (.node 1))) σ1 ∧
      σ.mem.yields = 1 ∧
      (σ1.mem.fifos 0).pTail = some (.node 2) ∧
      (σ1.mem.msgs (.node 2)).pNext = some (.stub 0) ∧
      (σ1.mem.fifos 0).pHead = some (.stub 0) ∧
      (σ1.mem.msgs (.stub 0)).pNext = none ∧
      (σ1.mem.fifos 0).msgs_processed = 1 ∧
      σ1.queued = [Addr.node 2] ∧ σ1.inflight = [] := by
  have r0 : Reach true Build.plain 0 _ := @Reach.init true Build.plain 0 Mem.zero
  have r1 : Reach true Build.plain 0 _ := Reach.step _ _ _ r0
    (CStep.clear _ (.node 1) _ (by decide) (fun _ => ⟨by decide, by decide⟩) rfl)
  have r2 : Reach true Build.plain 0 _ := Reach.step _ _ _ r1
    (CStep.xchg _ [] [] (.node 1) (.stub 0) _ rfl rfl)
  have r3 : Reach true Build.plain 0 _ := Reach.step _ _ _ r2
    (CStep.link _ [] [] (.stub 0) (.node 1) _ rfl rfl)
  have r4 : Reach true Build.plain 0 _ := Reach.step _ _ _ r3
    (CStep.count _ [] [] (.node 1) rfl)
  have r5 : Reach true Build.plain 0 _ := Reach.step _ _ _ r4 (CStep.call _ .rmv rfl)
  have r6 : Reach true Build.plain 0 _ := Reach.step _ _ _ r5
    (CStep.go _ (.entry .rmv) (.skip .rmv (.node 1)) _ rfl rfl)
  have r7 : Reach true Build.plain 0 _ := Reach.step _ _ _ r6
    (CStep.go _ (.skip .rmv (.node 1)) (.second .rmv (.node 1)) _ rfl rfl)
  have r8 : Reach true Build.plain 0 _ := Reach.step _ _ _ r7
    (CStep.go _ (.second .rmv (.node 1)) (.readHead .rmv (.node 1)) _ rfl rfl)
  have r9 : Reach true Build.plain 0 _ := Reach.step _ _ _ r8
    (CStep.go _ (.readHead .rmv (.node 1)) (.clear .rmv (.node 1)) _ rfl rfl)
  have r10 : Reach true Build.plain 0 _ := Reach.step _ _ _ r9
    (CStep.clear _ (.node 2) _ (by decide) (fun _ => ⟨by decide, by decide⟩) rfl)
  have r11 : Reach true Build.plain 0 _ := Reach.step _ _ _ r10
    (CStep.xchg _ [] [] (.node 2) (.node 1) _ rfl rfl)
  have r12 : Reach true Build.plain 0 _ := Reach.step _ _ _ r11
    (CStep.go _ (.clear .rmv (.node 1)) (.xchg .rmv (.node 1)) _ rfl rfl)
  have r13 : Reach true Build.plain 0 _ := Reach.step _ _ _ r12
    (CStep.go _ (.xchg .rmv (.node 1)) (.link .rmv (.node 1) (some (.node 2))) _ rfl rfl)
  have r14 : Reach true Build.plain 0 _ := Reach.step _ _ _ r13
    (CStep.go _ (.link .rmv (.node 1) (some (.node 2))) (.wait .rmv (.node 1)) _ rfl rfl)
  have r15 : Reach true Build.plain 0 _ := Reach.step _ _ _ r14
    (CStep.go _ (.wait .rmv (.node 1)) (.yield .rmv (.node 1)) _ rfl rfl)
  have r16 : Reach true Build.plain 0 _ := Reach.step _ _ _ r15
    (CStep.go _ (.yield .rmv (.node 1)) (.wait .rmv (.node 1)) _ rfl rfl)
  have r17 : Reach true Build.plain 0 _ := Reach.step _ _ _ r16
    (CStep.link _ [] [] (.node 1) (.node 2) _ rfl rfl)
  have r18 : Reach true Build.plain 0 _ := Reach.step _ _ _ r17
    (CStep.go _ (.wait .rmv (.node 1))
      (.commit .rmv (.node 1) (.node 2) [.processed, .tail]) _ rfl rfl)
  have r19 : Reach true Build.plain 0 _ := Reach.step _ _ _ r18
    (CStep.go _ (.commit .rmv (.node 1) (.node 2) [.processed, .tail])
      (.commit .rmv (.node 1) (.node 2) [.tail]) _ rfl rfl)
  have r20 : Reach true Build.plain 0 _ := Reach.step _ _ _ r19
    (CStep.go _ (.commit .rmv (.node 1) (.node 2) [.tail])
      (.commit .rmv (.node 1) (.node 2) []) _ rfl rfl)
  exact ⟨_, _, r20,
    CStep.ret _ (.commit .rmv (.node 1) (.node 2) []) _ (some (.node 1)) rfl rfl,
    rfl, rfl, rfl, rfl, rfl, rfl, rfl, rfl⟩

/-! ## The consumer running alone is the dequeue call -/

theorem drive_succ (b : Build) (q n : Nat) (s : Mem) (c : Ctl) :
    drive b q (n + 1) s c =
      (consumer_step b q s c).bind fun r =>
        match r.2 with
        | .ret p => .ok (r.1, p)
        | .go c1 => drive b q n r.1 c1 := rfl

/-- From `commit` the consumer does the stores left and returns `pTail`. -/
theorem drive_commit (b : Build) (q : Nat) (k : Deq) (a n : Addr) (todo : List Commit)
    (s : Mem) :
    drive b q (todo.length + 1) s (.commit k a n todo) =
      .ok (todo.foldl (fun s1 o => o.exec b q n s1) s, some a) := by
  induction todo generalizing s with
  | nil => rfl
  | cons o todo ih =>
    rw [List.length_cons, drive_succ]
    simp only [consumer_step, Res.bind_ok, List.foldl_cons]
    exact ih _

/-- The stores of a successful `rmv` are those of lines 326-327 (285-288). -/
theorem commits_rmv (b : Build) (q : Nat) (k : Deq) (n : Addr) (s : Mem)
    (hk : k ≠ .rmv_non_stalling) :
    (commits b k).foldl (fun s1 o => o.exec b q n s1) s =
      ((s.incProcessed q).setTail q (some n)).addCount b q (-1) := by
  unfold commits
  rw [if_neg (fun h => hk h.1)]
  by_cases hcnt : b.counting = true
  · rw [if_pos hcnt]
    rfl
  · rw [if_neg hcnt]
    simp only [List.append_nil, List.foldl_cons, List.foldl_nil, Commit.exec, Mem.addCount]
    rw [if_neg hcnt]

/-- The wait loop of `rmv`, step by step. -/
theorem drive_wait (b : Build) (q : Nat) (k : Deq) (a : Addr) (hk : k ≠ .rmv_non_stalling)
    (fuel : Nat) (s s1 : Mem) (n : Addr)
    (h : rmv_wait a fuel s (s.msgs a).pNext = .ok (s1, n)) :
    ∃ j, ∀ m, drive b q (m + j) s (.wait k a) =
      drive b q m s1 (.commit k a n (commits b k)) := by
  induction fuel generalizing s with
  | zero =>
    cases hn : (s.msgs a).pNext with
    | none => rw [hn] at h; simp [rmv_wait] at h
    | some n1 =>
      rw [hn] at h
      simp only [rmv_wait, Res.ok.injEq, Prod.mk.injEq] at h
      obtain ⟨rfl, rfl⟩ := h
      refine ⟨1, fun m => ?_⟩
      rw [drive_succ]
      simp only [consumer_step, hn, Res.bind_ok]
  | succ fuel ih =>
    cases hn : (s.msgs a).pNext with
    | none =>
      rw [hn] at h
      simp only [rmv_wait] at h
      obtain ⟨j, hj⟩ := ih (sched_yield s) h
      refine ⟨j + 2, fun m => ?_⟩
      rw [← hj m]
      show drive b q (m + j + 1 + 1) s (.wait k a) = _
      rw [drive_succ]
      simp only [consumer_step, hn, hk, if_false, Res.bind_ok]
      rw [drive_succ]
      simp only [consumer_step, Res.bind_ok]
    | some n1 =>
      rw [hn] at h
      simp only [rmv_wait, Res.ok.injEq, Prod.mk.injEq] at h
      obtain ⟨rfl, rfl⟩ := h
      refine ⟨1, fun m => ?_⟩
      rw [drive_succ]
      simp only [consumer_step, hn, Res.bind_ok]

/-- The tail of `rmv`, from the test of `pNext` on, step by step. -/
theorem drive_rmv_rest (b : Build) (q : Nat) (k : Deq) (a : Addr)
    (hk : k ≠ .rmv_non_stalling) (fuel : Nat) (s : Mem) (p : Ptr) (r : Mem × Ptr)
    (h : rmv_rest b fuel s q a p = .ok r) :
    ∃ j, ∀ c, consumer_loaded b k a p = .go c → drive b q j s c = .ok r := by
  cases p with
  | some n =>
    simp only [rmv_rest, Res.bind_ok, Res.ok.injEq] at h
    subst h
    refine ⟨(commits b k).length + 1, fun c hc => ?_⟩
    simp only [consumer_loaded, Next.go.injEq] at hc
    subst hc
    rw [drive_commit, commits_rmv b q k n s hk]
  | none =>
    simp only [rmv_rest] at h
    by_cases hh : some a = (s.fifos q).pHead
    · rw [if_pos hh] at h
      have hadd : add b s q (some (.stub q)) =
          .ok (((s.setNext (.stub q) none).setHead q (some (.stub q))).setNext a
            (some (.stub q))) := by
        simp [add, add_swap, add_link, ← hh]
      rw [hadd] at h
      simp only [Res.bind_ok] at h
      cases hw : rmv_wait a fuel
          (((s.setNext (.stub q) none).setHead q (some (.stub q))).setNext a (some (.stub q)))
          ((((s.setNext (.stub q) none).setHead q (some (.stub q))).setNext a
            (some (.stub q))).msgs a).pNext with
      | fault => rw [hw] at h; simp at h
      | stalled => rw [hw] at h; simp at h
      | ok v =>
        obtain ⟨s1, n⟩ := v
        rw [hw] at h
        simp only [Res.bind_ok, Res.ok.injEq] at h
        subst h
        obtain ⟨j, hj⟩ := drive_wait b q k a hk fuel _ s1 n hw
        refine ⟨(commits b k).length + 1 + j + 4, fun c hc => ?_⟩
        simp only [consumer_loaded, Next.go.injEq] at hc
        subst hc
        rw [drive_succ]
        simp only [consumer_step, hh, if_true, Res.bind_ok]
        rw [drive_succ]
        simp only [consumer_step, add_clear, Res.bind_ok]
        rw [drive_succ]
        simp only [consumer_step, add_xchg, Res.bind_ok, setNext_fifos, ← hh]
        rw [drive_succ]
        simp only [consumer_step, add_store, add_count_step, ne_eq, not_true_eq_false,
          if_false, Res.bind_ok]
        rw [hj, drive_commit, commits_rmv b q k n s1 hk]
    · rw [if_neg hh] at h
      simp only [Res.bind_ok] at h
      cases hw : rmv_wait a fuel s (s.msgs a).pNext with
      | fault => rw [hw] at h; simp at h
      | stalled => rw [hw] at h; simp at h
      | ok v =>
        obtain ⟨s1, n⟩ := v
        rw [hw] at h
        simp only [Res.bind_ok, Res.ok.injEq] at h
        subst h
        obtain ⟨j, hj⟩ := drive_wait b q k a hk fuel s s1 n hw
        refine ⟨(commits b k).length + 1 + j + 1, fun c hc => ?_⟩
        simp only [consumer_loaded, Next.go.injEq] at hc
        subst hc
        rw [drive_succ]
        simp only [consumer_step, hh, hk, if_false, Res.bind_ok]
        rw [hj, drive_commit, commits_rmv b q k n s1 hk]

theorem drive_loaded (b : Build) (q : Nat) (k : Deq) (a : Addr) (p : Ptr) (j : Nat)
    (s : Mem) (c : Ctl) (R : Res (Mem × Ptr))
    (hstep : consumer_step b q s c = .ok (s, consumer_loaded b k a p))
    (h : ∀ c1, consumer_loaded b k a p = .go c1 → drive b q j s c1 = R) :
    drive b q (j + 1) s c = R := by
  rw [drive_succ, hstep]
  rcases consumer_loaded_cases b k a p with ⟨-, e⟩ | ⟨n, -, e⟩
  · simp only [Res.bind_ok, e]
    exact h _ e
  · simp only [Res.bind_ok, e]
    exact h _ e

/-- `rmv` from its first line, step by step. -/
theorem drive_rmv (b : Build) (q : Nat) (k : Deq) (hk : k ≠ .rmv_non_stalling) (fuel : Nat)
    (s : Mem) (r : Mem × Ptr) (h : rmv b fuel s q = .ok r) :
    ∃ j, drive b q j s (.entry k) = .ok r := by
  simp only [rmv] at h
  cases ht : (s.fifos q).pTail with
  | none => rw [ht] at h; simp at h
  | some t =>
    rw [ht] at h
    dsimp only at h
    by_cases hts : t = Addr.stub q
    · subst hts
      rw [if_pos rfl] at h
      cases hn : (s.msgs (Addr.stub q)).pNext with
      | none =>
        rw [hn] at h
        simp only [Res.ok.injEq] at h
        subst h
        refine ⟨1, ?_⟩
        rw [drive_succ]
        simp only [consumer_step, ht, if_true, hn, Res.bind_ok]
      | some n =>
        rw [hn] at h
        dsimp only at h
        obtain ⟨j, hj⟩ := drive_rmv_rest b q k n hk fuel _ _ r h
        refine ⟨j + 1 + 2, ?_⟩
        rw [drive_succ]
        simp only [consumer_step, ht, if_true, hn, Res.bind_ok]
        rw [drive_succ]
        simp only [consumer_step, Res.bind_ok]
        exact drive_loaded b q k n _ j _ _ _ rfl hj
    · rw [if_neg hts] at h
      obtain ⟨j, hj⟩ := drive_rmv_rest b q k t hk fuel _ _ r h
      refine ⟨j + 1, ?_⟩
      apply drive_loaded b q k t _ j _ _ _ ?_ hj
      simp only [consumer_step, ht, if_neg hts]

/-- The stores of a successful `rmv_non_stalling` are those of lines 144 (163),
176 and 178 under `USE_ATOMIC_TYPES`, of lines 213-214 otherwise. -/
theorem commits_non_stalling (b : Build) (q : Nat) (n : Addr) (s : Mem) :
    (commits b .rmv_non_stalling).foldl (fun s1 o => o.exec b q n s1) s =
      if b.USE_ATOMIC_TYPES = true then
        ((s.setTail q (some n)).incProcessed q).addCount b q (-1)
      else (s.incProcessed q).setTail q (some n) := by
  unfold commits
  by_cases hu : b.USE_ATOMIC_TYPES = true
  · rw [if_pos ⟨rfl, hu⟩, if_pos hu]
    by_cases hcnt : b.counting = true
    · rw [if_pos hcnt]
      rfl
    · rw [if_neg hcnt]
      simp only [List.append_nil, List.foldl_cons, List.foldl_nil, Commit.exec, Mem.addCount]
      rw [if_neg hcnt]
  · rw [if_neg (fun h => hu h.2), if_neg hu]
    have hcnt : ¬ b.counting = true := by
      simp only [Build.counting, Bool.and_eq_true, not_and]
      exact fun h => absurd h hu
    rw [if_neg hcnt]
    rfl

/-- The tail of `rmv_non_stalling`, from the test of `pNext` on, step by
step. -/
theorem drive_non_stalling_rest (b : Build) (q : Nat) (a : Addr) (s : Mem) (p : Ptr) :
    ∃ j, ∀ c, consumer_loaded b .rmv_non_stalling a p = .go c →
      drive b q j s c = rmv_non_stalling_rest b s q a p := by
  have hdone : ∀ (s1 : Mem) (n : Addr),
      drive b q ((commits b .rmv_non_stalling).length + 1) s1
        (.commit .rmv_non_stalling a n (commits b .rmv_non_stalling)) =
      if b.USE_ATOMIC_TYPES = true then
        .ok (((s1.setTail q (some n)).incProcessed q).addCount b q (-1), some a)
      else .ok ((s1.incProcessed q).setTail q (some n), some a) := by
    intro s1 n
    rw [drive_commit, commits_non_stalling]
    split <;> rfl
  cases p with
  | some n =>
    refine ⟨(commits b .rmv_non_stalling).length + 1, fun c hc => ?_⟩
    simp only [consumer_loaded, Next.go.injEq] at hc
    subst hc
    rw [hdone]
    unfold rmv_non_stalling_rest
    split <;> rfl
  | none =>
    by_cases hh : some a = (s.fifos q).pHead
    · have hadd : add b s q (some (.stub q)) =
          .ok (((s.setNext (.stub q) none).setHead q (some (.stub q))).setNext a
            (some (.stub q))) := by
        simp [add, add_swap, add_link, ← hh]
      refine ⟨(commits b .rmv_non_stalling).length + 1 + 5, fun c hc => ?_⟩
      simp only [consumer_loaded, Next.go.injEq] at hc
      subst hc
      rw [drive_succ]
      simp only [consumer_step, hh, if_true, Res.bind_ok]
      rw [drive_succ]
      simp only [consumer_step, add_clear, Res.bind_ok]
      rw [drive_succ]
      simp only [consumer_step, add_xchg, Res.bind_ok, setNext_fifos, ← hh]
      rw [drive_succ]
      simp only [consumer_step, add_store, add_count_step, ne_eq, not_true_eq_false,
        if_false, Res.bind_ok]
      rw [drive_succ]
      unfold rmv_non_stalling_rest
      simp only [hh, ne_eq, not_true_eq_false, if_false, hadd, Res.bind_ok]
      cases hn : ((((s.setNext (.stub q) none).setHead q (some (.stub q))).setNext a
          (some (.stub q))).msgs a).pNext with
      | none =>
        simp only [consumer_step, hn, if_true, Res.bind_ok]
        split <;> rfl
      | some n =>
        simp only [consumer_step, hn, Res.bind_ok]
        rw [hdone, hh]
    · refine ⟨1, fun c hc => ?_⟩
      simp only [consumer_loaded, Next.go.injEq] at hc
      subst hc
      rw [drive_succ]
      unfold rmv_non_stalling_rest
      simp only [consumer_step, hh, if_false, if_true, Res.bind_ok, ne_eq, not_false_eq_true]
      split <;> rfl

/-- `rmv_non_stalling` from its first line, step by step. -/
theorem drive_non_stalling (b : Build) (q : Nat) (s : Mem)
    (h : (s.fifos q).pTail ≠ none) :
    ∃ j, drive b q j s (.entry .rmv_non_stalling) = rmv_non_stalling b s q := by
  simp only [rmv_non_stalling]
  cases ht : (s.fifos q).pTail with
  | none => exact absurd ht h
  | some t =>
    dsimp only
    by_cases hts : t = Addr.stub q
    · subst hts
      rw [if_pos rfl]
      cases hn : (s.msgs (Addr.stub q)).pNext with
      | none =>
        refine ⟨1, ?_⟩
        rw [drive_succ]
        simp only [consumer_step, ht, if_true, hn, Res.bind_ok]
      | some n =>
        dsimp only
        obtain ⟨j, hj⟩ := drive_non_stalling_rest b q n (s.setTail q (some n))
          ((s.setTail q (some n)).msgs n).pNext
        refine ⟨j + 1 + 2, ?_⟩
        rw [drive_succ]
        simp only [consumer_step, ht, if_true, hn, Res.bind_ok]
        rw [drive_succ]
        simp only [consumer_step, Res.bind_ok]
        exact drive_loaded b q _ n _ j _ _ _ rfl hj
    · rw [if_neg hts]
      obtain ⟨j, hj⟩ := drive_non_stalling_rest b q t s (s.msgs t).pNext
      refine ⟨j + 1, ?_⟩
      apply drive_loaded b q _ t _ j _ _ _ ?_ hj
      simp only [consumer_step, ht, if_neg hts]

/-- The consumer thread running alone computes the dequeue call: whenever
`rmv`, `rmv_non_stalling` or `rmv_no_dbg_on_empty` returns on the heap `s`,
the steps of the consumer from the first control point of that entry point
end, after finitely many of them, with the same heap and the same returned
pointer. -/
theorem drive_dequeue (b : Build) (fuel : Nat) (k : Deq) (s : Mem) (q : Nat) (r : Mem × Ptr)
    (h : dequeue b fuel k s q = .ok r) :
    ∃ j, drive b q j s (Ctl.start k) = .ok r := by
  cases k with
  | rmv => exact drive_rmv b q .rmv (by decide) fuel s r h
  | rmv_non_stalling =>
    have ht : (s.fifos q).pTail ≠ none := by
      intro e
      simp [dequeue, rmv_non_stalling, e] at h
    obtain ⟨j, hj⟩ := drive_non_stalling b q s ht
    exact ⟨j, hj.trans h⟩
  | rmv_no_dbg_on_empty =>
    simp only [dequeue, rmv_no_dbg_on_empty] at h
    cases ht : (s.fifos q).pTail with
    | none => rw [ht] at h; simp at h
    | some t =>
      rw [ht] at h
      dsimp only at h
      by_cases hc : (s.msgs t).pNext = none ∧ t = Addr.stub q
      · rw [if_pos hc] at h
        simp only [Res.ok.injEq] at h
        subst h
        refine ⟨1, ?_⟩
        show drive b q 1 s .check = _
        rw [drive_succ]
        simp only [consumer_step, ht, if_pos hc, Res.bind_ok]
      · rw [if_neg hc] at h
        obtain ⟨j, hj⟩ := drive_rmv b q .rmv_no_dbg_on_empty (by decide) fuel s r h
        refine ⟨j + 1, ?_⟩
        show drive b q (j + 1) s .check = _
        rw [drive_succ]
        simp only [consumer_step, ht, if_neg hc, Res.bind_ok]
        exact hj

/-! ## C4: a pool whose sentinel is linked on another queue -/

/-- Counterexample to C4 as stated: on `Mem.shared` the pool, queue 1, is
initialised and empty, queue 0 is another initialised queue, and `node 5` asks
for no response, has pool 1 and is linked on no queue; but the sentinel of
queue 1 is linked on queue 0, so after `send_rsp_or_ret(node 5, 42)` the chain
from the tail of queue 0 has changed and reaches `node 5`. -/
theorem reply_routing_shared_sentinel_counterexample :
    (0 : Nat) ≠ 1 ∧ IsEmptyQ Mem.shared 1 ∧
      (Mem.shared.fifos 0).pTail = some (.stub 0) ∧
      (Mem.shared.fifos 0).pHead = some (.stub 1) ∧
      (Mem.shared.msgs (.node 5)).pRspQ = none ∧
      (Mem.shared.msgs (.node 5)).pPool = some 1 ∧
      (∀ q, ¬ onQueue Mem.shared q (.node 5)) ∧
      ∃ s1, send_rsp_or_ret Build.plain Mem.shared (some (.node 5)) 42 = .ok s1 ∧
        (∃ s2, dequeue Build.plain 0 .rmv s1 1 = .ok (s2, some (.node 5))) ∧
        walk Mem.shared 2 (Mem.shared.fifos 0).pTail = none ∧
        walk s1 2 (s1.fifos 0).pTail = some (.node 5) ∧ onQueue s1 0 (.node 5) := by
  refine ⟨by decide, ⟨rfl, rfl, rfl⟩, rfl, rfl, rfl, rfl, ?_, _, rfl, ⟨_, rfl⟩, rfl, rfl,
    ⟨2, rfl⟩⟩
  intro q
  rintro ⟨n, hn⟩
  by_cases h0 : q = 0
  · subst h0
    rcases n with _ | _ | _ | n
    · exact absurd hn (by decide)
    · exact absurd hn (by decide)
    · exact absurd hn (by decide)
    · have e : walk Mem.shared (n + 1 + 1 + 1) (Mem.shared.fifos 0).pTail = none := rfl
      rw [e] at hn
      exact Option.noConfusion hn
  · by_cases h1 : q = 1
    · subst h1
      rcases n with _ | _ | n
      · exact absurd hn (by decide)
      · exact absurd hn (by decide)
      · have e : walk Mem.shared (n + 1 + 1) (Mem.shared.fifos 1).pTail = none := rfl
        rw [e] at hn
        exact Option.noConfusion hn
    · have ht : (Mem.shared.fifos q).pTail = none := by
        simp [Mem.shared, add, add_swap, add_link, Mem.addCount, Build.counting, Build.plain,
          Mem.two, Mem.setPool, initMpscFifo, Mem.zero, Mem.setHead, Mem.setNext, h0, h1]
      rw [ht, walk_none] at hn
      exact Option.noConfusion hn

end MpscFifo
